import Mathlib

/-!
Verification development for the DateNest repository.

The repository is a desktop image-curation tool backed by a SQLite store
(`app.py`, schema in `scripts/init_db.py`) plus a small standalone ingestion
library (`datenest/db.py`, `datenest/importer.py`).  This file gives a shallow
embedding of the store, its mutating operations, the search evaluator, the
CSV-attachment heuristic, the archive export/import codec and the standalone
importer, and proves properties of them.

Modelling conventions:
- SQLite tables are lists of row structures, kept in rowid (insertion) order;
  each table carries its next fresh rowid in the `State` record.
- Timestamps (ISO strings produced by `datetime.now().isoformat()`) are
  abstracted to `Int` values threaded into each operation as an explicit
  `now` argument, since `datetime.now()` is an impure input.
- String operations are implemented over `String.data` (`List Char`) by
  structural recursion so that all definitions are executable and concrete
  runs reduce in the kernel.  They agree with the Python operations used by
  the source on the ASCII strings the store manipulates.
- `sha256` digests are abstracted as the identity on file contents
  (collision-resistance idealization): two files have equal digests exactly
  when their bytes are equal.
-/

/-! ## Character-list string helpers -/

/-- Lower-case a single ASCII character, as Python `str.lower` does on ASCII. -/
def lowerChar (c : Char) : Char :=
  if 65 ≤ c.toNat && c.toNat ≤ 90 then Char.ofNat (c.toNat + 32) else c

/-- Lower-case a string (ASCII), modelling Python `str.lower`. -/
def sLower (s : String) : String := ⟨s.data.map lowerChar⟩

/-- Whitespace characters recognized by Python `str.strip` / `str.split`. -/
def isSpaceChar (c : Char) : Bool :=
  c == ' ' || c == '\t' || c == '\n' || c == '\r' || c.toNat == 11 || c.toNat == 12

/-- Strip leading and trailing whitespace, modelling Python `str.strip()`. -/
def sTrim (s : String) : String :=
  ⟨((s.data.dropWhile isSpaceChar).reverse.dropWhile isSpaceChar).reverse⟩

/-- Character-list prefix test. -/
def listStartsWith [DecidableEq α] : List α → List α → Bool
  | [], _ => true
  | _ :: _, [] => false
  | p :: ps, x :: xs => p == x && listStartsWith ps xs

/-- Does `s` start with `p`, modelling Python `str.startswith`. -/
def sStartsWith (s p : String) : Bool := listStartsWith p.data s.data

/-- Does `s` end with `p`, modelling Python `str.endswith`. -/
def sEndsWith (s p : String) : Bool := listStartsWith p.data.reverse s.data.reverse

/-- Drop the first `n` characters of `s`, modelling the Python slice `s[n:]`. -/
def sDrop (s : String) (n : Nat) : String := ⟨s.data.drop n⟩

/-- Character-list infix (substring) test. -/
def listHasSub [DecidableEq α] (needle : List α) : List α → Bool
  | [] => needle == []
  | x :: xs => listStartsWith needle (x :: xs) || listHasSub needle xs

/-- Substring containment, modelling the Python `needle in hay` test. -/
def sContains (hay needle : String) : Bool := listHasSub needle.data hay.data

/-- Split a character list at the first occurrence of `sep`, if present.
Models Python `v.split(sep, 1)` (together with the `sep in v` test). -/
def breakOnFirst [DecidableEq α] (sep : List α) : List α → Option (List α × List α)
  | [] => none
  | x :: xs =>
    if listStartsWith sep (x :: xs) then some ([], (x :: xs).drop sep.length)
    else (breakOnFirst sep xs).map (fun p => (x :: p.1, p.2))

/-- Tokenize on whitespace runs, discarding empty tokens: Python `str.split()`. -/
def splitWsAux (cur : List Char) (acc : List String) : List Char → List String
  | [] => if cur == [] then acc.reverse else (⟨cur.reverse⟩ :: acc).reverse
  | c :: cs =>
    if isSpaceChar c then
      if cur == [] then splitWsAux [] acc cs
      else splitWsAux [] (⟨cur.reverse⟩ :: acc) cs
    else splitWsAux (c :: cur) acc cs

/-- All whitespace-separated tokens of `s`, modelling Python `s.split()`. -/
def sTokens (s : String) : List String := splitWsAux [] [] s.data

/-- Parse a run of decimal digits as a `Nat`; `none` if empty or non-digit. -/
def digitsToNat : List Char → Option Nat
  | [] => none
  | cs =>
    if cs.all (fun c => 48 ≤ c.toNat && c.toNat ≤ 57) then
      some (cs.foldl (fun n c => n * 10 + (c.toNat - 48)) 0)
    else none

/-- Lexicographic comparison of character lists by code point (byte order on
ASCII), the collation SQLite uses for `ORDER BY` over `TEXT`. -/
def listLexLt : List Char → List Char → Bool
  | [], [] => false
  | [], _ :: _ => true
  | _ :: _, [] => false
  | x :: xs, y :: ys =>
    if x.toNat < y.toNat then true
    else if y.toNat < x.toNat then false
    else listLexLt xs ys

/-- Strict lexicographic string order (SQLite `BINARY` collation on ASCII). -/
def sLt (a b : String) : Bool := listLexLt a.data b.data

/-- Non-strict lexicographic string order. -/
def sLe (a b : String) : Bool := a == b || sLt a b

/-! ## A structurally recursive stable sort

`list.sort(key=...)` in Python and `ORDER BY` in SQLite are modelled with an
insertion sort over a boolean `le` relation.  It is stable: an element is
inserted before the first element it compares `le` to, and elements are folded
from the right, so equal elements keep their original relative order. -/

/-- Insert `x` before the first element `y` of `l` with `le x y`. -/
def insertLe (le : α → α → Bool) (x : α) : List α → List α
  | [] => [x]
  | y :: ys => if le x y then x :: y :: ys else y :: insertLe le x ys

/-- Stable insertion sort by the boolean relation `le`. -/
def sortByLe (le : α → α → Bool) : List α → List α
  | [] => []
  | x :: xs => insertLe le x (sortByLe le xs)

/-! ## The store: schema of `scripts/init_db.py`

Tables `images`, `users`, `tags`, `annotations`, `quality_votes`,
`attachments` (the `runs`, `metrics` and `authoritative` tables are never
touched by any operation in the repository and are omitted).  Each table is a
list of rows in rowid order plus a fresh-rowid counter. -/

structure UserRow where
  id : Nat
  username : String
  display_name : Option String
deriving DecidableEq, Repr

structure ImageRow where
  id : Nat
  rel_path : String
  sha256 : String
  created_at : Option Int
deriving DecidableEq, Repr

structure TagRow where
  id : Nat
  name : String
  category : String
  description : Option String
deriving DecidableEq, Repr

structure AnnotRow where
  id : Nat
  image_id : Nat
  tag_id : Nat
  user_id : Nat
  created_at : Int
  is_deleted : Bool
deriving DecidableEq, Repr

structure VoteRow where
  id : Nat
  image_id : Nat
  user_id : Nat
  label : String
  score : Option Int
  created_at : Int
deriving DecidableEq, Repr

structure AttRow where
  id : Nat
  image_id : Nat
  kind : String
  rel_path : String
  sha256 : String
  created_at : Option Int
deriving DecidableEq, Repr

structure State where
  users : List UserRow
  images : List ImageRow
  tags : List TagRow
  annots : List AnnotRow
  votes : List VoteRow
  atts : List AttRow
  nextUserId : Nat
  nextImageId : Nat
  nextTagId : Nat
  nextAnnotId : Nat
  nextVoteId : Nat
  nextAttId : Nat
deriving DecidableEq, Repr

/-- The freshly initialized store: all tables empty, rowids starting at 1. -/
def emptyState : State :=
  ⟨[], [], [], [], [], [], 1, 1, 1, 1, 1, 1⟩

/-! ## DB operations (`app.py`, class `DB`) -/

/-- `DB.ensure_user`: get-or-create by unique `username`. -/
def ensure_user (s : State) (username : String) (display_name : Option String) :
    Nat × State :=
  match s.users.find? (fun u => u.username == username) with
  | some u => (u.id, s)
  | none =>
    (s.nextUserId,
      { s with
        users := s.users ++ [⟨s.nextUserId, username, display_name⟩],
        nextUserId := s.nextUserId + 1 })

/-- `DB.upsert_image`: if the digest exists, update `rel_path` on the existing
row and return its id; otherwise insert. -/
def upsert_image (s : State) (rel_path sha256 : String) (created_at : Option Int) :
    Nat × State :=
  match s.images.find? (fun i => i.sha256 == sha256) with
  | some r =>
    (r.id,
      { s with
        images := s.images.map (fun i =>
          if i.id == r.id then { i with rel_path := rel_path } else i) })
  | none =>
    (s.nextImageId,
      { s with
        images := s.images ++ [⟨s.nextImageId, rel_path, sha256, created_at⟩],
        nextImageId := s.nextImageId + 1 })

/-- `DB.upsert_tag`: get-or-create by unique `(name, category)`. -/
def upsert_tag (s : State) (name category : String) (description : Option String) :
    Nat × State :=
  match s.tags.find? (fun t => t.name == name && t.category == category) with
  | some t => (t.id, s)
  | none =>
    (s.nextTagId,
      { s with
        tags := s.tags ++ [⟨s.nextTagId, name, category, description⟩],
        nextTagId := s.nextTagId + 1 })

/-- Active (non-deleted) annotation rows of an image. -/
def activeAnnots (s : State) (image_id : Nat) : List AnnotRow :=
  s.annots.filter (fun a => a.image_id == image_id && !a.is_deleted)

/-- `COUNT(DISTINCT user_id)` over the active annotation rows of an image,
the quantity tested by the `trg_limit_annotators` trigger. -/
def distinctActiveUsers (s : State) (image_id : Nat) : Nat :=
  ((activeAnnots s image_id).map (fun a => a.user_id)).toFinset.card

/-- Result of `DB.add_tag_for_user`.  The trigger `trg_limit_annotators`
raises `ABORT` out of the `INSERT`; the carried state is the state left
committed in the store in either case (in particular a tag row freshly
created by the initial `upsert_tag` call stays committed on failure). -/
inductive AddResult where
  | ok (s : State)
  | capacityError (s : State)
deriving DecidableEq, Repr

/-- The committed store state after an `add_tag_for_user` call. -/
def AddResult.state : AddResult → State
  | .ok s => s
  | .capacityError s => s

/-- Did the `add_tag_for_user` call succeed? -/
def AddResult.isOk : AddResult → Bool
  | .ok _ => true
  | .capacityError _ => false

/-- `DB.add_tag_for_user`: upsert the tag, then reactivate an existing
`(image, tag, user)` row if it is soft-deleted, do nothing if it is active,
and otherwise insert a fresh active row.  The `BEFORE INSERT` trigger
`trg_limit_annotators` aborts the insert when the image already has 5 or
more distinct active annotators; it does not run on the `UPDATE` path. -/
def add_tag_for_user (s : State) (image_id : Nat) (tag_name : String)
    (user_id : Nat) (category : String) (now : Int) : AddResult :=
  let r := upsert_tag s tag_name category none
  let tag_id := r.1
  let s1 := r.2
  match s1.annots.find? (fun a =>
      a.image_id == image_id && a.tag_id == tag_id && a.user_id == user_id) with
  | some a =>
    if a.is_deleted then
      .ok { s1 with
        annots := s1.annots.map (fun b =>
          if b.id == a.id then { b with is_deleted := false, created_at := now } else b) }
    else
      .ok s1
  | none =>
    if 5 ≤ distinctActiveUsers s1 image_id then
      .capacityError s1
    else
      .ok { s1 with
        annots := s1.annots ++ [⟨s1.nextAnnotId, image_id, tag_id, user_id, now, false⟩],
        nextAnnotId := s1.nextAnnotId + 1 }

/-- `DB.remove_tag_for_user`: look up the tag by `(name, category)`; if absent
do nothing, else soft-delete (set `is_deleted=1` and refresh `created_at` on)
every annotation row matching `(image_id, tag_id, user_id)`. -/
def remove_tag_for_user (s : State) (image_id : Nat) (tag_name : String)
    (user_id : Nat) (category : String) (now : Int) : State :=
  match s.tags.find? (fun t => t.name == tag_name && t.category == category) with
  | none => s
  | some t =>
    { s with
      annots := s.annots.map (fun a =>
        if a.image_id == image_id && a.tag_id == t.id && a.user_id == user_id then
          { a with is_deleted := true, created_at := now }
        else a) }

/-- Labels admitted by the `CHECK` constraint on `quality_votes`. -/
def validLabel (label : String) : Bool :=
  label == "good" || label == "review" || label == "bad"

/-- `DB.upsert_quality`: `INSERT OR REPLACE` keyed on the unique
`(image_id, user_id)` pair — any existing row for the pair is deleted and a
fresh row is inserted.  The `CHECK(label IN ...)` constraint rejects other
labels (an `IntegrityError`, leaving the store unchanged).  `whenArg` models
the optional `when` argument; `now` models `datetime.now()` used as default. -/
def upsert_quality (s : State) (image_id user_id : Nat) (label : String)
    (score : Option Int) (whenArg : Option Int) (now : Int) : Except String State :=
  let whenTs := whenArg.getD now
  if validLabel label then
    .ok { s with
      votes := s.votes.filter (fun v => !(v.image_id == image_id && v.user_id == user_id))
        ++ [⟨s.nextVoteId, image_id, user_id, label, score, whenTs⟩],
      nextVoteId := s.nextVoteId + 1 }
  else
    .error "CHECK constraint failed: quality_votes"

/-- `DB.upsert_attachment`: idempotent by unique digest; if the digest exists
return the existing attachment id without re-linking, else insert. -/
def upsert_attachment (s : State) (image_id : Nat) (kind rel_path sha256 : String)
    (created_at : Option Int) : Nat × State :=
  match s.atts.find? (fun a => a.sha256 == sha256) with
  | some a => (a.id, s)
  | none =>
    (s.nextAttId,
      { s with
        atts := s.atts ++ [⟨s.nextAttId, image_id, kind, rel_path, sha256, created_at⟩],
        nextAttId := s.nextAttId + 1 })

/-- The rows of `DB.get_tags_for_image` before the username/tag joins:
active annotation rows of the image joined with their tag and user rows,
ordered by `(category, name)` as in the query's `ORDER BY`.  Rows whose
`tag_id`/`user_id` dangle (impossible under foreign keys) drop out of the
`JOIN`. -/
def get_tags_for_image (s : State) (image_id : Nat) :
    List (AnnotRow × TagRow × UserRow) :=
  sortByLe
    (fun x y =>
      sLt x.2.1.category y.2.1.category ||
        (x.2.1.category == y.2.1.category && sLe x.2.1.name y.2.1.name))
    ((activeAnnots s image_id).filterMap (fun a =>
      match s.tags.find? (fun t => t.id == a.tag_id),
            s.users.find? (fun u => u.id == a.user_id) with
      | some t, some u => some (a, t, u)
      | _, _ => none))

/-- `DB.get_csv_attachments`: attachment rows of the image with kind `csv`
(the `ORDER BY rel_path` only affects presentation order). -/
def get_csv_attachments (s : State) (image_id : Nat) : List AttRow :=
  s.atts.filter (fun a => a.image_id == image_id && a.kind == "csv")

/-! ## Public mutation surface as a step relation

The GUI layer reaches the store through these calls; ingestion (`reload_all`)
is a sequence of `upsert_image`/`upsert_attachment` calls, archive import a
sequence of `ensure_user`/`upsert_tag`/`upsert_image`/`upsert_attachment`/
`add_tag_for_user`/`upsert_quality` calls, so every state the application can
reach is reached by a list of these operations.  Exceptions (capacity or
check failures) are caught by the callers and leave the committed state. -/

inductive Op where
  | opEnsureUser (username : String) (display_name : Option String)
  | opUpsertImage (rel_path sha256 : String) (created_at : Option Int)
  | opUpsertTag (name category : String) (description : Option String)
  | opUpsertAttachment (image_id : Nat) (kind rel_path sha256 : String)
      (created_at : Option Int)
  | opAddTag (image_id : Nat) (tag_name : String) (user_id : Nat)
      (category : String) (now : Int)
  | opRemoveTag (image_id : Nat) (tag_name : String) (user_id : Nat)
      (category : String) (now : Int)
  | opUpsertQuality (image_id user_id : Nat) (label : String) (score : Option Int)
      (whenArg : Option Int) (now : Int)
deriving DecidableEq, Repr

/-- Apply one public operation to the store, keeping the committed state when
the operation raises. -/
def applyOp (s : State) : Op → State
  | .opEnsureUser u d => (ensure_user s u d).2
  | .opUpsertImage p sha c => (upsert_image s p sha c).2
  | .opUpsertTag n c d => (upsert_tag s n c d).2
  | .opUpsertAttachment i k p sha c => (upsert_attachment s i k p sha c).2
  | .opAddTag i t u c n => (add_tag_for_user s i t u c n).state
  | .opRemoveTag i t u c n => remove_tag_for_user s i t u c n
  | .opUpsertQuality i u l sc w n =>
    match upsert_quality s i u l sc w n with
    | .ok s' => s'
    | .error _ => s

/-- Run a list of public operations from a state. -/
def runOps (s : State) (ops : List Op) : State := ops.foldl applyOp s

/-! ## Search engine (`MainWindow._parse_date`, `MainWindow.on_search`)

Dates: `datetime.fromisoformat` is modelled on date-only `YYYY-MM-DD` strings
(the only forms the query surface documents); a parsed date maps to the
abstract timestamp `(y*10000 + m*100 + d) * 86400`, which is strictly
monotone in the calendar date, and one day is `86400`.  Any other string
fails to parse, modelling the exception path. -/

/-- Split a character list on a separator character (Python `str.split(sep)`). -/
def splitOnCharAux (sep : Char) (cur : List Char) (acc : List (List Char)) :
    List Char → List (List Char)
  | [] => (cur.reverse :: acc).reverse
  | c :: cs =>
    if c == sep then splitOnCharAux sep [] (cur.reverse :: acc) cs
    else splitOnCharAux sep (c :: cur) acc cs

/-- Length of one day in the abstract timestamp encoding. -/
def dayLen : Int := 86400

/-- Days in a month, with the Gregorian leap rule (`calendar` semantics). -/
def daysInMonth (y m : Nat) : Nat :=
  if m == 2 then
    if y % 4 == 0 && (y % 100 != 0 || y % 400 == 0) then 29 else 28
  else if m == 4 || m == 6 || m == 9 || m == 11 then 30
  else 31

/-- Modelled from `datetime.fromisoformat`, restricted to `YYYY-MM-DD`
date-only strings: four digit year (1..9999), zero-padded month and day in
calendar range; everything else raises, i.e. returns `none`. -/
def parseIso (s : String) : Option Int :=
  match splitOnCharAux '-' [] [] s.data with
  | [ys, ms, ds] =>
    if ys.length == 4 && ms.length == 2 && ds.length == 2 then
      match digitsToNat ys, digitsToNat ms, digitsToNat ds with
      | some y, some m, some d =>
        if 1 ≤ y && 1 ≤ m && m ≤ 12 && 1 ≤ d && d ≤ daysInMonth y m then
          some ((((y * 10000 + m * 100 + d) : Nat) : Int) * dayLen)
        else none
      | _, _, _ => none
    else none
  | _ => none

/-- The `try` body of `MainWindow._parse_date`; `none` is the exception path. -/
def parse_date_aux (v : String) : Option (Option Int × Option Int) :=
  match breakOnFirst ['.', '.'] v.data with
  | some p =>
    let a := sTrim ⟨p.1⟩
    let b := sTrim ⟨p.2⟩
    match (if a == "" then some none else (parseIso a).map some),
          (if b == "" then some none else (parseIso b).map some) with
    | some d1, some d2 => some (d1, d2)
    | _, _ => none
  | none =>
    if sStartsWith v ">=" then
      (parseIso (sTrim (sDrop v 2))).map (fun d => (some d, none))
    else if sStartsWith v "<=" then
      (parseIso (sTrim (sDrop v 2))).map (fun d => (none, some d))
    else
      (parseIso v).map (fun d => (some d, some (d + dayLen)))

/-- `MainWindow._parse_date`: strips the 5-character `date:` prefix and
parses the remainder; every exception degrades to `(None, None)`. -/
def parse_date (token : String) : Option Int × Option Int :=
  (parse_date_aux (sTrim (sDrop token 5))).getD (none, none)

/-- The per-image search index dictionaries built by `reload_all`; a missing
key reads as the empty set / `False` / `None` (`dict.get` defaults). -/
structure SearchIndex where
  map_tags_lower : Nat → List String
  map_cats : Nat → List String
  map_users : Nat → List String
  map_labels : Nat → List String
  map_has_csv : Nat → Bool
  map_created_at : Nat → Option Int

/-- The filter lists accumulated from the query tokens in `on_search`. -/
structure Filters where
  tag_subs : List String
  name_subs : List String
  cats : List String
  users : List String
  labels : List String
  has_csv : Option Bool
  date_range : Option Int × Option Int
deriving DecidableEq, Repr

/-- No filters: the state of the accumulator before any token. -/
def emptyFilters : Filters := ⟨[], [], [], [], [], none, (none, none)⟩

/-- One pass of the token-classification loop of `on_search`.  A later
`date:` token overwrites an earlier one; all list filters accumulate. -/
def classifyTokens : List String → Filters → Filters
  | [], f => f
  | t :: rest, f =>
    let tl := sLower t
    if sStartsWith tl "#" && 1 < tl.length then
      classifyTokens rest { f with tag_subs := f.tag_subs ++ [sDrop tl 1] }
    else if sStartsWith tl "cat:" then
      classifyTokens rest { f with cats := f.cats ++ [sDrop tl 4] }
    else if sStartsWith tl "user:" then
      classifyTokens rest { f with users := f.users ++ [sDrop tl 5] }
    else if sStartsWith tl "label:" then
      classifyTokens rest { f with labels := f.labels ++ [sDrop tl 6] }
    else if tl == "has:csv" then
      classifyTokens rest { f with has_csv := some true }
    else if sStartsWith tl "date:" || sStartsWith tl "date>=" || sStartsWith tl "date<=" then
      classifyTokens rest
        { f with date_range :=
            parse_date (if sStartsWith tl "date:" then "date:" ++ sDrop tl 5 else tl) }
    else
      classifyTokens rest { f with name_subs := f.name_subs ++ [tl] }

/-- The per-item filter chain of `on_search`: `true` when the item stays
visible (is a match), `false` when it is hidden. -/
def itemVisible (idx : SearchIndex) (f : Filters) (rel : String) (img_id : Nat) : Bool :=
  (f.name_subs.all (fun sub => sContains (sLower rel) sub)) &&
  (f.tag_subs.all (fun sub =>
    (idx.map_tags_lower img_id).any (fun t => sContains t sub))) &&
  (f.cats.all (fun c => (idx.map_cats img_id).contains c)) &&
  (f.users.all (fun u => (idx.map_users img_id).contains u)) &&
  (f.labels.all (fun l => (idx.map_labels img_id).contains l)) &&
  (!(f.has_csv == some true) || idx.map_has_csv img_id) &&
  (match f.date_range with
   | (none, none) => true
   | (d1, d2) =>
     match idx.map_created_at img_id with
     | none => false
     | some ts =>
       (match d1 with | none => true | some a => !(ts < a)) &&
       (match d2 with | none => true | some b => !(b ≤ ts)))

/-- `MainWindow.on_search`: classify the whitespace tokens of the query, then
keep exactly the items passing every filter.  Items are `(rel_path, image_id)`
pairs as stored in `all_items`; the result lists the ids left visible. -/
def on_search (items : List (String × Nat)) (idx : SearchIndex) (text : String) :
    List Nat :=
  let f := classifyTokens (sTokens (sTrim text)) emptyFilters
  (items.filter (fun it => itemVisible idx f it.1 it.2)).map (fun it => it.2)

/-! ## CSV auto-link heuristic (`MainWindow.reload_all`)

A directory listing is a list of sibling files with name, modification time,
digest and store-relative path.  Glob patterns with a literal stem are
modelled for stems without glob metacharacters (`*?[]`), which is every stem
exercised by the repository. -/

structure FsFile where
  name : String
  mtime : Int
  sha256 : String
  rel : String
deriving DecidableEq, Repr

/-- Rule 1 glob `parent.glob(stem + ".csv")`: the sibling with the exact name. -/
def globExactCsv (dir : List FsFile) (stem : String) : List FsFile :=
  dir.filter (fun f => f.name == stem ++ ".csv")

/-- Rule 2 glob `parent.glob("*.csv")`: every sibling CSV. -/
def globAllCsv (dir : List FsFile) : List FsFile :=
  dir.filter (fun f => sEndsWith f.name ".csv")

/-- Rule 3 glob `parent.glob(stem + "_*.csv")`: name is
`stem` + `_` + anything + `.csv`. -/
def globStemUnderscoreCsv (dir : List FsFile) (stem : String) : List FsFile :=
  dir.filter (fun f =>
    sStartsWith f.name (stem ++ "_") && sEndsWith (sDrop f.name (stem.length + 1)) ".csv")

/-- Sort key of rule 3: `abs(x.stat().st_mtime - mtime)`. -/
def mtimeDiff (imgMtime : Int) (f : FsFile) : Nat := (f.mtime - imgMtime).natAbs

/-- The CSV auto-link candidates computed for one ingested image in
`reload_all`: rule 1 (exact stem), else rule 2 (a lone CSV in the
directory), else rule 3 (prefix matches, narrowed to the closest
modification time when there are several). -/
def csv_candidates (dir : List FsFile) (stem : String) (imgMtime : Int) : List FsFile :=
  let cands := globExactCsv dir stem
  let cands :=
    if cands == [] then
      let only_csv := globAllCsv dir
      if only_csv.length == 1 then only_csv else []
    else cands
  if cands == [] then
    let pre := globStemUnderscoreCsv dir stem
    if 1 < pre.length then
      [(sortByLe (fun a b => decide (mtimeDiff imgMtime a ≤ mtimeDiff imgMtime b)) pre).headD
        ⟨"", 0, "", ""⟩]
    else pre
  else cands

/-- The attachment-linking loop that follows candidate selection in
`reload_all`: each candidate is hashed and upserted as a `csv` attachment. -/
def ingest_attach (s : State) (image_id : Nat) (dir : List FsFile) (stem : String)
    (imgMtime : Int) : State :=
  (csv_candidates dir stem imgMtime).foldl
    (fun st c => (upsert_attachment st image_id "csv" c.rel c.sha256 (some c.mtime)).2) s

/-! ## Archive codec (`MainWindow.export_selection`, `MainWindow.import_archive`)

The zip bundle is modelled as the parsed `manifest.json` plus the name lists
of its `images/` and `attachments/` members.  The export model assumes every
referenced source file exists on disk (the `src.exists()` checks succeed), so
a member is bundled for every digest the manifest references. -/

/-- An entry of an image record's `attachments` list in the manifest. -/
structure AttRec where
  kind : String
  sha256 : String
  ext : String
deriving DecidableEq, Repr

/-- An entry of an image record's `annotations` list in the manifest. -/
structure AnnRec where
  username : String
  tag : String
  category : String
  created_at : Int
deriving DecidableEq, Repr

/-- An entry of an image record's `quality` list in the manifest. -/
structure QualRec where
  username : String
  label : String
  score : Option Int
  created_at : Int
deriving DecidableEq, Repr

/-- One record of the manifest's `images` list. -/
structure ImgRec where
  sha256 : String
  rel_path : String
  created_at : Option Int
  attRecs : List AttRec
  annRecs : List AnnRec
  qualRecs : List QualRec
deriving DecidableEq, Repr

/-- The archive bundle: manifest users, tags and image records, plus the
digests-with-extension names of the bundled `images/` and `attachments/`
members. -/
structure Archive where
  users : List (String × Option String)
  tagRecs : List (String × String × Option String)
  imgRecs : List ImgRec
  imgMembers : List String
  attMembers : List String
deriving DecidableEq, Repr

/-- `_safe_ext`: the lower-cased suffix of the final path component, or
`.bin` when there is none.  The suffix is the part from the last dot,
provided that dot is neither the first nor the last character
(`PurePath.suffix` semantics). -/
def safe_ext (name : String) : String :=
  let base := (name.data.reverse.takeWhile (fun c => !(c == '/'))).reverse
  let afterRev := base.reverse.takeWhile (fun c => !(c == '.'))
  let ext : String :=
    if afterRev.length == base.length then ""
    else if afterRev.length + 1 < base.length && 0 < afterRev.length then
      sLower ⟨'.' :: afterRev.reverse⟩
    else ""
  if ext == "" then ".bin" else ext

/-- The manifest `annotations` list of one exported image: the rows of
`get_tags_for_image` projected to username/tag/category/timestamp. -/
def exportAnnRecs (s : State) (image_id : Nat) : List AnnRec :=
  (get_tags_for_image s image_id).map (fun x =>
    ⟨x.2.2.username, x.2.1.name, x.2.1.category, x.1.created_at⟩)

/-- The manifest `quality` list of one exported image (votes joined with
usernames, in table order). -/
def exportQualRecs (s : State) (image_id : Nat) : List QualRec :=
  (s.votes.filter (fun v => v.image_id == image_id)).filterMap (fun v =>
    match s.users.find? (fun u => u.id == v.user_id) with
    | some u => some ⟨u.username, v.label, v.score, v.created_at⟩
    | none => none)

/-- The manifest `attachments` list of one exported image. -/
def exportAttRecs (s : State) (image_id : Nat) : List AttRec :=
  (s.atts.filter (fun a => a.image_id == image_id)).map (fun a =>
    ⟨a.kind, a.sha256, safe_ext a.rel_path⟩)

/-- One record of the manifest's `images` list. -/
def exportImgRec (s : State) (img : ImageRow) : ImgRec :=
  ⟨img.sha256, img.rel_path, img.created_at,
    exportAttRecs s img.id, exportAnnRecs s img.id, exportQualRecs s img.id⟩

/-- `MainWindow.export_selection` with `include_images` and
`include_attachments` both true (as wired to the export button): build a
manifest record per selected image id (ids not in the store are skipped),
record the full tag vocabulary and the exporting user, and bundle the bytes
of every referenced image and attachment digest once. -/
def export_selection (s : State) (sel : List Nat) (username : String) : Archive :=
  let rows := sel.filterMap (fun i => s.images.find? (fun r => r.id == i))
  { users := [(username, some username)],
    tagRecs := s.tags.map (fun t => (t.name, t.category, t.description)),
    imgRecs := rows.map (exportImgRec s),
    imgMembers := ((rows.map (fun r => r.sha256)).dedup).filterMap (fun sha =>
      (s.images.find? (fun r => r.sha256 == sha)).map (fun r =>
        sha ++ safe_ext r.rel_path)),
    attMembers :=
      (((rows.map (fun r =>
        (s.atts.filter (fun a => a.image_id == r.id)).map (fun a => a.sha256))).flatten).dedup).filterMap
        (fun sha => (s.atts.find? (fun a => a.sha256 == sha)).map (fun a =>
          sha ++ safe_ext a.rel_path)) }

/-- Result of `import_archive`: `aborted` models an uncaught exception
escaping the import loop, with the state committed so far. -/
inductive ImportResult where
  | ok (s : State)
  | aborted (s : State)
deriving DecidableEq, Repr

/-- The committed store state when the import returns or raises. -/
def ImportResult.state : ImportResult → State
  | .ok s => s
  | .aborted s => s

/-- Did the import complete without an exception? -/
def ImportResult.isOk : ImportResult → Bool
  | .ok _ => true
  | .aborted _ => false

/-- The `annotations` replay loop of `import_archive`: ensure the author and
call `add_tag_for_user`; a capacity abort escapes the whole import. -/
def importAnns (s : State) (image_id : Nat) (recs : List AnnRec) (now : Int) :
    ImportResult :=
  match recs with
  | [] => .ok s
  | r :: rest =>
    let eu := ensure_user s r.username none
    match add_tag_for_user eu.2 image_id r.tag eu.1 r.category now with
    | .ok s2 => importAnns s2 image_id rest now
    | .capacityError s2 => .aborted s2

/-- The `quality` replay loop of `import_archive`: ensure the author and
upsert the vote with the archived label/score/timestamp; a `CHECK` failure
escapes the whole import. -/
def importQuals (s : State) (image_id : Nat) (recs : List QualRec) (now : Int) :
    ImportResult :=
  match recs with
  | [] => .ok s
  | q :: rest =>
    let eu := ensure_user s q.username none
    match upsert_quality eu.2 image_id eu.1 q.label q.score (some q.created_at) now with
    | .ok s2 => importQuals s2 image_id rest now
    | .error _ => .aborted eu.2

/-- The `attachments` replay loop of `import_archive`: an attachment is
registered only when its digest is new and its bytes are bundled, extracting
into `attachments_imported/`. -/
def importAtts (s : State) (image_id : Nat) (ar : Archive) (recs : List AttRec) :
    State :=
  recs.foldl (fun st att =>
    if (st.atts.find? (fun a => a.sha256 == att.sha256)).isSome then st
    else if ar.attMembers.contains (att.sha256 ++ att.ext) then
      (upsert_attachment st image_id att.kind
        ("attachments_imported/" ++ att.sha256 ++ att.ext) att.sha256 none).2
    else st) s

/-- Processing of one manifest image record in `import_archive`: reuse the
image by digest or register the bundled bytes under `imported/`, skip the
record if the bytes are missing, then replay attachments, annotations and
quality votes. -/
def importImage (s : State) (ar : Archive) (im : ImgRec) (now : Int) : ImportResult :=
  let step : Nat → State → ImportResult := fun img_id s1 =>
    let s2 := importAtts s1 img_id ar im.attRecs
    match importAnns s2 img_id im.annRecs now with
    | .aborted s3 => .aborted s3
    | .ok s3 => importQuals s3 img_id im.qualRecs now
  match s.images.find? (fun r => r.sha256 == im.sha256) with
  | some r => step r.id s
  | none =>
    if ar.imgMembers.contains (im.sha256 ++ safe_ext im.rel_path) then
      let ui := upsert_image s ("imported/" ++ im.sha256 ++ safe_ext im.rel_path)
        im.sha256 im.created_at
      step ui.1 ui.2
    else .ok s

/-- The image-record loop of `import_archive`. -/
def importImgRecs (s : State) (ar : Archive) (recs : List ImgRec) (now : Int) :
    ImportResult :=
  match recs with
  | [] => .ok s
  | im :: rest =>
    match importImage s ar im now with
    | .ok s1 => importImgRecs s1 ar rest now
    | .aborted s1 => .aborted s1

/-- `MainWindow.import_archive` after the manifest parses: ensure the
manifest users, upsert the manifest tag vocabulary, then process each image
record in order; an uncaught capacity or check error aborts the rest. -/
def import_archive (s : State) (ar : Archive) (now : Int) : ImportResult :=
  let s1 := ar.users.foldl (fun st u => (ensure_user st u.1 u.2).2) s
  let s2 := ar.tagRecs.foldl (fun st t => (upsert_tag st t.1 t.2.1 t.2.2).2) s1
  importImgRecs s2 ar ar.imgRecs now

/-! ## Standalone importer (`datenest/db.py`, `datenest/importer.py`) -/

/-- A row of the `files` table of `datenest/db.py`. -/
structure DnFileRow where
  id : Nat
  path : String
  sha256 : String
  size : Nat
deriving DecidableEq, Repr

/-- A row of the `tags` table of `datenest/db.py` (unique `name`). -/
structure DnTagRow where
  id : Nat
  name : String
deriving DecidableEq, Repr

/-- The `datenest` store: `files`, `tags` and `file_tags` tables. -/
structure DnState where
  files : List DnFileRow
  dnTags : List DnTagRow
  file_tags : List (Nat × Nat)
  nextFileId : Nat
  nextTagId : Nat
deriving DecidableEq, Repr

/-- A freshly created `datenest` database. -/
def dnEmpty : DnState := ⟨[], [], [], 1, 1⟩

/-- An input file for `import_files`: a path and its byte content (the
digest is the content itself under the hashing idealization, and the size its
length); the model covers the existing-regular-file inputs, matching the
`p.exists() and p.is_file()` guard. -/
structure SrcFile where
  path : String
  content : String
deriving DecidableEq, Repr

/-- `sha256sum` under the content-addressing idealization. -/
def sha256sum (f : SrcFile) : String := f.content

/-- `get_or_create_tag_id`: get-or-create by unique tag name. -/
def get_or_create_tag_id (s : DnState) (name : String) : Nat × DnState :=
  match s.dnTags.find? (fun t => t.name == name) with
  | some t => (t.id, s)
  | none =>
    (s.nextTagId,
      { s with dnTags := s.dnTags ++ [⟨s.nextTagId, name⟩],
               nextTagId := s.nextTagId + 1 })

/-- The statistics dictionary returned by `import_files`. -/
structure ImportStats where
  inserted : Nat
  duplicates : Nat
  tag_links : Nat
deriving DecidableEq, Repr

/-- The tag-registration comprehension of `import_files`: skip tags that are
blank after stripping, get-or-create the rest, accumulating their ids. -/
def regStep (p : DnState × List Nat) (t : String) : DnState × List Nat :=
  let ts := sTrim t
  if ts == "" then p
  else
    let g := get_or_create_tag_id p.1 ts
    (g.2, p.2 ++ [g.1])

/-- Register the whole tag list of an `import_files` call. -/
def registerTags (s : DnState) (tags : List String) : DnState × List Nat :=
  tags.foldl regStep (s, [])

/-- One tag-link `INSERT OR IGNORE` of `import_files`: only a new
`(file_id, tag_id)` pair adds a row and counts a link. -/
def linkStep (file_id : Nat) (acc2 : DnState × ImportStats) (tid : Nat) :
    DnState × ImportStats :=
  if acc2.1.file_tags.contains (file_id, tid) then acc2
  else ({ acc2.1 with file_tags := acc2.1.file_tags ++ [(file_id, tid)] },
        { acc2.2 with tag_links := acc2.2.tag_links + 1 })

/-- The per-file body of `import_files`: `INSERT OR IGNORE` by unique digest
(counting an insert or a duplicate), then link the registered tags. -/
def importOneFile (tag_ids : List Nat) (acc : DnState × ImportStats) (f : SrcFile) :
    DnState × ImportStats :=
  let st := acc.1
  let stats := acc.2
  let digest := sha256sum f
  let fr : Nat × DnState × ImportStats :=
    match st.files.find? (fun r => r.sha256 == digest) with
    | some r =>
      (r.id, st, { stats with duplicates := stats.duplicates + 1 })
    | none =>
      (st.nextFileId,
        { st with files := st.files ++ [⟨st.nextFileId, f.path, digest, f.content.length⟩],
                  nextFileId := st.nextFileId + 1 },
        { stats with inserted := stats.inserted + 1 })
  tag_ids.foldl (linkStep fr.1) (fr.2.1, fr.2.2)

/-- `import_files`: register the (stripped, non-empty) tag names, then for
each file `INSERT OR IGNORE` it by unique digest, counting an insert or a
duplicate, and link every registered tag to it (`INSERT OR IGNORE` on the
unique `(file_id, tag_id)` pair, counting new links). -/
def import_files (s : DnState) (files : List SrcFile) (tags : List String) :
    DnState × ImportStats :=
  let tr := registerTags s tags
  files.foldl (importOneFile tr.2) (tr.1, ⟨0, 0, 0⟩)

/-! ## Schema invariants and counting helpers -/

/-- The unique key of an annotation row. -/
def annKey (a : AnnotRow) : Nat × Nat × Nat := (a.image_id, a.tag_id, a.user_id)

/-- Schema well-formedness: primary keys and declared `UNIQUE` constraints
hold, foreign keys of annotations and votes resolve, and vote labels satisfy
their `CHECK`.  Every store produced by `init_db.py` plus the public
operations satisfies this (SQLite enforces it). -/
def Wf (s : State) : Prop :=
  (s.users.map (fun u => u.id)).Nodup ∧
  (s.users.map (fun u => u.username)).Nodup ∧
  (s.images.map (fun i => i.id)).Nodup ∧
  (s.images.map (fun i => i.sha256)).Nodup ∧
  (s.tags.map (fun t => t.id)).Nodup ∧
  (s.tags.map (fun t => (t.name, t.category))).Nodup ∧
  (s.annots.map annKey).Nodup ∧
  (∀ a ∈ s.annots, (∃ t ∈ s.tags, t.id = a.tag_id) ∧ (∃ u ∈ s.users, u.id = a.user_id)) ∧
  (s.votes.map (fun v => (v.image_id, v.user_id))).Nodup ∧
  (∀ v ∈ s.votes, (∃ u ∈ s.users, u.id = v.user_id) ∧ validLabel v.label = true) ∧
  (s.atts.map (fun a => a.sha256)).Nodup

/-- Number of active annotation rows of an image. -/
def activeAnnotCount (s : State) (image_id : Nat) : Nat :=
  (activeAnnots s image_id).length

/-- Number of active annotation rows in the whole store. -/
def totalActiveAnnots (s : State) : Nat :=
  (s.annots.filter (fun a => !a.is_deleted)).length

/-- Number of quality votes of an image. -/
def voteCount (s : State) (image_id : Nat) : Nat :=
  (s.votes.filter (fun v => v.image_id == image_id)).length

/-- Number of attachment rows of an image. -/
def attCount (s : State) (image_id : Nat) : Nat :=
  (s.atts.filter (fun a => a.image_id == image_id)).length

/-- The annotator-cap invariant claimed by the specification. -/
def capOk (s : State) : Prop := ∀ i, distinctActiveUsers s i ≤ 5

/-- Does this `add_tag_for_user` call take the reactivation (`UPDATE`) path,
the one path that bypasses the `trg_limit_annotators` trigger? -/
def addReactivates (s : State) (image_id : Nat) (tag_name : String)
    (user_id : Nat) (category : String) : Bool :=
  let r := upsert_tag s tag_name category none
  match r.2.annots.find? (fun a =>
      a.image_id == image_id && a.tag_id == r.1 && a.user_id == user_id) with
  | some a => a.is_deleted
  | none => false

/-- Does a public operation reactivate a soft-deleted annotation? -/
def opReactivates (s : State) : Op → Bool
  | .opAddTag i t u c _ => addReactivates s i t u c
  | _ => false

/-- Annotation rows of the `(image, tag-as-(name,category), user)` triple,
resolved the way every operation resolves a tag: by the first `tags` row
matching `(name, category)`. -/
def annRowsFor (s : State) (image_id : Nat) (tag_name category : String)
    (user_id : Nat) : List AnnotRow :=
  match s.tags.find? (fun t => t.name == tag_name && t.category == category) with
  | none => []
  | some t =>
    s.annots.filter (fun a =>
      a.image_id == image_id && a.tag_id == t.id && a.user_id == user_id)

/-- Quality-vote rows of one `(image, user)` pair. -/
def pairVotes (s : State) (image_id user_id : Nat) : List VoteRow :=
  s.votes.filter (fun v => v.image_id == image_id && v.user_id == user_id)

/-- The uniqueness invariant of `quality_votes`: at most one row per
`(image_id, user_id)` pair. -/
def votesPairUnique (s : State) : Prop :=
  ∀ i u, (pairVotes s i u).length ≤ 1

/-! ## Concrete scenario states -/

/-- An image annotated by five distinct users with five distinct fresh tags:
users `u1..u6` exist, image 1 exists, users 1..5 hold tags `t1..t5`. -/
def fiveAnnotatorState : State := runOps emptyState [
  .opEnsureUser "u1" none, .opEnsureUser "u2" none, .opEnsureUser "u3" none,
  .opEnsureUser "u4" none, .opEnsureUser "u5" none, .opEnsureUser "u6" none,
  .opUpsertImage "i.png" "sh" none,
  .opAddTag 1 "t1" 1 "" 10,
  .opAddTag 1 "t2" 2 "" 11,
  .opAddTag 1 "t3" 3 "" 12,
  .opAddTag 1 "t4" 4 "" 13,
  .opAddTag 1 "t5" 5 "" 14 ]

/-- A public-operation trace that drives image 1 to six distinct active
annotators: four users annotate, `u6` annotates and soft-deletes again,
`u5` annotates (filling the cap), and then `u6` re-adds the same tag, which
reactivates a soft-deleted row and bypasses the insert trigger. -/
def sixAnnotatorOps : List Op := [
  .opEnsureUser "u1" none, .opEnsureUser "u2" none, .opEnsureUser "u3" none,
  .opEnsureUser "u4" none, .opEnsureUser "u5" none, .opEnsureUser "u6" none,
  .opUpsertImage "i.png" "sh" none,
  .opAddTag 1 "t1" 1 "" 10,
  .opAddTag 1 "t2" 2 "" 11,
  .opAddTag 1 "t3" 3 "" 12,
  .opAddTag 1 "t4" 4 "" 13,
  .opAddTag 1 "t6" 6 "" 14,
  .opRemoveTag 1 "t6" 6 "" 15,
  .opAddTag 1 "t5" 5 "" 16,
  .opAddTag 1 "t6" 6 "" 17 ]

/-- A legal capped store: one image, five distinct annotators, six active
annotation rows (`u1` holds tags `a` and `z`). -/
def fiveUserSixAnnState : State := runOps emptyState [
  .opEnsureUser "u1" none, .opEnsureUser "u2" none, .opEnsureUser "u3" none,
  .opEnsureUser "u4" none, .opEnsureUser "u5" none,
  .opUpsertImage "i.png" "sh1" (some 0),
  .opAddTag 1 "a" 1 "" 1,
  .opAddTag 1 "z" 1 "" 2,
  .opAddTag 1 "b" 2 "" 3,
  .opAddTag 1 "c" 3 "" 4,
  .opAddTag 1 "d" 4 "" 5,
  .opAddTag 1 "e" 5 "" 6 ]

/-- A search index with no tags, votes or attachments recorded. -/
def emptyIdx : SearchIndex :=
  ⟨fun _ => [], fun _ => [], fun _ => [], fun _ => [], fun _ => false, fun _ => none⟩

/-- Store used by small witnesses: one user, one image, one active tag `t`. -/
def oneTagState : State := runOps emptyState [
  .opEnsureUser "u" none,
  .opUpsertImage "i.png" "sh" none,
  .opAddTag 1 "t" 1 "" 5 ]

/-- Directory listing with an exact-stem CSV match for `img1`. -/
def dirExact : List FsFile :=
  [⟨"img1.jpg", 0, "s0", "img1.jpg"⟩, ⟨"img1.csv", 3, "s3", "img1.csv"⟩]

/-- Directory listing with two CSVs, neither stem- nor prefix-matching `img2`. -/
def dirUnrelated : List FsFile :=
  [⟨"img2.jpg", 0, "s0", "img2.jpg"⟩, ⟨"x.csv", 1, "s1", "x.csv"⟩,
   ⟨"y.csv", 2, "s2", "y.csv"⟩]

/-- Directory listing with two prefix-matching CSVs of different mtime
distance plus an unrelated CSV. -/
def dirTwoPre : List FsFile :=
  [⟨"img.jpg", 10, "s0", "img.jpg"⟩, ⟨"img_a.csv", 100, "s1", "img_a.csv"⟩,
   ⟨"img_b.csv", 12, "s2", "img_b.csv"⟩, ⟨"other.csv", 11, "s4", "other.csv"⟩]

/-- A well-formed two-annotator source store with an attachment and two
quality votes, used to witness the export/import round trip. -/
def roundTripSrc : State := runOps emptyState [
  .opEnsureUser "u1" none, .opEnsureUser "u2" none,
  .opUpsertImage "i.png" "sh1" (some 0),
  .opUpsertAttachment 1 "csv" "i.csv" "shc" (some 3),
  .opAddTag 1 "a" 1 "" 1,
  .opAddTag 1 "b" 2 "" 2,
  .opUpsertQuality 1 1 "good" none none 4,
  .opUpsertQuality 1 2 "bad" (some 1) none 5 ]

/-! ## Invariants threaded through an archive import -/

/-- Users-table invariant: unique ids and usernames, ids below the counter. -/
def UsersInv (t : State) : Prop :=
  (t.users.map (fun u => u.id)).Nodup ∧
  (t.users.map (fun u => u.username)).Nodup ∧
  ∀ u ∈ t.users, u.id < t.nextUserId

/-- Tags-table invariant: unique ids and `(name, category)` keys, ids below
the counter. -/
def TagsInv (t : State) : Prop :=
  (t.tags.map (fun x => x.id)).Nodup ∧
  (t.tags.map (fun x => (x.name, x.category))).Nodup ∧
  ∀ x ∈ t.tags, x.id < t.nextTagId

/-- Images-table invariant: unique ids and digests, ids below the counter. -/
def ImagesInv (t : State) : Prop :=
  (t.images.map (fun i => i.id)).Nodup ∧
  (t.images.map (fun i => i.sha256)).Nodup ∧
  ∀ i ∈ t.images, i.id < t.nextImageId

/-- Every annotation references an existing image. -/
def AnnImgRef (t : State) : Prop :=
  ∀ a ∈ t.annots, ∃ i ∈ t.images, i.id = a.image_id

/-- Every quality vote references an existing image. -/
def VoteImgRef (t : State) : Prop :=
  ∀ v ∈ t.votes, ∃ i ∈ t.images, i.id = v.image_id

/-- The bundle of target-store invariants an import maintains. -/
def TInv (t : State) : Prop :=
  UsersInv t ∧ TagsInv t ∧ ImagesInv t ∧ AnnImgRef t ∧ VoteImgRef t

/-- The id a username resolves to (0 if absent). -/
def userIdOf (t : State) (u : String) : Nat :=
  ((t.users.find? (fun x => x.username == u)).map (fun x => x.id)).getD 0

/-- The id a `(name, category)` tag key resolves to (0 if absent). -/
def tagIdOf (t : State) (n c : String) : Nat :=
  ((t.tags.find? (fun x => x.name == n && x.category == c)).map (fun x => x.id)).getD 0

/-- One manifest image record is fully present in a store: the digest
resolves to an image; all attachment digests exist; every annotation record
resolves to an existing active row (and every row of that image is active);
every quality record has a valid label and exactly one existing vote row for
its resolved `(image, user)` pair. -/
def ImPresent (T : State) (im : ImgRec) : Prop :=
  ∃ r, T.images.find? (fun x => x.sha256 == im.sha256) = some r ∧
    (∀ at_ ∈ im.attRecs, (T.atts.find? (fun x => x.sha256 == at_.sha256)).isSome = true) ∧
    (∀ rc ∈ im.annRecs,
      ∃ tg, T.tags.find? (fun x => x.name == rc.tag && x.category == rc.category) = some tg ∧
      ∃ us, T.users.find? (fun x => x.username == rc.username) = some us ∧
      (∃ row ∈ T.annots, row.image_id = r.id ∧ row.tag_id = tg.id ∧ row.user_id = us.id ∧
        row.is_deleted = false)) ∧
    (∀ row ∈ T.annots, row.image_id = r.id → row.is_deleted = false) ∧
    (∀ q ∈ im.qualRecs, validLabel q.label = true ∧
      ∃ us, T.users.find? (fun x => x.username == q.username) = some us ∧
      (pairVotes T r.id us.id).length = 1)

/-! ## Helper lemmas -/

theorem find?_eq_head?_filter (p : α → Bool) (l : List α) :
    l.find? p = (l.filter p).head? := by
  induction l with
  | nil => rfl
  | cons x xs ih =>
    simp only [List.find?_cons, List.filter_cons]
    by_cases h : p x
    · simp [h]
    · simp only [h, Bool.false_eq_true, if_false, cond_false]
      exact ih

theorem filter_and_sublist (p q : α → Bool) (l : List α) :
    (l.filter (fun a => p a && q a)).Sublist (l.filter p) := by
  induction l with
  | nil => simp
  | cons x xs ih =>
    by_cases hp : p x <;> by_cases hq : q x <;>
      simp [List.filter_cons, hp, hq] <;> first
        | exact ih.cons₂ x
        | exact ih.cons x
        | exact ih

theorem insertLe_mem (le : α → α → Bool) (x : α) (l : List α) (a : α) :
    a ∈ insertLe le x l ↔ a = x ∨ a ∈ l := by
  induction l with
  | nil => simp [insertLe]
  | cons y ys ih =>
    by_cases h : le x y <;> simp [insertLe, h, ih] <;> tauto

theorem insertLe_perm (le : α → α → Bool) (x : α) (l : List α) :
    (insertLe le x l).Perm (x :: l) := by
  induction l with
  | nil => simp [insertLe]
  | cons y ys ih =>
    simp only [insertLe]
    by_cases h : le x y
    · simp [h]
    · simp only [h, Bool.false_eq_true, if_false]
      exact ((ih.cons y).trans (List.Perm.swap x y ys))

theorem sortByLe_perm (le : α → α → Bool) (l : List α) :
    (sortByLe le l).Perm l := by
  induction l with
  | nil => simp [sortByLe]
  | cons x xs ih => exact (insertLe_perm le x (sortByLe le xs)).trans (ih.cons x)

theorem insertLe_pairwise (le : α → α → Bool)
    (htrans : ∀ a b c, le a b = true → le b c = true → le a c = true)
    (htotal : ∀ a b, le a b = true ∨ le b a = true)
    (x : α) (l : List α) (h : l.Pairwise (fun a b => le a b = true)) :
    (insertLe le x l).Pairwise (fun a b => le a b = true) := by
  induction l with
  | nil => simp [insertLe]
  | cons y ys ih =>
    simp only [insertLe]
    by_cases hxy : le x y
    · simp only [hxy, if_true]
      refine List.Pairwise.cons ?_ h
      intro b hb
      rcases List.mem_cons.mp hb with hb | hb
      · exact hb ▸ hxy
      · exact htrans x y b hxy ((List.rel_of_pairwise_cons h) hb)
    · have hyx : le y x = true := by
        rcases htotal x y with h1 | h1
        · exact absurd h1 hxy
        · exact h1
      simp only [hxy, Bool.false_eq_true, if_false]
      refine List.Pairwise.cons ?_ (ih h.tail)
      intro b hb
      rcases (insertLe_mem le x ys b).mp hb with hb | hb
      · exact hb ▸ hyx
      · exact (List.rel_of_pairwise_cons h) hb

theorem sortByLe_pairwise (le : α → α → Bool)
    (htrans : ∀ a b c, le a b = true → le b c = true → le a c = true)
    (htotal : ∀ a b, le a b = true ∨ le b a = true)
    (l : List α) : (sortByLe le l).Pairwise (fun a b => le a b = true) := by
  induction l with
  | nil => simp [sortByLe]
  | cons x xs ih => exact insertLe_pairwise le htrans htotal x (sortByLe le xs) ih

theorem sortByLe_head_min (le : α → α → Bool)
    (htrans : ∀ a b c, le a b = true → le b c = true → le a c = true)
    (htotal : ∀ a b, le a b = true ∨ le b a = true)
    (l : List α) (c : α) (hc : (sortByLe le l).head? = some c) :
    ∀ x ∈ l, le c x = true := by
  intro x hx
  have hperm := sortByLe_perm le l
  have hx' : x ∈ sortByLe le l := hperm.mem_iff.mpr hx
  have hpw := sortByLe_pairwise le htrans htotal l
  cases hsort : sortByLe le l with
  | nil => rw [hsort] at hx'; cases hx'
  | cons hd t =>
    rw [hsort] at hc hx' hpw
    simp only [List.head?_cons, Option.some.injEq] at hc
    rcases List.mem_cons.mp hx' with hx1 | hx1
    · rw [hx1, ← hc]
      rcases htotal hd hd with h1 | h1 <;> exact h1
    · rw [← hc]
      exact (List.rel_of_pairwise_cons hpw) hx1

/-- Membership transfer for the soft-delete `UPDATE`: an active row after a
`remove_tag_for_user` was an active row before. -/
theorem mem_active_remove (s : State) (image_id : Nat) (tag_name category : String)
    (user_id : Nat) (now : Int) (i : Nat) (a : AnnotRow)
    (ha : a ∈ activeAnnots (remove_tag_for_user s image_id tag_name user_id category now) i) :
    a ∈ activeAnnots s i := by
  unfold remove_tag_for_user at ha
  cases hf : s.tags.find? (fun t => t.name == tag_name && t.category == category) with
  | none => rw [hf] at ha; exact ha
  | some t =>
    rw [hf] at ha
    simp only [activeAnnots, List.mem_filter] at ha ⊢
    obtain ⟨hmem, hact⟩ := ha
    simp only [List.mem_map] at hmem
    obtain ⟨b, hb, hba⟩ := hmem
    by_cases hc : (b.image_id == image_id && b.tag_id == t.id && b.user_id == user_id) = true
    · rw [hc] at hba
      simp only [if_true] at hba
      rw [← hba] at hact
      simp at hact
    · rw [if_neg (by simpa using hc)] at hba
      exact ⟨hba ▸ hb, hact⟩

/-- `distinctActiveUsers` is monotone under row-level inclusion of active
annotation rows. -/
theorem distinctActiveUsers_le_of_subset (s s' : State) (i : Nat)
    (h : ∀ a ∈ activeAnnots s' i, a ∈ activeAnnots s i) :
    distinctActiveUsers s' i ≤ distinctActiveUsers s i := by
  unfold distinctActiveUsers
  refine Finset.card_le_card ?_
  intro x hx
  simp only [List.mem_toFinset, List.mem_map] at hx ⊢
  obtain ⟨a, ha, hax⟩ := hx
  exact ⟨a, h a ha, hax⟩

theorem ensure_user_annots (s : State) (u : String) (d : Option String) :
    ((ensure_user s u d).2).annots = s.annots := by
  unfold ensure_user
  cases s.users.find? (fun x => x.username == u) <;> rfl

theorem upsert_image_annots (s : State) (p sha : String) (c : Option Int) :
    ((upsert_image s p sha c).2).annots = s.annots := by
  unfold upsert_image
  cases s.images.find? (fun i => i.sha256 == sha) <;> rfl

theorem upsert_tag_annots (s : State) (n c : String) (d : Option String) :
    ((upsert_tag s n c d).2).annots = s.annots := by
  unfold upsert_tag
  cases s.tags.find? (fun t => t.name == n && t.category == c) <;> rfl

theorem upsert_attachment_annots (s : State) (i : Nat) (k p sha : String)
    (c : Option Int) :
    ((upsert_attachment s i k p sha c).2).annots = s.annots := by
  unfold upsert_attachment
  cases s.atts.find? (fun a => a.sha256 == sha) <;> rfl

theorem upsert_quality_annots (s s' : State) (i u : Nat) (l : String)
    (sc : Option Int) (w : Option Int) (n : Int)
    (h : upsert_quality s i u l sc w n = .ok s') : s'.annots = s.annots := by
  unfold upsert_quality at h
  by_cases hv : validLabel l = true
  · rw [if_pos hv] at h
    cases h
    rfl
  · rw [if_neg hv] at h
    cases h

theorem distinctActiveUsers_congr (s s' : State) (h : s'.annots = s.annots) (i : Nat) :
    distinctActiveUsers s' i = distinctActiveUsers s i := by
  simp [distinctActiveUsers, activeAnnots, h]

/-- Appending one annotation row raises the distinct-annotator count of any
image by at most one. -/
theorem dau_append_le (s : State) (row : AnnotRow) (na : Nat) (i : Nat) :
    distinctActiveUsers { s with annots := s.annots ++ [row], nextAnnotId := na } i ≤
      distinctActiveUsers s i + 1 := by
  unfold distinctActiveUsers
  calc ((activeAnnots { s with annots := s.annots ++ [row], nextAnnotId := na } i).map
          (fun a => a.user_id)).toFinset.card
      ≤ (insert row.user_id (((activeAnnots s i).map (fun a => a.user_id)).toFinset)).card := by
        apply Finset.card_le_card
        intro x hx
        simp only [List.mem_toFinset, List.mem_map, activeAnnots, List.mem_filter,
          List.mem_append, List.mem_singleton, Finset.mem_insert] at hx ⊢
        obtain ⟨a, ⟨hmem, hact⟩, hax⟩ := hx
        rcases hmem with hmem | hmem
        · exact Or.inr ⟨a, ⟨hmem, hact⟩, hax⟩
        · subst hmem
          exact Or.inl hax.symm
    _ ≤ ((activeAnnots s i).map (fun a => a.user_id)).toFinset.card + 1 :=
        Finset.card_insert_le _ _

/-- Appending an annotation row for one image leaves every other image's
distinct-annotator count unchanged. -/
theorem dau_append_other (s : State) (row : AnnotRow) (na : Nat) (i : Nat)
    (hne : (row.image_id == i) = false) :
    distinctActiveUsers { s with annots := s.annots ++ [row], nextAnnotId := na } i =
      distinctActiveUsers s i := by
  unfold distinctActiveUsers activeAnnots
  simp only [List.filter_append]
  have h0 : List.filter (fun a => a.image_id == i && !a.is_deleted) [row] = [] := by
    simp [hne]
  rw [h0, List.append_nil]

/-- Cap preservation for `add_tag_for_user` when the call does not take the
reactivation path: the trigger guards the insert, so no image exceeds 5
distinct active annotators. -/
theorem add_tag_cap_preserved (s : State) (image_id : Nat) (tag_name category : String)
    (user_id : Nat) (now : Int) (hcap : capOk s)
    (hre : addReactivates s image_id tag_name user_id category = false) (i : Nat) :
    distinctActiveUsers ((add_tag_for_user s image_id tag_name user_id category now).state) i ≤ 5 := by
  have hann : ((upsert_tag s tag_name category none).2).annots = s.annots :=
    upsert_tag_annots s tag_name category none
  unfold addReactivates at hre
  unfold add_tag_for_user
  simp only
  cases hf : ((upsert_tag s tag_name category none).2).annots.find? (fun a =>
      a.image_id == image_id && a.tag_id == (upsert_tag s tag_name category none).1 &&
        a.user_id == user_id) with
  | some a =>
    simp only [hf] at hre ⊢
    simp only [hre, Bool.false_eq_true, if_false, AddResult.state]
    rw [distinctActiveUsers_congr _ _ hann]
    exact hcap i
  | none =>
    simp only [hf]
    by_cases h5 : 5 ≤ distinctActiveUsers ((upsert_tag s tag_name category none).2) image_id
    · simp only [if_pos h5, AddResult.state]
      rw [distinctActiveUsers_congr _ _ hann]
      exact hcap i
    · simp only [if_neg h5, AddResult.state]
      rw [distinctActiveUsers_congr _ _ hann] at h5
      by_cases hi : image_id = i
      · subst hi
        refine le_trans (dau_append_le _ _ _ _) ?_
        rw [distinctActiveUsers_congr _ _ hann]
        omega
      · rw [dau_append_other _ _ _ _ (by simpa using hi)]
        rw [distinctActiveUsers_congr _ _ hann]
        exact hcap i

/-! ## Claim C1 -/

/-- C1 counterexample: the cap invariant claimed by the specification fails.
The public-operation trace `sixAnnotatorOps` (adds, a soft-delete, and a
re-add that reactivates the soft-deleted row) drives image 1 to six distinct
active annotators. -/
theorem c1_counterexample :
    5 < distinctActiveUsers (runOps emptyState sixAnnotatorOps) 1 := by decide

/-- C1 (amended): every public operation except a reactivating
`add_tag_for_user` preserves the 5-distinct-annotator cap; in particular the
trigger lets an annotation insert happen only when the image has at most 4
distinct active annotators.  Reactivation of a soft-deleted row bypasses the
trigger and can push an image past the cap (see the counterexample). -/
theorem c1_cap_preserved_without_reactivation (s : State) (op : Op)
    (hcap : capOk s) (hre : opReactivates s op = false) :
    capOk (applyOp s op) := by
  intro i
  cases op with
  | opEnsureUser u d =>
    rw [applyOp, distinctActiveUsers_congr _ _ (ensure_user_annots s u d)]
    exact hcap i
  | opUpsertImage p sha c =>
    rw [applyOp, distinctActiveUsers_congr _ _ (upsert_image_annots s p sha c)]
    exact hcap i
  | opUpsertTag n c d =>
    rw [applyOp, distinctActiveUsers_congr _ _ (upsert_tag_annots s n c d)]
    exact hcap i
  | opUpsertAttachment im k p sha c =>
    rw [applyOp, distinctActiveUsers_congr _ _ (upsert_attachment_annots s im k p sha c)]
    exact hcap i
  | opAddTag im t u c n =>
    exact add_tag_cap_preserved s im t c u n hcap (by simpa [opReactivates] using hre) i
  | opRemoveTag im t u c n =>
    exact le_trans
      (distinctActiveUsers_le_of_subset s (remove_tag_for_user s im t u c n) i
        (fun a ha => mem_active_remove s im t c u n i a ha))
      (hcap i)
  | opUpsertQuality im u l sc w n =>
    rw [applyOp]
    cases hq : upsert_quality s im u l sc w n with
    | ok s' =>
      rw [distinctActiveUsers_congr _ _ (upsert_quality_annots s s' im u l sc w n hq)]
      exact hcap i
    | error e => exact hcap i

/-- Witness for the amended C1 theorem at a concrete state and operation. -/
theorem c1_cap_preserved_witness :
    capOk (applyOp emptyState (Op.opEnsureUser "alice" none)) :=
  c1_cap_preserved_without_reactivation emptyState (Op.opEnsureUser "alice" none)
    (fun i => by simp [distinctActiveUsers, activeAnnots, emptyState])
    (by decide)

/-! ## Claim C2 -/

/-- C2 counterexample: user 1 already holds the active tag `t1` on image 1,
the image has exactly 5 distinct active annotators, and yet this user's next
`add_tag_for_user` (a new `(image, tag, user)` triple) fails with the
capacity error — the trigger counts every insert, with no exemption for a
user who already annotates the image. -/
theorem c2_counterexample :
    ((activeAnnots fiveAnnotatorState 1).filter (fun a => a.user_id == 1)).length = 1 ∧
    distinctActiveUsers fiveAnnotatorState 1 = 5 ∧
    (add_tag_for_user fiveAnnotatorState 1 "t6" 1 "" 99).isOk = false := by
  exact ⟨by decide, by decide, by decide⟩

/-- C2 (amended): whenever the `(image, tag, user)` annotation row already
exists — active or soft-deleted — `add_tag_for_user` succeeds and can never
fail with a capacity error, because both the reactivation and the no-op path
run no `INSERT`; a user who merely has other active annotations on the image
enjoys no such exemption. -/
theorem c2_existing_row_add_succeeds (s : State) (image_id user_id : Nat)
    (tag_name category : String) (now : Int) (t : TagRow) (a : AnnotRow)
    (ht : s.tags.find? (fun x => x.name == tag_name && x.category == category) = some t)
    (ha : s.annots.find? (fun b =>
      b.image_id == image_id && b.tag_id == t.id && b.user_id == user_id) = some a) :
    (add_tag_for_user s image_id tag_name user_id category now).isOk = true := by
  unfold add_tag_for_user upsert_tag
  rw [ht]
  simp only
  rw [ha]
  by_cases hd : a.is_deleted = true
  · simp [hd, AddResult.isOk]
  · simp [hd, AddResult.isOk]

/-- Witness for the amended C2 theorem: re-adding the already active tag of
`oneTagState` succeeds. -/
theorem c2_existing_row_witness :
    (add_tag_for_user oneTagState 1 "t" 1 "" 99).isOk = true :=
  c2_existing_row_add_succeeds oneTagState 1 1 "t" "" 99
    ⟨1, "t", "", none⟩ ⟨1, 1, 1, 1, 5, false⟩ (by decide) (by decide)

/-! ## Claim C10 -/

/-- C10: calling `add_tag_for_user` for an `(image, tag, user, category)`
whose annotation row already exists and is active returns the store
completely unchanged — no row is inserted and, unlike reactivation, the
existing row's `created_at` is not refreshed. -/
theorem c10_add_active_noop (s : State) (image_id user_id : Nat)
    (tag_name category : String) (now : Int) (t : TagRow) (a : AnnotRow)
    (ht : s.tags.find? (fun x => x.name == tag_name && x.category == category) = some t)
    (ha : s.annots.find? (fun b =>
      b.image_id == image_id && b.tag_id == t.id && b.user_id == user_id) = some a)
    (hactive : a.is_deleted = false) :
    add_tag_for_user s image_id tag_name user_id category now = .ok s := by
  unfold add_tag_for_user upsert_tag
  rw [ht]
  simp only
  rw [ha]
  simp only
  simp [hactive]

/-- Witness for C10 at the concrete store `oneTagState`. -/
theorem c10_add_active_noop_witness :
    add_tag_for_user oneTagState 1 "t" 1 "" 99 = .ok oneTagState :=
  c10_add_active_noop oneTagState 1 1 "t" "" 99
    ⟨1, "t", "", none⟩ ⟨1, 1, 1, 1, 5, false⟩ (by decide) (by decide) (by decide)

/-! ## Claim C3 -/

/-- C3 counterexample: in the five-fresh-tag scenario the 6th distinct user's
`add_tag_for_user` with a previously unseen tag name fails with the capacity
error but does NOT leave the store unchanged — `upsert_tag` has already
inserted and committed the new `(t6, "")` tag row before the trigger aborts
the annotation insert. -/
theorem c3_counterexample :
    (add_tag_for_user fiveAnnotatorState 1 "t6" 6 "" 99).isOk = false ∧
    (add_tag_for_user fiveAnnotatorState 1 "t6" 6 "" 99).state ≠ fiveAnnotatorState ∧
    ((add_tag_for_user fiveAnnotatorState 1 "t6" 6 "" 99).state).tags.length =
      fiveAnnotatorState.tags.length + 1 := by
  exact ⟨by decide, by decide, by decide⟩

/-- C3 (amended): starting from an image with no annotations, adds by 5
distinct users all succeed; a subsequent add by a 6th distinct user fails
with a capacity error and leaves the annotation, image, user and vote tables
unchanged (though a previously unseen tag name is still committed to the tag
vocabulary); and after soft-deleting all annotations of one of the 5 users,
an add by a 6th distinct user succeeds. -/
theorem c3_annotator_cap_scenario :
    (∀ k ∈ [(1, "t1"), (2, "t2"), (3, "t3"), (4, "t4"), (5, "t5")],
      (add_tag_for_user
        (runOps emptyState ([
          .opEnsureUser "u1" none, .opEnsureUser "u2" none, .opEnsureUser "u3" none,
          .opEnsureUser "u4" none, .opEnsureUser "u5" none, .opEnsureUser "u6" none,
          .opUpsertImage "i.png" "sh" none] ++
          ([(1, "t1"), (2, "t2"), (3, "t3"), (4, "t4"), (5, "t5")].take (k.1 - 1)).map
            (fun p => Op.opAddTag 1 p.2 p.1 "" 10)))
        1 k.2 k.1 "" 10).isOk = true) ∧
    (add_tag_for_user fiveAnnotatorState 1 "t6" 6 "" 99).isOk = false ∧
    ((add_tag_for_user fiveAnnotatorState 1 "t6" 6 "" 99).state).annots =
      fiveAnnotatorState.annots ∧
    ((add_tag_for_user fiveAnnotatorState 1 "t6" 6 "" 99).state).images =
      fiveAnnotatorState.images ∧
    ((add_tag_for_user fiveAnnotatorState 1 "t6" 6 "" 99).state).users =
      fiveAnnotatorState.users ∧
    ((add_tag_for_user fiveAnnotatorState 1 "t6" 6 "" 99).state).votes =
      fiveAnnotatorState.votes ∧
    (add_tag_for_user (remove_tag_for_user fiveAnnotatorState 1 "t5" 5 "" 100)
      1 "t6" 6 "" 101).isOk = true := by
  refine ⟨by decide, by decide, by decide, by decide, by decide, by decide, by decide⟩

/-! ## Claim C7 -/

theorem filter_not_filter (p : α → Bool) (l : List α) :
    (l.filter (fun a => !p a)).filter p = [] := by
  induction l with
  | nil => rfl
  | cons x xs ih =>
    by_cases h : p x
    · simp [List.filter_cons, h, ih]
    · simp [List.filter_cons, h, ih]

theorem filter_comm_filter_not (p q : α → Bool) (l : List α)
    (hdisj : ∀ a, q a = true → p a = false) :
    (l.filter (fun a => !p a)).filter q = l.filter q := by
  induction l with
  | nil => rfl
  | cons x xs ih =>
    by_cases hq : q x
    · have hp : p x = false := hdisj x hq
      simp [List.filter_cons, hp, hq, ih]
    · by_cases hp : p x <;> simp [List.filter_cons, hp, hq, ih]

/-- Characterization of `upsert_quality` (`INSERT OR REPLACE`): exactly one
row remains for the written pair — the fresh one — and every other pair's
rows are untouched. -/
theorem upsert_quality_pairVotes (s : State) (image_id user_id : Nat)
    (label : String) (sc : Option Int) (w : Option Int) (n : Int) (s' : State)
    (h : upsert_quality s image_id user_id label sc w n = .ok s') :
    pairVotes s' image_id user_id =
      [⟨s.nextVoteId, image_id, user_id, label, sc, w.getD n⟩] ∧
    (∀ i u, ¬(i = image_id ∧ u = user_id) → pairVotes s' i u = pairVotes s i u) := by
  unfold upsert_quality at h
  by_cases hv : validLabel label = true
  · rw [if_pos hv] at h
    cases h
    constructor
    · unfold pairVotes
      simp only [List.filter_append]
      rw [filter_not_filter]
      simp
    · intro i u hne
      unfold pairVotes
      simp only [List.filter_append]
      have h2 : (List.filter (fun v => v.image_id == i && v.user_id == u)
          [(⟨s.nextVoteId, image_id, user_id, label, sc, w.getD n⟩ : VoteRow)]) = [] := by
        simp only [List.filter_cons, List.filter_nil]
        have : ((⟨s.nextVoteId, image_id, user_id, label, sc, w.getD n⟩ : VoteRow).image_id == i &&
            (⟨s.nextVoteId, image_id, user_id, label, sc, w.getD n⟩ : VoteRow).user_id == u) = false := by
          by_cases hi : image_id = i
          · by_cases hu : user_id = u
            · exact absurd ⟨hi.symm, hu.symm⟩ hne
            · simp [hu]
          · simp [hi]
        rw [this]
        rfl
      rw [h2, List.append_nil]
      apply filter_comm_filter_not
      intro v hvq
      simp only [Bool.and_eq_true, beq_iff_eq] at hvq
      by_cases hi : image_id = i
      · by_cases hu : user_id = u
        · exact absurd ⟨hi.symm, hu.symm⟩ hne
        · simp only [Bool.and_eq_false_iff, beq_eq_false_iff_ne, ne_eq]
          right
          rw [hvq.2]
          exact fun hx => hu hx.symm
      · simp only [Bool.and_eq_false_iff, beq_eq_false_iff_ne, ne_eq]
        left
        rw [hvq.1]
        exact fun hx => hi hx.symm
  · rw [if_neg hv] at h
    cases h

/-- C7: at most one quality-vote row ever exists per `(image, user)` pair —
`upsert_quality` both establishes this for the written pair and preserves it
for all others — and the upsert has replace semantics: voting `good` then
`bad` for the same pair leaves exactly one row for it, labelled `bad`. -/
theorem c7_quality_vote_replace :
    (∀ s image_id user_id label sc w n s',
      upsert_quality s image_id user_id label sc w n = Except.ok s' →
      votesPairUnique s → votesPairUnique s') ∧
    (∀ s image_id user_id sc1 sc2 w1 w2 n1 n2, ∃ s1 s2,
      upsert_quality s image_id user_id "good" sc1 w1 n1 = Except.ok s1 ∧
      upsert_quality s1 image_id user_id "bad" sc2 w2 n2 = Except.ok s2 ∧
      (pairVotes s2 image_id user_id).map (fun v => v.label) = ["bad"] ∧
      (pairVotes s2 image_id user_id).length = 1) := by
  constructor
  · intro s image_id user_id label sc w n s' h huniq i u
    obtain ⟨hpair, hother⟩ := upsert_quality_pairVotes s image_id user_id label sc w n s' h
    by_cases hiu : i = image_id ∧ u = user_id
    · rw [hiu.1, hiu.2, hpair]
      simp
    · rw [hother i u hiu]
      exact huniq i u
  · intro s image_id user_id sc1 sc2 w1 w2 n1 n2
    refine ⟨_, _, rfl, rfl, ?_, ?_⟩
    · obtain ⟨hpair, _⟩ := upsert_quality_pairVotes _ image_id user_id "bad" sc2 w2 n2 _ rfl
      rw [hpair]
      rfl
    · obtain ⟨hpair, _⟩ := upsert_quality_pairVotes _ image_id user_id "bad" sc2 w2 n2 _ rfl
      rw [hpair]
      rfl

/-- Witness for C7 at a concrete pair of calls on the empty store. -/
theorem c7_quality_vote_replace_witness :
    ∃ s1 s2,
      upsert_quality emptyState 1 1 "good" none none 5 = Except.ok s1 ∧
      upsert_quality s1 1 1 "bad" none none 6 = Except.ok s2 ∧
      (pairVotes s2 1 1).map (fun v => v.label) = ["bad"] ∧
      (pairVotes s2 1 1).length = 1 :=
  c7_quality_vote_replace.2 emptyState 1 1 none none none none 5 6

/-! ## Claim C8 -/

theorem get_or_create_tag_id_files (s : DnState) (name : String) :
    ((get_or_create_tag_id s name).2).files = s.files := by
  unfold get_or_create_tag_id
  cases s.dnTags.find? (fun t => t.name == name) <;> rfl

theorem regStep_files (p : DnState × List Nat) (t : String) :
    ((regStep p t).1).files = p.1.files := by
  unfold regStep
  by_cases h : sTrim t == ""
  · simp [h]
  · simp [h, get_or_create_tag_id_files]

theorem registerTags_files (s : DnState) (tags : List String) :
    ((registerTags s tags).1).files = s.files := by
  unfold registerTags
  suffices hgen : ∀ acc : DnState × List Nat,
      ((tags.foldl regStep acc).1).files = acc.1.files by
    exact hgen (s, [])
  induction tags with
  | nil => intro acc; rfl
  | cons t ts ih =>
    intro acc
    rw [List.foldl_cons, ih, regStep_files]

theorem linkStep_invariants (file_id : Nat) (acc2 : DnState × ImportStats) (tid : Nat) :
    ((linkStep file_id acc2 tid).1).files = acc2.1.files ∧
    ((linkStep file_id acc2 tid).2).inserted = acc2.2.inserted ∧
    ((linkStep file_id acc2 tid).2).duplicates = acc2.2.duplicates := by
  unfold linkStep
  by_cases h : (file_id, tid) ∈ acc2.1.file_tags
  · simp [h]
  · simp [h]

theorem linkFold_invariants (file_id : Nat) (tag_ids : List Nat)
    (acc2 : DnState × ImportStats) :
    ((tag_ids.foldl (linkStep file_id) acc2).1).files = acc2.1.files ∧
    ((tag_ids.foldl (linkStep file_id) acc2).2).inserted = acc2.2.inserted ∧
    ((tag_ids.foldl (linkStep file_id) acc2).2).duplicates = acc2.2.duplicates := by
  induction tag_ids generalizing acc2 with
  | nil => exact ⟨rfl, rfl, rfl⟩
  | cons tid ts ih =>
    rw [List.foldl_cons]
    obtain ⟨h1, h2, h3⟩ := ih (linkStep file_id acc2 tid)
    obtain ⟨g1, g2, g3⟩ := linkStep_invariants file_id acc2 tid
    exact ⟨h1.trans g1, h2.trans g2, h3.trans g3⟩

/-- Characterization of the per-file `INSERT OR IGNORE` when the digest is
new: one files row is appended and one insert is counted. -/
theorem importOneFile_fresh (tag_ids : List Nat) (acc : DnState × ImportStats)
    (f : SrcFile)
    (h : acc.1.files.find? (fun r => r.sha256 == sha256sum f) = none) :
    ((importOneFile tag_ids acc f).1).files =
      acc.1.files ++ [⟨acc.1.nextFileId, f.path, sha256sum f, f.content.length⟩] ∧
    ((importOneFile tag_ids acc f).2).inserted = acc.2.inserted + 1 ∧
    ((importOneFile tag_ids acc f).2).duplicates = acc.2.duplicates := by
  unfold importOneFile
  simp only [h]
  obtain ⟨h1, h2, h3⟩ := linkFold_invariants acc.1.nextFileId tag_ids _
  exact ⟨h1, h2, h3⟩

/-- Characterization of the per-file `INSERT OR IGNORE` when the digest
already exists: no files row is added and one duplicate is counted. -/
theorem importOneFile_dup (tag_ids : List Nat) (acc : DnState × ImportStats)
    (f : SrcFile) (r : DnFileRow)
    (h : acc.1.files.find? (fun x => x.sha256 == sha256sum f) = some r) :
    ((importOneFile tag_ids acc f).1).files = acc.1.files ∧
    ((importOneFile tag_ids acc f).2).inserted = acc.2.inserted ∧
    ((importOneFile tag_ids acc f).2).duplicates = acc.2.duplicates + 1 := by
  unfold importOneFile
  simp only [h]
  obtain ⟨h1, h2, h3⟩ := linkFold_invariants r.id tag_ids _
  exact ⟨h1, h2, h3⟩

/-- C8: ingesting two files with identical byte content from two different
paths yields exactly one `files` row; the first call (on a fresh store)
reports `inserted=1, duplicates=0` and the second `inserted=0, duplicates=1`,
for any tag arguments. -/
theorem c8_dedup_idempotent_counters (f1 f2 : SrcFile) (tags1 tags2 : List String)
    (hcontent : f1.content = f2.content) (hpaths : f1.path ≠ f2.path) :
    (import_files dnEmpty [f1] tags1).2.inserted = 1 ∧
    (import_files dnEmpty [f1] tags1).2.duplicates = 0 ∧
    (import_files (import_files dnEmpty [f1] tags1).1 [f2] tags2).2.inserted = 0 ∧
    (import_files (import_files dnEmpty [f1] tags1).1 [f2] tags2).2.duplicates = 1 ∧
    (import_files (import_files dnEmpty [f1] tags1).1 [f2] tags2).1.files.length = 1 := by
  have hreg1 : ((registerTags dnEmpty tags1).1).files = [] := by
    rw [registerTags_files]
    rfl
  have hr1 : import_files dnEmpty [f1] tags1 =
      importOneFile (registerTags dnEmpty tags1).2
        ((registerTags dnEmpty tags1).1, ⟨0, 0, 0⟩) f1 := by
    rfl
  have hfind1 : (((registerTags dnEmpty tags1).1, (⟨0, 0, 0⟩ : ImportStats)).1).files.find?
      (fun r => r.sha256 == sha256sum f1) = none := by
    simp [hreg1]
  obtain ⟨hfiles1, hins1, hdup1⟩ :=
    importOneFile_fresh (registerTags dnEmpty tags1).2
      ((registerTags dnEmpty tags1).1, ⟨0, 0, 0⟩) f1 hfind1
  rw [hreg1] at hfiles1
  simp only [List.nil_append] at hfiles1
  have hrow : (import_files dnEmpty [f1] tags1).1.files =
      [⟨((registerTags dnEmpty tags1).1).nextFileId, f1.path, sha256sum f1, f1.content.length⟩] := by
    rw [hr1]; exact hfiles1
  refine ⟨?_, ?_, ?_, ?_, ?_⟩
  · rw [hr1]; exact hins1
  · rw [hr1]; exact hdup1
  all_goals {
    have hreg2 : ((registerTags (import_files dnEmpty [f1] tags1).1 tags2).1).files =
        (import_files dnEmpty [f1] tags1).1.files := registerTags_files _ _
    have hr2 : import_files (import_files dnEmpty [f1] tags1).1 [f2] tags2 =
        importOneFile (registerTags (import_files dnEmpty [f1] tags1).1 tags2).2
          ((registerTags (import_files dnEmpty [f1] tags1).1 tags2).1, ⟨0, 0, 0⟩) f2 := by
      rfl
    have hfind2 : (((registerTags (import_files dnEmpty [f1] tags1).1 tags2).1,
        (⟨0, 0, 0⟩ : ImportStats)).1).files.find? (fun x => x.sha256 == sha256sum f2) =
        some ⟨((registerTags dnEmpty tags1).1).nextFileId, f1.path, sha256sum f1,
          f1.content.length⟩ := by
      simp only [hreg2, hrow]
      have : (sha256sum f1 == sha256sum f2) = true := by
        simp [sha256sum, hcontent]
      simp [List.find?_cons, this]
    obtain ⟨gfiles, gins, gdup⟩ :=
      importOneFile_dup (registerTags (import_files dnEmpty [f1] tags1).1 tags2).2
        ((registerTags (import_files dnEmpty [f1] tags1).1 tags2).1, ⟨0, 0, 0⟩) f2 _ hfind2
    rw [hr2]
    first
      | exact gins
      | exact gdup
      | (rw [gfiles]; simp only [hreg2, hrow]; rfl)
  }

/-- Witness for C8 at the literal test inputs: two files with content
`hello` at paths `a.txt` and `b.txt`. -/
theorem c8_dedup_witness :
    (import_files dnEmpty [⟨"a.txt", "hello"⟩] ["t1"]).2.inserted = 1 ∧
    (import_files dnEmpty [⟨"a.txt", "hello"⟩] ["t1"]).2.duplicates = 0 ∧
    (import_files (import_files dnEmpty [⟨"a.txt", "hello"⟩] ["t1"]).1
      [⟨"b.txt", "hello"⟩] ["t2"]).2.inserted = 0 ∧
    (import_files (import_files dnEmpty [⟨"a.txt", "hello"⟩] ["t1"]).1
      [⟨"b.txt", "hello"⟩] ["t2"]).2.duplicates = 1 ∧
    (import_files (import_files dnEmpty [⟨"a.txt", "hello"⟩] ["t1"]).1
      [⟨"b.txt", "hello"⟩] ["t2"]).1.files.length = 1 :=
  c8_dedup_idempotent_counters ⟨"a.txt", "hello"⟩ ⟨"b.txt", "hello"⟩ ["t1"] ["t2"]
    rfl (by decide)

/-! ## Claim C5 -/

/-- C5 counterexample: a query whose `date:` expression is unparseable does
NOT match nothing — `_parse_date` degrades to `(None, None)`, which
`on_search` treats as the absence of a date filter, so the query matches
every image (here, image 1 stays visible). -/
theorem c5_counterexample :
    parse_date "date:zzz" = (none, none) ∧
    on_search [("a.png", 1)] emptyIdx "date:zzz" = [1] := by
  exact ⟨by decide, by decide⟩

/-- C5 (amended): for every query consisting of a single `date:` token whose
date expression is unparseable, evaluation raises no error and applies no
constraint at all: every image matches. -/
theorem c5_unparseable_date_matches_all (items : List (String × Nat))
    (idx : SearchIndex) (t v : String)
    (hform : sLower t = "date:" ++ v)
    (hparse : parse_date (sLower t) = (none, none))
    (htok : sTokens (sTrim t) = [t]) :
    on_search items idx t = items.map (fun it => it.2) := by
  have hdata : (sLower t).data = 'd' :: 'a' :: 't' :: 'e' :: ':' :: v.data := by
    rw [hform]
    rfl
  have hne1 : sStartsWith (sLower t) "#" = false := by
    unfold sStartsWith
    rw [hdata]
    rfl
  have hne2 : sStartsWith (sLower t) "cat:" = false := by
    unfold sStartsWith
    rw [hdata]
    rfl
  have hne3 : sStartsWith (sLower t) "user:" = false := by
    unfold sStartsWith
    rw [hdata]
    rfl
  have hne4 : sStartsWith (sLower t) "label:" = false := by
    unfold sStartsWith
    rw [hdata]
    rfl
  have hne5 : (sLower t == "has:csv") = false := by
    have : (sLower t).data ≠ "has:csv".data := by
      rw [hdata]
      intro hcontra
      cases hcontra
    by_cases hb : (sLower t == "has:csv") = true
    · exfalso
      apply this
      have := eq_of_beq hb
      rw [this]
    · simpa using hb
  have hyes : sStartsWith (sLower t) "date:" = true := by
    unfold sStartsWith
    rw [hdata]
    simp [listStartsWith]
  have hdrop : sDrop (sLower t) 5 = v := by
    unfold sDrop
    rw [hdata]
    rfl
  have happ : ("date:" ++ sDrop (sLower t) 5) = sLower t := by
    rw [hdrop, hform]
  have hcls : classifyTokens [t] emptyFilters = emptyFilters := by
    unfold classifyTokens
    simp only [hne1, hne2, hne3, hne4, hne5, hyes, Bool.false_and, Bool.false_eq_true,
      if_false, if_true, Bool.true_or]
    rw [happ, hparse]
    rfl
  have hvis : ∀ rel i, itemVisible idx emptyFilters rel i = true := by
    intro rel i
    unfold itemVisible emptyFilters
    simp
  unfold on_search
  rw [htok, hcls]
  have hfeq : items.filter (fun it => itemVisible idx emptyFilters it.1 it.2) = items := by
    apply List.filter_eq_self.mpr
    intro a _
    exact hvis a.1 a.2
  exact congrArg (List.map (fun it => it.2)) hfeq

/-- Witness for the amended C5 theorem on a concrete unparseable query. -/
theorem c5_unparseable_witness :
    on_search [("a.png", 1), ("b.png", 2)] emptyIdx "date:junk" =
      ([("a.png", 1), ("b.png", 2)].map (fun it => it.2)) :=
  c5_unparseable_date_matches_all [("a.png", 1), ("b.png", 2)] emptyIdx
    "date:junk" "junk" (by decide) (by decide) (by decide)

/-! ## Claim C9 -/

/-- C9: the CSV attachment candidates of `reload_all` follow the three rules
in order, stopping at the first that yields candidates: (1) the exact-stem
sibling `<stem>.csv`; (2) otherwise a lone `*.csv` in the directory
regardless of name; (3) otherwise the `<stem>_*.csv` siblings, narrowed to
one with minimal modification-time distance when there are several.  In
particular a directory with CSVs matching no rule yields no candidates and
links no attachment. -/
theorem c9_csv_heuristic (dir : List FsFile) (stem : String) (imgMtime : Int) :
    (globExactCsv dir stem ≠ [] →
      csv_candidates dir stem imgMtime = globExactCsv dir stem) ∧
    (globExactCsv dir stem = [] → (globAllCsv dir).length = 1 →
      csv_candidates dir stem imgMtime = globAllCsv dir) ∧
    (globExactCsv dir stem = [] → (globAllCsv dir).length ≠ 1 →
      (globStemUnderscoreCsv dir stem).length ≤ 1 →
      csv_candidates dir stem imgMtime = globStemUnderscoreCsv dir stem) ∧
    (globExactCsv dir stem = [] → (globAllCsv dir).length ≠ 1 →
      1 < (globStemUnderscoreCsv dir stem).length →
      ∃ c, csv_candidates dir stem imgMtime = [c] ∧
        c ∈ globStemUnderscoreCsv dir stem ∧
        ∀ x ∈ globStemUnderscoreCsv dir stem,
          mtimeDiff imgMtime c ≤ mtimeDiff imgMtime x) ∧
    (∀ s image_id, globExactCsv dir stem = [] → (globAllCsv dir).length ≠ 1 →
      globStemUnderscoreCsv dir stem = [] →
      csv_candidates dir stem imgMtime = [] ∧
      ingest_attach s image_id dir stem imgMtime = s) := by
  refine ⟨?_, ?_, ?_, ?_, ?_⟩
  · intro hne
    have hb : (globExactCsv dir stem == []) = false := beq_eq_false_iff_ne.mpr hne
    unfold csv_candidates
    simp only [hb, Bool.false_eq_true, if_false]
  · intro he h1
    have hb : (globExactCsv dir stem == []) = true := beq_iff_eq.mpr he
    have hb1 : ((globAllCsv dir).length == 1) = true := beq_iff_eq.mpr h1
    have hball : (globAllCsv dir == []) = false := by
      refine beq_eq_false_iff_ne.mpr ?_
      intro hcontra
      rw [hcontra] at h1
      cases h1
    unfold csv_candidates
    simp only [hb, hb1, if_true, hball, Bool.false_eq_true, if_false]
  · intro he h1 hle
    have hb : (globExactCsv dir stem == []) = true := beq_iff_eq.mpr he
    have hb1 : ((globAllCsv dir).length == 1) = false := by
      simpa using h1
    have hnot : ¬(1 < (globStemUnderscoreCsv dir stem).length) := by omega
    unfold csv_candidates
    simp only [hb, hb1, if_true, Bool.false_eq_true, if_false]
    simp [hnot]
  · intro he h1 hgt
    have hb : (globExactCsv dir stem == []) = true := beq_iff_eq.mpr he
    have hb1 : ((globAllCsv dir).length == 1) = false := by
      simpa using h1
    have hsortlen : (sortByLe (fun a b => decide (mtimeDiff imgMtime a ≤ mtimeDiff imgMtime b))
        (globStemUnderscoreCsv dir stem)).length = (globStemUnderscoreCsv dir stem).length :=
      (sortByLe_perm _ _).length_eq
    cases hs : sortByLe (fun a b => decide (mtimeDiff imgMtime a ≤ mtimeDiff imgMtime b))
        (globStemUnderscoreCsv dir stem) with
    | nil =>
      rw [hs] at hsortlen
      simp only [List.length_nil] at hsortlen
      omega
    | cons c rest =>
      refine ⟨c, ?_, ?_, ?_⟩
      · unfold csv_candidates
        simp only [hb, hb1, if_true, Bool.false_eq_true, if_false, hgt, decide_eq_true_eq,
          if_pos hgt]
        rw [hs]
        rfl
      · have : c ∈ sortByLe (fun a b => decide (mtimeDiff imgMtime a ≤ mtimeDiff imgMtime b))
            (globStemUnderscoreCsv dir stem) := by
          rw [hs]
          exact List.mem_cons_self c rest
        exact (sortByLe_perm _ _).mem_iff.mp this
      · intro x hx
        have hmin := sortByLe_head_min
          (fun a b => decide (mtimeDiff imgMtime a ≤ mtimeDiff imgMtime b))
          (fun a b d hab hbd => by
            simp only [decide_eq_true_eq] at hab hbd ⊢
            omega)
          (fun a b => by
            by_cases hab : mtimeDiff imgMtime a ≤ mtimeDiff imgMtime b
            · exact Or.inl (by simpa using hab)
            · exact Or.inr (by simp only [decide_eq_true_eq]; omega))
          (globStemUnderscoreCsv dir stem) c (by rw [hs]; rfl) x hx
        simpa using hmin
  · intro s image_id he h1 hpre
    have hb : (globExactCsv dir stem == []) = true := beq_iff_eq.mpr he
    have hb1 : ((globAllCsv dir).length == 1) = false := by
      simpa using h1
    have hcand : csv_candidates dir stem imgMtime = [] := by
      unfold csv_candidates
      simp only [hb, hb1, if_true, Bool.false_eq_true, if_false, hpre]
      rfl
    refine ⟨hcand, ?_⟩
    unfold ingest_attach
    rw [hcand]
    rfl

/-- Witness for C9: the exact-stem directory picks the stem CSV; the
directory with two unrelated CSVs yields no candidate and leaves the store
unchanged. -/
theorem c9_csv_heuristic_witness :
    csv_candidates dirExact "img1" 0 = globExactCsv dirExact "img1" ∧
    csv_candidates dirUnrelated "img2" 0 = [] ∧
    ingest_attach oneTagState 1 dirUnrelated "img2" 0 = oneTagState :=
  ⟨(c9_csv_heuristic dirExact "img1" 0).1 (by decide),
   ((c9_csv_heuristic dirUnrelated "img2" 0).2.2.2.2 oneTagState 1
      (by decide) (by decide) (by decide)).1,
   ((c9_csv_heuristic dirUnrelated "img2" 0).2.2.2.2 oneTagState 1
      (by decide) (by decide) (by decide)).2⟩

/-! ## Claim C6 -/

theorem filter_map_comm (p : α → Bool) (g : α → α) (l : List α)
    (hp : ∀ x, p (g x) = p x) :
    (l.map g).filter p = (l.filter p).map g := by
  induction l with
  | nil => rfl
  | cons x xs ih =>
    simp only [List.map_cons, List.filter_cons, hp x]
    by_cases h : p x
    · simp [h, ih]
    · simp [h, ih]

/-- No annotation row can reference the fresh tag id `nextTagId` in a store
whose tag foreign keys resolve and whose tag ids are below the counter. -/
theorem annots_filter_fresh_tag (s : State) (image_id user_id : Nat)
    (htagfresh : ∀ tg ∈ s.tags, tg.id < s.nextTagId)
    (hfk : ∀ a ∈ s.annots, ∃ tg ∈ s.tags, tg.id = a.tag_id) :
    s.annots.filter (fun a =>
      a.image_id == image_id && a.tag_id == s.nextTagId && a.user_id == user_id) = [] := by
  rw [List.filter_eq_nil_iff]
  intro a ha
  obtain ⟨tg, htg, hid⟩ := hfk a ha
  have hne : a.tag_id ≠ s.nextTagId := by
    have := htagfresh tg htg
    omega
  simp [hne]

/-- After a successful `add_tag_for_user` the resolved tag row exists and
the `(image, tag, user)` triple has exactly one annotation row, active. -/
theorem add_tag_row_after (s : State) (image_id user_id : Nat)
    (tag_name category : String) (n1 : Int)
    (htagfresh : ∀ tg ∈ s.tags, tg.id < s.nextTagId)
    (hfk : ∀ a ∈ s.annots, ∃ tg ∈ s.tags, tg.id = a.tag_id)
    (hlen : (annRowsFor s image_id tag_name category user_id).length ≤ 1)
    (h1 : (add_tag_for_user s image_id tag_name user_id category n1).isOk = true) :
    ∃ tg1 b,
      ((add_tag_for_user s image_id tag_name user_id category n1).state).tags.find?
        (fun x => x.name == tag_name && x.category == category) = some tg1 ∧
      ((add_tag_for_user s image_id tag_name user_id category n1).state).annots.filter
        (fun a => a.image_id == image_id && a.tag_id == tg1.id && a.user_id == user_id)
        = [b] ∧
      b.is_deleted = false := by
  cases hft : s.tags.find? (fun x => x.name == tag_name && x.category == category) with
  | some tg =>
    have hlen' : (s.annots.filter (fun a =>
        a.image_id == image_id && a.tag_id == tg.id && a.user_id == user_id)).length ≤ 1 := by
      unfold annRowsFor at hlen
      rw [hft] at hlen
      exact hlen
    cases hfilt : s.annots.filter (fun a =>
        a.image_id == image_id && a.tag_id == tg.id && a.user_id == user_id) with
    | nil =>
      have hfind : s.annots.find? (fun a =>
          a.image_id == image_id && a.tag_id == tg.id && a.user_id == user_id) = none := by
        rw [find?_eq_head?_filter, hfilt]
        rfl
      by_cases h5 : 5 ≤ distinctActiveUsers s image_id
      · exfalso
        have hEq : add_tag_for_user s image_id tag_name user_id category n1 =
            .capacityError s := by
          unfold add_tag_for_user upsert_tag
          rw [hft]
          dsimp only
          rw [hfind]
          dsimp only
          rw [if_pos h5]
        rw [hEq] at h1
        simp [AddResult.isOk] at h1
      · have hEq : add_tag_for_user s image_id tag_name user_id category n1 =
            .ok { s with
              annots := s.annots ++ [⟨s.nextAnnotId, image_id, tg.id, user_id, n1, false⟩],
              nextAnnotId := s.nextAnnotId + 1 } := by
          unfold add_tag_for_user upsert_tag
          rw [hft]
          dsimp only
          rw [hfind]
          dsimp only
          rw [if_neg h5]
        refine ⟨tg, ⟨s.nextAnnotId, image_id, tg.id, user_id, n1, false⟩, ?_, ?_, rfl⟩
        · rw [hEq]
          exact hft
        · rw [hEq]
          simp only [AddResult.state]
          rw [List.filter_append, hfilt]
          simp
    | cons a rest =>
      have hfind : s.annots.find? (fun x =>
          x.image_id == image_id && x.tag_id == tg.id && x.user_id == user_id) = some a := by
        rw [find?_eq_head?_filter, hfilt]
        rfl
      have hrest : rest = [] := by
        rw [hfilt] at hlen'
        simp only [List.length_cons] at hlen'
        have : rest.length = 0 := by omega
        exact List.length_eq_zero.mp this
      subst hrest
      by_cases hdel : a.is_deleted = true
      · have hEq : add_tag_for_user s image_id tag_name user_id category n1 =
            .ok { s with
              annots := s.annots.map (fun b =>
                if b.id == a.id then
                  { b with is_deleted := false, created_at := n1 } else b) } := by
          unfold add_tag_for_user upsert_tag
          rw [hft]
          dsimp only
          rw [hfind]
          dsimp only
          rw [if_pos hdel]
        refine ⟨tg, { a with is_deleted := false, created_at := n1 }, ?_, ?_, rfl⟩
        · rw [hEq]
          exact hft
        · rw [hEq]
          simp only [AddResult.state]
          rw [filter_map_comm _ _ _ (fun x => by
            by_cases hx : (x.id == a.id) = true <;> simp [hx])]
          rw [hfilt]
          simp
      · have hEq : add_tag_for_user s image_id tag_name user_id category n1 = .ok s := by
          unfold add_tag_for_user upsert_tag
          rw [hft]
          dsimp only
          rw [hfind]
          dsimp only
          rw [if_neg hdel]
        refine ⟨tg, a, ?_, ?_, ?_⟩
        · rw [hEq]
          exact hft
        · rw [hEq]
          exact hfilt
        · simpa using hdel
  | none =>
    have hfresh := annots_filter_fresh_tag s image_id user_id htagfresh hfk
    have hfind : s.annots.find? (fun a =>
        a.image_id == image_id && a.tag_id == s.nextTagId && a.user_id == user_id) = none := by
      rw [find?_eq_head?_filter, hfresh]
      rfl
    by_cases h5 : 5 ≤ distinctActiveUsers { s with
        tags := s.tags ++ [⟨s.nextTagId, tag_name, category, none⟩],
        nextTagId := s.nextTagId + 1 } image_id
    · exfalso
      have hEq : add_tag_for_user s image_id tag_name user_id category n1 =
          .capacityError { s with
            tags := s.tags ++ [⟨s.nextTagId, tag_name, category, none⟩],
            nextTagId := s.nextTagId + 1 } := by
        unfold add_tag_for_user upsert_tag
        rw [hft]
        dsimp only
        rw [hfind]
        dsimp only
        rw [if_pos h5]
      rw [hEq] at h1
      simp [AddResult.isOk] at h1
    · have hEq : add_tag_for_user s image_id tag_name user_id category n1 =
          .ok { s with
            tags := s.tags ++ [⟨s.nextTagId, tag_name, category, none⟩],
            nextTagId := s.nextTagId + 1,
            annots := s.annots ++ [⟨s.nextAnnotId, image_id, s.nextTagId, user_id, n1, false⟩],
            nextAnnotId := s.nextAnnotId + 1 } := by
        unfold add_tag_for_user upsert_tag
        rw [hft]
        dsimp only
        rw [hfind]
        dsimp only
        rw [if_neg h5]
      refine ⟨⟨s.nextTagId, tag_name, category, none⟩,
        ⟨s.nextAnnotId, image_id, s.nextTagId, user_id, n1, false⟩, ?_, ?_, rfl⟩
      · rw [hEq]
        simp only [AddResult.state]
        rw [List.find?_append, hft]
        simp
      · rw [hEq]
        simp only [AddResult.state]
        rw [List.filter_append, hfresh]
        simp

/-- Soft-delete then re-add on a state whose `(image, tag, user)` triple has
exactly one (active) row: the row is toggled in place — never removed from
the table, never duplicated — and the re-add reactivates it with the fresh
timestamp. -/
theorem remove_readd_row (σ : State) (image_id user_id : Nat)
    (tag_name category : String) (n2 n3 : Int) (tg1 : TagRow) (b : AnnotRow)
    (hft : σ.tags.find? (fun x => x.name == tag_name && x.category == category) = some tg1)
    (hfilt : σ.annots.filter (fun a =>
      a.image_id == image_id && a.tag_id == tg1.id && a.user_id == user_id) = [b]) :
    (remove_tag_for_user σ image_id tag_name user_id category n2).tags = σ.tags ∧
    (remove_tag_for_user σ image_id tag_name user_id category n2).annots.filter (fun a =>
      a.image_id == image_id && a.tag_id == tg1.id && a.user_id == user_id) =
      [{ b with is_deleted := true, created_at := n2 }] ∧
    (remove_tag_for_user σ image_id tag_name user_id category n2).annots.length =
      σ.annots.length ∧
    (add_tag_for_user (remove_tag_for_user σ image_id tag_name user_id category n2)
      image_id tag_name user_id category n3).isOk = true ∧
    ((add_tag_for_user (remove_tag_for_user σ image_id tag_name user_id category n2)
      image_id tag_name user_id category n3).state).tags = σ.tags ∧
    ((add_tag_for_user (remove_tag_for_user σ image_id tag_name user_id category n2)
      image_id tag_name user_id category n3).state).annots.filter (fun a =>
      a.image_id == image_id && a.tag_id == tg1.id && a.user_id == user_id) =
      [{ b with is_deleted := false, created_at := n3 }] ∧
    ((add_tag_for_user (remove_tag_for_user σ image_id tag_name user_id category n2)
      image_id tag_name user_id category n3).state).annots.length = σ.annots.length := by
  have hbmem : b ∈ σ.annots.filter (fun a =>
      a.image_id == image_id && a.tag_id == tg1.id && a.user_id == user_id) := by
    rw [hfilt]
    exact List.mem_singleton_self b
  have hbp : (b.image_id == image_id && b.tag_id == tg1.id && b.user_id == user_id) = true :=
    (List.mem_filter.mp hbmem).2
  have hremEq : remove_tag_for_user σ image_id tag_name user_id category n2 =
      { σ with annots := σ.annots.map (fun a =>
          if a.image_id == image_id && a.tag_id == tg1.id && a.user_id == user_id then
            { a with is_deleted := true, created_at := n2 } else a) } := by
    unfold remove_tag_for_user
    rw [hft]
  have hfilt2 : (remove_tag_for_user σ image_id tag_name user_id category n2).annots.filter
      (fun a => a.image_id == image_id && a.tag_id == tg1.id && a.user_id == user_id) =
      [{ b with is_deleted := true, created_at := n2 }] := by
    rw [hremEq]
    simp only
    rw [filter_map_comm _ _ _ (fun x => by
      by_cases hx : (x.image_id == image_id && x.tag_id == tg1.id && x.user_id == user_id) = true
      · simp only [hx, if_true]
      · simp only [hx, Bool.false_eq_true, if_false])]
    rw [hfilt]
    simp only [List.map_cons, List.map_nil, hbp, if_true]
  have htags2 : (remove_tag_for_user σ image_id tag_name user_id category n2).tags = σ.tags := by
    rw [hremEq]
  have hlen2 : (remove_tag_for_user σ image_id tag_name user_id category n2).annots.length =
      σ.annots.length := by
    rw [hremEq]
    simp
  have hft2 : (remove_tag_for_user σ image_id tag_name user_id category n2).tags.find?
      (fun x => x.name == tag_name && x.category == category) = some tg1 := by
    rw [htags2]
    exact hft
  have hfind2 : (remove_tag_for_user σ image_id tag_name user_id category n2).annots.find?
      (fun a => a.image_id == image_id && a.tag_id == tg1.id && a.user_id == user_id) =
      some { b with is_deleted := true, created_at := n2 } := by
    rw [find?_eq_head?_filter, hfilt2]
    rfl
  have haddEq : add_tag_for_user (remove_tag_for_user σ image_id tag_name user_id category n2)
      image_id tag_name user_id category n3 =
      .ok { (remove_tag_for_user σ image_id tag_name user_id category n2) with
        annots := (remove_tag_for_user σ image_id tag_name user_id category n2).annots.map
          (fun x => if x.id == ({ b with is_deleted := true, created_at := n2 } : AnnotRow).id then
            { x with is_deleted := false, created_at := n3 } else x) } := by
    unfold add_tag_for_user upsert_tag
    rw [hft2]
    dsimp only
    rw [hfind2]
    dsimp only
    rw [if_pos rfl]
  refine ⟨htags2, hfilt2, hlen2, ?_, ?_, ?_, ?_⟩
  · rw [haddEq]
    rfl
  · rw [haddEq]
    simp only [AddResult.state]
    exact htags2
  · rw [haddEq]
    simp only [AddResult.state]
    rw [filter_map_comm _ _ _ (fun x => by
      by_cases hx : (x.id == ({ b with is_deleted := true, created_at := n2 } : AnnotRow).id) = true
      · simp only [hx, if_true]
      · simp only [hx, Bool.false_eq_true, if_false])]
    rw [hfilt2]
    simp
  · rw [haddEq]
    simp only [AddResult.state]
    rw [List.length_map]
    exact hlen2

/-- C6: for a triple with at most one existing annotation row (the schema's
`UNIQUE(image_id, tag_id, user_id)`), the sequence add, remove, re-add keeps
exactly one row for the triple at every point: the successful add leaves one
active row; `remove_tag_for_user` sets `is_deleted=1` on that same row
without deleting it (the table length is unchanged); and the re-add
reactivates the existing row with the refreshed `created_at` timestamp
rather than inserting a second row. -/
theorem c6_add_remove_readd (s : State) (image_id user_id : Nat)
    (tag_name category : String) (n1 n2 n3 : Int)
    (htagfresh : ∀ tg ∈ s.tags, tg.id < s.nextTagId)
    (hfk : ∀ a ∈ s.annots, ∃ tg ∈ s.tags, tg.id = a.tag_id)
    (hlen : (annRowsFor s image_id tag_name category user_id).length ≤ 1)
    (h1 : (add_tag_for_user s image_id tag_name user_id category n1).isOk = true) :
    ∃ b : AnnotRow,
      annRowsFor ((add_tag_for_user s image_id tag_name user_id category n1).state)
        image_id tag_name category user_id = [b] ∧
      b.is_deleted = false ∧
      annRowsFor (remove_tag_for_user
          ((add_tag_for_user s image_id tag_name user_id category n1).state)
          image_id tag_name user_id category n2) image_id tag_name category user_id =
        [{ b with is_deleted := true, created_at := n2 }] ∧
      (remove_tag_for_user ((add_tag_for_user s image_id tag_name user_id category n1).state)
        image_id tag_name user_id category n2).annots.length =
        ((add_tag_for_user s image_id tag_name user_id category n1).state).annots.length ∧
      (add_tag_for_user (remove_tag_for_user
          ((add_tag_for_user s image_id tag_name user_id category n1).state)
          image_id tag_name user_id category n2)
        image_id tag_name user_id category n3).isOk = true ∧
      annRowsFor ((add_tag_for_user (remove_tag_for_user
          ((add_tag_for_user s image_id tag_name user_id category n1).state)
          image_id tag_name user_id category n2)
          image_id tag_name user_id category n3).state) image_id tag_name category user_id =
        [{ b with is_deleted := false, created_at := n3 }] ∧
      ((add_tag_for_user (remove_tag_for_user
          ((add_tag_for_user s image_id tag_name user_id category n1).state)
          image_id tag_name user_id category n2)
          image_id tag_name user_id category n3).state).annots.length =
        ((add_tag_for_user s image_id tag_name user_id category n1).state).annots.length := by
  obtain ⟨tg1, b, hft1, hfilt1, hbact⟩ :=
    add_tag_row_after s image_id user_id tag_name category n1 htagfresh hfk hlen h1
  obtain ⟨htags2, hfilt2, hlen2, hok3, htags3, hfilt3, hlen3⟩ :=
    remove_readd_row ((add_tag_for_user s image_id tag_name user_id category n1).state)
      image_id user_id tag_name category n2 n3 tg1 b hft1 hfilt1
  refine ⟨b, ?_, hbact, ?_, hlen2, hok3, ?_, hlen3⟩
  · unfold annRowsFor
    rw [hft1]
    exact hfilt1
  · unfold annRowsFor
    have hf : (remove_tag_for_user
        ((add_tag_for_user s image_id tag_name user_id category n1).state)
        image_id tag_name user_id category n2).tags.find?
        (fun x => x.name == tag_name && x.category == category) = some tg1 := by
      rw [htags2]
      exact hft1
    rw [hf]
    exact hfilt2
  · unfold annRowsFor
    have hf : ((add_tag_for_user (remove_tag_for_user
        ((add_tag_for_user s image_id tag_name user_id category n1).state)
        image_id tag_name user_id category n2)
        image_id tag_name user_id category n3).state).tags.find?
        (fun x => x.name == tag_name && x.category == category) = some tg1 := by
      rw [htags3]
      exact hft1
    rw [hf]
    exact hfilt3

/-- Witness for C6: a fresh tag `x` added, removed and re-added by user 1 on
image 1 of the one-tag store. -/
theorem c6_add_remove_readd_witness :
    ∃ b : AnnotRow,
      annRowsFor ((add_tag_for_user oneTagState 1 "x" 1 "" 7).state) 1 "x" "" 1 = [b] ∧
      b.is_deleted = false ∧
      annRowsFor (remove_tag_for_user ((add_tag_for_user oneTagState 1 "x" 1 "" 7).state)
        1 "x" 1 "" 8) 1 "x" "" 1 = [{ b with is_deleted := true, created_at := 8 }] ∧
      (remove_tag_for_user ((add_tag_for_user oneTagState 1 "x" 1 "" 7).state)
        1 "x" 1 "" 8).annots.length =
        ((add_tag_for_user oneTagState 1 "x" 1 "" 7).state).annots.length ∧
      (add_tag_for_user (remove_tag_for_user
        ((add_tag_for_user oneTagState 1 "x" 1 "" 7).state) 1 "x" 1 "" 8)
        1 "x" 1 "" 9).isOk = true ∧
      annRowsFor ((add_tag_for_user (remove_tag_for_user
        ((add_tag_for_user oneTagState 1 "x" 1 "" 7).state) 1 "x" 1 "" 8)
        1 "x" 1 "" 9).state) 1 "x" "" 1 =
        [{ b with is_deleted := false, created_at := 9 }] ∧
      ((add_tag_for_user (remove_tag_for_user
        ((add_tag_for_user oneTagState 1 "x" 1 "" 7).state) 1 "x" 1 "" 8)
        1 "x" 1 "" 9).state).annots.length =
        ((add_tag_for_user oneTagState 1 "x" 1 "" 7).state).annots.length :=
  c6_add_remove_readd oneTagState 1 1 "x" "" 7 8 9
    (by decide) (by decide) (by decide) (by decide)

/-! ## Claim C4 -/

/-- C4 counterexample: `fiveUserSixAnnState` is a well-formed store whose
image 1 satisfies the annotator cap (5 distinct active annotators, 6 active
annotations: user 1 holds tags `a` and `z`).  Exporting image 1 sorts the
annotation records by `(category, name)`, so user 1's second record comes
after all five users have been replayed; importing into a fresh empty store
then aborts on that record (the trigger sees 5 distinct annotators) and the
fresh store ends with 5 active annotations instead of the 6 exported: the
counts do not match and the import raises. -/
theorem c4_counterexample :
    Wf fiveUserSixAnnState ∧
    distinctActiveUsers fiveUserSixAnnState 1 = 5 ∧
    totalActiveAnnots fiveUserSixAnnState = 6 ∧
    (import_archive emptyState (export_selection fiveUserSixAnnState [1] "exp") 99).isOk
      = false ∧
    totalActiveAnnots
      ((import_archive emptyState (export_selection fiveUserSixAnnState [1] "exp") 99).state)
      = 5 := by
  refine ⟨?_, by decide, by decide, by decide, by decide⟩
  unfold Wf
  refine ⟨?_, ?_, ?_, ?_, ?_, ?_, ?_, ?_, ?_, ?_, ?_⟩ <;> decide

theorem find?_append_some (p : α → Bool) (l l' : List α) (x : α)
    (h : l.find? p = some x) : (l ++ l').find? p = some x := by
  rw [List.find?_append, h]
  rfl

theorem find?_isSome_append (p : α → Bool) (l l' : List α)
    (h : (l.find? p).isSome = true) : ((l ++ l').find? p).isSome = true := by
  obtain ⟨x, hx⟩ := Option.isSome_iff_exists.mp h
  rw [find?_append_some p l l' x hx]
  rfl

theorem ensure_user_noop (t : State) (uname : String) (d : Option String) (u : UserRow)
    (h : t.users.find? (fun x => x.username == uname) = some u) :
    ensure_user t uname d = (u.id, t) := by
  unfold ensure_user
  rw [h]

theorem ensure_user_fresh (t : State) (uname : String) (d : Option String)
    (h : t.users.find? (fun x => x.username == uname) = none) :
    ensure_user t uname d = (t.nextUserId,
      { t with users := t.users ++ [⟨t.nextUserId, uname, d⟩],
               nextUserId := t.nextUserId + 1 }) := by
  unfold ensure_user
  rw [h]

/-- `ensure_user` only appends to the users table and bumps its counter. -/
theorem ensure_user_fields (t : State) (uname : String) (d : Option String) :
    ∃ du, (ensure_user t uname d).2 =
      { t with users := t.users ++ du, nextUserId := t.nextUserId + du.length } ∧
      ∀ x ∈ du, x = (⟨t.nextUserId, uname, d⟩ : UserRow) := by
  cases h : t.users.find? (fun x => x.username == uname) with
  | some u =>
    refine ⟨[], ?_, by simp⟩
    rw [ensure_user_noop t uname d u h]
    cases t
    simp
  | none =>
    refine ⟨[⟨t.nextUserId, uname, d⟩], ?_, by simp⟩
    rw [ensure_user_fresh t uname d h]
    simp

theorem ensure_user_inv (t : State) (uname : String) (d : Option String)
    (h : UsersInv t) : UsersInv (ensure_user t uname d).2 := by
  obtain ⟨hid, hname, hlt⟩ := h
  cases hf : t.users.find? (fun x => x.username == uname) with
  | some u =>
    rw [ensure_user_noop t uname d u hf]
    exact ⟨hid, hname, hlt⟩
  | none =>
    rw [ensure_user_fresh t uname d hf]
    have hnone := List.find?_eq_none.mp hf
    refine ⟨?_, ?_, ?_⟩
    · simp only [List.map_append, List.map_cons, List.map_nil]
      rw [List.nodup_append]
      refine ⟨hid, by simp, ?_⟩
      intro x hx hmem
      simp only [List.mem_singleton] at hmem
      subst hmem
      simp only [List.mem_map] at hx
      obtain ⟨u, hu, hux⟩ := hx
      exact absurd hux (Nat.ne_of_lt (hlt u hu))
    · simp only [List.map_append, List.map_cons, List.map_nil]
      rw [List.nodup_append]
      refine ⟨hname, by simp, ?_⟩
      intro x hx hmem
      simp only [List.mem_singleton] at hmem
      subst hmem
      simp only [List.mem_map] at hx
      obtain ⟨u, hu, hux⟩ := hx
      have := hnone u hu
      simp only [beq_iff_eq] at this
      exact this hux
    · intro u hu
      simp only [List.mem_append, List.mem_singleton] at hu
      rcases hu with hu | hu
      · exact Nat.lt_trans (hlt u hu) (Nat.lt_succ_self _)
      · subst hu
        exact Nat.lt_succ_self _

theorem ensure_user_resolves (t : State) (uname : String) (d : Option String) :
    ∃ us, ((ensure_user t uname d).2).users.find? (fun x => x.username == uname) = some us ∧
      us.id = (ensure_user t uname d).1 ∧ us.username = uname := by
  cases hf : t.users.find? (fun x => x.username == uname) with
  | some u =>
    rw [ensure_user_noop t uname d u hf]
    have := List.find?_some hf
    simp only [beq_iff_eq] at this
    exact ⟨u, hf, rfl, this⟩
  | none =>
    rw [ensure_user_fresh t uname d hf]
    refine ⟨⟨t.nextUserId, uname, d⟩, ?_, rfl, rfl⟩
    simp only
    rw [List.find?_append, hf]
    simp

theorem userIdOf_stable (t t' : State) (u : String) (du : List UserRow)
    (h : t'.users = t.users ++ du)
    (hfound : (t.users.find? (fun x => x.username == u)).isSome = true) :
    userIdOf t' u = userIdOf t u := by
  obtain ⟨x, hx⟩ := Option.isSome_iff_exists.mp hfound
  unfold userIdOf
  rw [h, find?_append_some _ _ _ _ hx, hx]

theorem userIdOf_inj (t : State) (h : UsersInv t) (u v : String)
    (hu : (t.users.find? (fun x => x.username == u)).isSome = true)
    (hv : (t.users.find? (fun x => x.username == v)).isSome = true)
    (huv : u ≠ v) : userIdOf t u ≠ userIdOf t v := by
  obtain ⟨ru, hru⟩ := Option.isSome_iff_exists.mp hu
  obtain ⟨rv, hrv⟩ := Option.isSome_iff_exists.mp hv
  have hru_name := List.find?_some hru
  have hrv_name := List.find?_some hrv
  simp only [beq_iff_eq] at hru_name hrv_name
  unfold userIdOf
  rw [hru, hrv]
  simp only [Option.map_some', Option.getD_some]
  intro heq
  have := List.inj_on_of_nodup_map h.1 (List.mem_of_find?_eq_some hru)
    (List.mem_of_find?_eq_some hrv) heq
  apply huv
  rw [← hru_name, ← hrv_name, this]

theorem userIdOf_of_ensure (t : State) (uname : String) (d : Option String) :
    userIdOf (ensure_user t uname d).2 uname = (ensure_user t uname d).1 := by
  obtain ⟨us, hus, hid, _⟩ := ensure_user_resolves t uname d
  unfold userIdOf
  rw [hus]
  exact hid

theorem upsert_tag_noop (t : State) (n c : String) (d : Option String) (tg : TagRow)
    (h : t.tags.find? (fun x => x.name == n && x.category == c) = some tg) :
    upsert_tag t n c d = (tg.id, t) := by
  unfold upsert_tag
  rw [h]

theorem upsert_tag_fresh (t : State) (n c : String) (d : Option String)
    (h : t.tags.find? (fun x => x.name == n && x.category == c) = none) :
    upsert_tag t n c d = (t.nextTagId,
      { t with tags := t.tags ++ [⟨t.nextTagId, n, c, d⟩],
               nextTagId := t.nextTagId + 1 }) := by
  unfold upsert_tag
  rw [h]

/-- `upsert_tag` only appends to the tags table and bumps its counter. -/
theorem upsert_tag_fields (t : State) (n c : String) (d : Option String) :
    ∃ dt, (upsert_tag t n c d).2 =
      { t with tags := t.tags ++ dt, nextTagId := t.nextTagId + dt.length } := by
  cases h : t.tags.find? (fun x => x.name == n && x.category == c) with
  | some tg =>
    refine ⟨[], ?_⟩
    rw [upsert_tag_noop t n c d tg h]
    cases t
    simp
  | none =>
    refine ⟨[⟨t.nextTagId, n, c, d⟩], ?_⟩
    rw [upsert_tag_fresh t n c d h]
    simp

theorem upsert_tag_inv (t : State) (n c : String) (d : Option String)
    (h : TagsInv t) : TagsInv (upsert_tag t n c d).2 := by
  obtain ⟨hid, hkey, hlt⟩ := h
  cases hf : t.tags.find? (fun x => x.name == n && x.category == c) with
  | some tg =>
    rw [upsert_tag_noop t n c d tg hf]
    exact ⟨hid, hkey, hlt⟩
  | none =>
    rw [upsert_tag_fresh t n c d hf]
    have hnone := List.find?_eq_none.mp hf
    refine ⟨?_, ?_, ?_⟩
    · simp only [List.map_append, List.map_cons, List.map_nil]
      rw [List.nodup_append]
      refine ⟨hid, by simp, ?_⟩
      intro x hx hmem
      simp only [List.mem_singleton] at hmem
      subst hmem
      simp only [List.mem_map] at hx
      obtain ⟨tg, htg, htgx⟩ := hx
      exact absurd htgx (Nat.ne_of_lt (hlt tg htg))
    · simp only [List.map_append, List.map_cons, List.map_nil]
      rw [List.nodup_append]
      refine ⟨hkey, by simp, ?_⟩
      intro x hx hmem
      simp only [List.mem_singleton] at hmem
      subst hmem
      simp only [List.mem_map] at hx
      obtain ⟨tg, htg, htgx⟩ := hx
      have := hnone tg htg
      simp only [Bool.and_eq_true, beq_iff_eq] at this
      apply this
      constructor
      · exact congrArg Prod.fst htgx
      · exact congrArg Prod.snd htgx
    · intro tg htg
      simp only [List.mem_append, List.mem_singleton] at htg
      rcases htg with htg | htg
      · exact Nat.lt_trans (hlt tg htg) (Nat.lt_succ_self _)
      · subst htg
        exact Nat.lt_succ_self _

theorem upsert_tag_resolves (t : State) (n c : String) (d : Option String) :
    ∃ tg, ((upsert_tag t n c d).2).tags.find? (fun x => x.name == n && x.category == c)
      = some tg ∧ tg.id = (upsert_tag t n c d).1 := by
  cases hf : t.tags.find? (fun x => x.name == n && x.category == c) with
  | some tg =>
    rw [upsert_tag_noop t n c d tg hf]
    exact ⟨tg, hf, rfl⟩
  | none =>
    rw [upsert_tag_fresh t n c d hf]
    refine ⟨⟨t.nextTagId, n, c, d⟩, ?_, rfl⟩
    simp only
    rw [List.find?_append, hf]
    simp

theorem tagIdOf_stable (t t' : State) (n c : String) (dt : List TagRow)
    (h : t'.tags = t.tags ++ dt)
    (hfound : (t.tags.find? (fun x => x.name == n && x.category == c)).isSome = true) :
    tagIdOf t' n c = tagIdOf t n c := by
  obtain ⟨x, hx⟩ := Option.isSome_iff_exists.mp hfound
  unfold tagIdOf
  rw [h, find?_append_some _ _ _ _ hx, hx]

theorem tagIdOf_inj (t : State) (h : TagsInv t) (n c n' c' : String)
    (hu : (t.tags.find? (fun x => x.name == n && x.category == c)).isSome = true)
    (hv : (t.tags.find? (fun x => x.name == n' && x.category == c')).isSome = true)
    (hne : ¬(n = n' ∧ c = c')) : tagIdOf t n c ≠ tagIdOf t n' c' := by
  obtain ⟨ru, hru⟩ := Option.isSome_iff_exists.mp hu
  obtain ⟨rv, hrv⟩ := Option.isSome_iff_exists.mp hv
  have hru_k := List.find?_some hru
  have hrv_k := List.find?_some hrv
  simp only [Bool.and_eq_true, beq_iff_eq] at hru_k hrv_k
  unfold tagIdOf
  rw [hru, hrv]
  simp only [Option.map_some', Option.getD_some]
  intro heq
  have := List.inj_on_of_nodup_map h.1 (List.mem_of_find?_eq_some hru)
    (List.mem_of_find?_eq_some hrv) heq
  apply hne
  rw [← hru_k.1, ← hru_k.2, ← hrv_k.1, ← hrv_k.2, this]
  exact ⟨rfl, rfl⟩

/-- The user-registration phase of `import_archive`: only appends users. -/
theorem usersFold_spec (recs : List (String × Option String)) (t : State)
    (hinv : UsersInv t) :
    ∃ du, (recs.foldl (fun st u => (ensure_user st u.1 u.2).2) t) =
        { t with users := t.users ++ du, nextUserId := t.nextUserId + du.length } ∧
      UsersInv (recs.foldl (fun st u => (ensure_user st u.1 u.2).2) t) ∧
      (∀ p ∈ recs,
        (((recs.foldl (fun st u => (ensure_user st u.1 u.2).2) t)).users.find?
          (fun x => x.username == p.1)).isSome = true) := by
  induction recs generalizing t with
  | nil =>
    refine ⟨[], ?_, hinv, by simp⟩
    cases t
    simp
  | cons p ps ih =>
    rw [List.foldl_cons]
    obtain ⟨du1, hdu1, hxdu1⟩ := ensure_user_fields t p.1 p.2
    obtain ⟨du2, hdu2, hinv2, hfound2⟩ := ih ((ensure_user t p.1 p.2).2)
      (ensure_user_inv t p.1 p.2 hinv)
    refine ⟨du1 ++ du2, ?_, hinv2, ?_⟩
    · rw [hdu2, hdu1]
      simp only [List.append_assoc, List.length_append]
      congr 1
      omega
    · intro q hq
      simp only [List.mem_cons] at hq
      rcases hq with hq | hq
      · subst hq
        obtain ⟨us, hus, _, _⟩ := ensure_user_resolves t q.1 q.2
        rw [hdu2]
        simp only
        refine find?_isSome_append _ _ _ ?_
        rw [hus]
        rfl
      · exact hfound2 q hq

/-- The tag-vocabulary phase of `import_archive`: only appends tags, and
afterwards every registered key resolves. -/
theorem tagsFold_spec (recs : List (String × String × Option String)) (t : State)
    (hinv : TagsInv t) :
    ∃ dt, (recs.foldl (fun st tr => (upsert_tag st tr.1 tr.2.1 tr.2.2).2) t) =
        { t with tags := t.tags ++ dt, nextTagId := t.nextTagId + dt.length } ∧
      TagsInv (recs.foldl (fun st tr => (upsert_tag st tr.1 tr.2.1 tr.2.2).2) t) ∧
      (∀ tr ∈ recs,
        (((recs.foldl (fun st tr => (upsert_tag st tr.1 tr.2.1 tr.2.2).2) t)).tags.find?
          (fun x => x.name == tr.1 && x.category == tr.2.1)).isSome = true) := by
  induction recs generalizing t with
  | nil =>
    refine ⟨[], ?_, hinv, by simp⟩
    cases t
    simp
  | cons p ps ih =>
    rw [List.foldl_cons]
    obtain ⟨dt1, hdt1⟩ := upsert_tag_fields t p.1 p.2.1 p.2.2
    obtain ⟨dt2, hdt2, hinv2, hfound2⟩ := ih ((upsert_tag t p.1 p.2.1 p.2.2).2)
      (upsert_tag_inv t p.1 p.2.1 p.2.2 hinv)
    refine ⟨dt1 ++ dt2, ?_, hinv2, ?_⟩
    · rw [hdt2, hdt1]
      simp only [List.append_assoc, List.length_append]
      congr 1
      omega
    · intro q hq
      simp only [List.mem_cons] at hq
      rcases hq with hq | hq
      · subst hq
        obtain ⟨tg, htg, _⟩ := upsert_tag_resolves t q.1 q.2.1 q.2.2
        rw [hdt2]
        simp only
        refine find?_isSome_append _ _ _ ?_
        rw [htg]
        rfl
      · exact hfound2 q hq

theorem tagIdOf_congr (t t' : State) (n c : String) (h : t'.tags = t.tags) :
    tagIdOf t' n c = tagIdOf t n c := by
  unfold tagIdOf
  rw [h]

theorem userIdOf_congr (t t' : State) (u : String) (h : t'.users = t.users) :
    userIdOf t' u = userIdOf t u := by
  unfold userIdOf
  rw [h]

theorem tagIdOf_of_found (t : State) (n c : String) (tg : TagRow)
    (h : t.tags.find? (fun x => x.name == n && x.category == c) = some tg) :
    tagIdOf t n c = tg.id := by
  unfold tagIdOf
  rw [h]
  rfl

/-- Bounding the distinct user ids of rows resolved from a username list. -/
theorem card_userIds_le (dk : List AnnotRow) (names : List String) (f : String → Nat)
    (h : ∀ row ∈ dk, ∃ u ∈ names, row.user_id = f u) :
    ((dk.map (fun a => a.user_id)).toFinset).card ≤ names.dedup.length := by
  calc ((dk.map (fun a => a.user_id)).toFinset).card
      ≤ (Finset.image f names.toFinset).card := by
        apply Finset.card_le_card
        intro x hx
        simp only [List.mem_toFinset, List.mem_map, Finset.mem_image] at hx ⊢
        obtain ⟨row, hrow, hrx⟩ := hx
        obtain ⟨u, hu, hru⟩ := h row hrow
        exact ⟨u, hu, by rw [← hrx, hru]⟩
    _ ≤ names.toFinset.card := Finset.card_image_le
    _ = names.dedup.length := List.card_toFinset names

/-- The success path of `upsert_quality` written as an equation. -/
theorem upsert_quality_ok (t : State) (i u : Nat) (label : String) (sc : Option Int)
    (w : Option Int) (n : Int) (hv : validLabel label = true) :
    upsert_quality t i u label sc w n = .ok { t with
      votes := t.votes.filter (fun v => !(v.image_id == i && v.user_id == u)) ++
        [⟨t.nextVoteId, i, u, label, sc, w.getD n⟩],
      nextVoteId := t.nextVoteId + 1 } := by
  unfold upsert_quality
  rw [if_pos hv]

/-- The attachment replay of `import_archive` on fresh, bundled, distinct
digests: every record is registered once, appended in order. -/
theorem importAtts_spec (ar : Archive) (image_id : Nat) (recs : List AttRec) :
    ∀ t : State,
    (∀ at_ ∈ recs, t.atts.find? (fun x => x.sha256 == at_.sha256) = none) →
    ((recs.map (fun a => a.sha256)).Nodup) →
    (∀ at_ ∈ recs, (at_.sha256 ++ at_.ext) ∈ ar.attMembers) →
    ∃ da, importAtts t image_id ar recs =
        { t with atts := t.atts ++ da, nextAttId := t.nextAttId + da.length } ∧
      da.map (fun a => a.sha256) = recs.map (fun a => a.sha256) ∧
      (∀ a ∈ da, a.image_id = image_id) := by
  induction recs with
  | nil =>
    intro t _ _ _
    refine ⟨[], ?_, rfl, by simp⟩
    unfold importAtts
    simp only [List.foldl_nil]
    cases t
    simp
  | cons at_ rest ih =>
    intro t hfresh hnodup hmem
    have hf := hfresh at_ (List.mem_cons_self _ _)
    have hm := hmem at_ (List.mem_cons_self _ _)
    have hstep : importAtts t image_id ar (at_ :: rest) =
        importAtts { t with
          atts := t.atts ++ [⟨t.nextAttId, image_id, at_.kind,
            "attachments_imported/" ++ at_.sha256 ++ at_.ext, at_.sha256, none⟩],
          nextAttId := t.nextAttId + 1 } image_id ar rest := by
      unfold importAtts
      rw [List.foldl_cons]
      congr 1
      rw [hf]
      simp only [Option.isSome_none, Bool.false_eq_true, if_false]
      rw [if_pos (by simpa using hm)]
      unfold upsert_attachment
      rw [hf]
    rw [hstep]
    simp only [List.map_cons, List.nodup_cons] at hnodup
    obtain ⟨hhead, htail⟩ := hnodup
    obtain ⟨da, hda, hsha, himg⟩ := ih { t with
        atts := t.atts ++ [⟨t.nextAttId, image_id, at_.kind,
          "attachments_imported/" ++ at_.sha256 ++ at_.ext, at_.sha256, none⟩],
        nextAttId := t.nextAttId + 1 }
      (by
        intro b hb
        simp only
        rw [List.find?_append, hfresh b (List.mem_cons_of_mem _ hb)]
        simp only [Option.none_or]
        rw [List.find?_eq_none]
        intro x hx
        simp only [List.mem_singleton] at hx
        subst hx
        simp only [beq_eq_false_iff_ne, ne_eq, Bool.not_eq_true]
        have : at_.sha256 ≠ b.sha256 := by
          intro hcontra
          exact hhead (by rw [hcontra]; exact List.mem_map_of_mem _ hb)
        simpa using this)
      htail
      (fun b hb => hmem b (List.mem_cons_of_mem _ hb))
    refine ⟨⟨t.nextAttId, image_id, at_.kind,
        "attachments_imported/" ++ at_.sha256 ++ at_.ext, at_.sha256, none⟩ :: da, ?_, ?_, ?_⟩
    · rw [hda]
      simp only [List.append_assoc, List.singleton_append, List.length_cons]
      congr 1
      omega
    · simp only [List.map_cons, hsha]
    · intro a ha
      rcases List.mem_cons.mp ha with ha | ha
      · subst ha
        rfl
      · exact himg a ha

/-- The active rows of the image under replay are exactly the rows the
replay has inserted. -/
theorem activeAnnots_of_append (t0 : State) (dk : List AnnotRow) (t : State)
    (image_id : Nat)
    (hann : t.annots = t0.annots ++ dk)
    (hfresh : ∀ a ∈ t0.annots, a.image_id ≠ image_id)
    (hdk : ∀ row ∈ dk, row.image_id = image_id ∧ row.is_deleted = false) :
    activeAnnots t image_id = dk := by
  unfold activeAnnots
  rw [hann, List.filter_append]
  have h1 : t0.annots.filter (fun a => a.image_id == image_id && !a.is_deleted) = [] := by
    rw [List.filter_eq_nil_iff]
    intro a ha
    have hne := hfresh a ha
    simp [hne]
  have h2 : dk.filter (fun a => a.image_id == image_id && !a.is_deleted) = dk := by
    rw [List.filter_eq_self]
    intro row hrow
    obtain ⟨h3, h4⟩ := hdk row hrow
    simp [h3, h4]
  rw [h1, h2]
  rfl

/-- The annotation replay of `import_archive` on a fresh image: with all tag
keys registered, record keys distinct, and at most 4 distinct authors, every
record inserts exactly one fresh active row and the replay never aborts. -/
theorem importAnns_spec (image_id : Nat) (now : Int) (t0 : State)
    (hfresh0 : ∀ a ∈ t0.annots, a.image_id ≠ image_id) :
    ∀ (recs done : List AnnRec) (t : State),
    (((done ++ recs).map (fun r => (r.tag, r.category, r.username))).Nodup) →
    ((((done ++ recs).map (fun r => r.username)).dedup).length ≤ 4) →
    (∀ r ∈ done ++ recs,
      (t.tags.find? (fun x => x.name == r.tag && x.category == r.category)).isSome = true) →
    UsersInv t → TagsInv t →
    (∀ d ∈ done, (t.users.find? (fun x => x.username == d.username)).isSome = true) →
    (∃ du, t.users = t0.users ++ du) →
    t.tags = t0.tags →
    t.images = t0.images → t.votes = t0.votes → t.atts = t0.atts →
    t.nextImageId = t0.nextImageId → t.nextVoteId = t0.nextVoteId →
    t.nextAttId = t0.nextAttId → t.nextTagId = t0.nextTagId →
    (∃ dk, t.annots = t0.annots ++ dk ∧ dk.length = done.length ∧
      (∀ row ∈ dk, row.image_id = image_id ∧ row.is_deleted = false ∧
        ∃ d ∈ done, row.tag_id = tagIdOf t d.tag d.category ∧
          row.user_id = userIdOf t d.username) ∧
      (∀ d ∈ done, ∃ row ∈ dk, row.tag_id = tagIdOf t d.tag d.category ∧
        row.user_id = userIdOf t d.username)) →
    ∃ t', importAnns t image_id recs now = .ok t' ∧
      t'.tags = t0.tags ∧ t'.images = t0.images ∧ t'.votes = t0.votes ∧ t'.atts = t0.atts ∧
      t'.nextImageId = t0.nextImageId ∧ t'.nextVoteId = t0.nextVoteId ∧
      t'.nextAttId = t0.nextAttId ∧ t'.nextTagId = t0.nextTagId ∧
      (∃ du, t'.users = t0.users ++ du) ∧ UsersInv t' ∧ TagsInv t' ∧
      (∀ d ∈ done ++ recs,
        (t'.users.find? (fun x => x.username == d.username)).isSome = true) ∧
      (∃ dk, t'.annots = t0.annots ++ dk ∧ dk.length = done.length + recs.length ∧
        (∀ row ∈ dk, row.image_id = image_id ∧ row.is_deleted = false ∧
          ∃ d ∈ done ++ recs, row.tag_id = tagIdOf t' d.tag d.category ∧
            row.user_id = userIdOf t' d.username) ∧
        (∀ d ∈ done ++ recs, ∃ row ∈ dk, row.tag_id = tagIdOf t' d.tag d.category ∧
          row.user_id = userIdOf t' d.username)) := by
  intro recs
  induction recs with
  | nil =>
    intro done t hkeys husers htags hUinv hTinv hdoneU hdu htags0 him hvo hat hni hnv hna hnt hdk
    refine ⟨t, rfl, htags0, him, hvo, hat, hni, hnv, hna, hnt, hdu, hUinv, hTinv, ?_, ?_⟩
    · simpa using hdoneU
    · obtain ⟨dk, h1, h2, h3, h4⟩ := hdk
      exact ⟨dk, h1, by simpa using h2, by simpa using h3, by simpa using h4⟩
  | cons r rest ih =>
    intro done t hkeys husers htags hUinv hTinv hdoneU hdu htags0 him hvo hat hni hnv hna hnt hdk
    obtain ⟨dk, hann, hdklen, hdkrow, hdkconv⟩ := hdk
    obtain ⟨du0, hdu0⟩ := hdu
    -- Step 1: ensure the author
    obtain ⟨du1, ht1eq, hdu1x⟩ := ensure_user_fields t r.username none
    have hUinv1 : UsersInv (ensure_user t r.username none).2 :=
      ensure_user_inv t r.username none hUinv
    have huid : userIdOf (ensure_user t r.username none).2 r.username =
        (ensure_user t r.username none).1 := userIdOf_of_ensure t r.username none
    have ht1tags : ((ensure_user t r.username none).2).tags = t.tags := by
      rw [ht1eq]
    have ht1annots : ((ensure_user t r.username none).2).annots = t.annots := by
      rw [ht1eq]
    have ht1users : ((ensure_user t r.username none).2).users = t.users ++ du1 := by
      rw [ht1eq]
    have hrfound : (((ensure_user t r.username none).2).users.find?
        (fun x => x.username == r.username)).isSome = true := by
      obtain ⟨us, hus, _, _⟩ := ensure_user_resolves t r.username none
      rw [hus]
      rfl
    -- resolution stability t -> t1 for done authors
    have hstabdone : ∀ d ∈ done, userIdOf (ensure_user t r.username none).2 d.username =
        userIdOf t d.username := by
      intro d hd
      exact userIdOf_stable t _ d.username du1 ht1users (hdoneU d hd)
    have hdoneU1 : ∀ d ∈ done, (((ensure_user t r.username none).2).users.find?
        (fun x => x.username == d.username)).isSome = true := by
      intro d hd
      rw [ht1users]
      exact find?_isSome_append _ _ _ (hdoneU d hd)
    -- Step 2: the tag resolves
    have htagr : (t.tags.find? (fun x =>
        x.name == r.tag && x.category == r.category)).isSome = true :=
      htags r (by simp)
    obtain ⟨tg, htg⟩ := Option.isSome_iff_exists.mp htagr
    have htg1 : ((ensure_user t r.username none).2).tags.find? (fun x =>
        x.name == r.tag && x.category == r.category) = some tg := by
      rw [ht1tags]
      exact htg
    have htgid : tagIdOf t r.tag r.category = tg.id := tagIdOf_of_found t r.tag r.category tg htg
    -- Step 3: the triple is fresh
    have hfindnone : ((ensure_user t r.username none).2).annots.find? (fun a =>
        a.image_id == image_id && a.tag_id == tg.id &&
          a.user_id == (ensure_user t r.username none).1) = none := by
      rw [ht1annots, hann, List.find?_eq_none]
      intro a ha
      rcases List.mem_append.mp ha with ha | ha
      · have hne := hfresh0 a ha
        simp [hne]
      · obtain ⟨himg, hdel, d, hd, htagd, huserd⟩ := hdkrow a ha
        have hkey : ¬(d.tag = r.tag ∧ d.category = r.category ∧ d.username = r.username) := by
          intro ⟨k1, k2, k3⟩
          have hnd := hkeys
          rw [List.map_append] at hnd
          have := (List.nodup_append.mp hnd).2.2
          exact this (List.mem_map_of_mem _ hd)
            (by simp only [List.map_cons, List.mem_cons]
                exact Or.inl (by rw [k1, k2, k3]))
        simp only [Bool.and_eq_true, beq_iff_eq, not_and, and_imp]
        intro _ htgeq huideq
        -- a.tag_id = tg.id and a.user_id = uid
        by_cases hkeq : d.tag = r.tag ∧ d.category = r.category
        · have hname : d.username ≠ r.username := by
            intro hcontra
            exact hkey ⟨hkeq.1, hkeq.2, hcontra⟩
          have hinj := userIdOf_inj (ensure_user t r.username none).2 hUinv1
            d.username r.username (by
              rw [ht1users]
              exact find?_isSome_append _ _ _ (hdoneU d hd)) hrfound hname
          apply hinj
          rw [hstabdone d hd, ← huserd, huideq, huid]
        · have hinj := tagIdOf_inj t hTinv d.tag d.category r.tag r.category
            (htags d (by simp [hd])) htagr hkeq
          apply hinj
          rw [← htagd, htgeq, htgid]
      -- end find? none
    -- Step 4: under the cap
    have hactive : activeAnnots (ensure_user t r.username none).2 image_id = dk := by
      apply activeAnnots_of_append t0 dk
      · rw [ht1annots, hann]
      · exact hfresh0
      · intro row hrow
        exact ⟨(hdkrow row hrow).1, (hdkrow row hrow).2.1⟩
    have hlt5 : ¬(5 ≤ distinctActiveUsers (ensure_user t r.username none).2 image_id) := by
      unfold distinctActiveUsers
      rw [hactive]
      have hcard : ((dk.map (fun a => a.user_id)).toFinset).card ≤
          ((done ++ r :: rest).map (fun x => x.username)).dedup.length := by
        apply card_userIds_le dk ((done ++ r :: rest).map (fun x => x.username))
          (fun u => userIdOf t u)
        intro row hrow
        obtain ⟨_, _, d, hd, _, huserd⟩ := hdkrow row hrow
        exact ⟨d.username, List.mem_map_of_mem _ (List.mem_append_left _ hd), huserd⟩
      omega
    -- Step 5: the add equation
    have haddEq : add_tag_for_user (ensure_user t r.username none).2 image_id r.tag
        (ensure_user t r.username none).1 r.category now =
        .ok { (ensure_user t r.username none).2 with
          annots := ((ensure_user t r.username none).2).annots ++
            [⟨((ensure_user t r.username none).2).nextAnnotId, image_id, tg.id,
              (ensure_user t r.username none).1, now, false⟩],
          nextAnnotId := ((ensure_user t r.username none).2).nextAnnotId + 1 } := by
      unfold add_tag_for_user
      rw [upsert_tag_noop _ r.tag r.category none tg htg1]
      dsimp only
      rw [hfindnone]
      dsimp only
      rw [if_neg hlt5]
    -- Step 6: one unfolding of importAnns
    have hstep : importAnns t image_id (r :: rest) now =
        importAnns ({ (ensure_user t r.username none).2 with
          annots := ((ensure_user t r.username none).2).annots ++
            [⟨((ensure_user t r.username none).2).nextAnnotId, image_id, tg.id,
              (ensure_user t r.username none).1, now, false⟩],
          nextAnnotId := ((ensure_user t r.username none).2).nextAnnotId + 1 })
          image_id rest now := by
      simp only [importAnns]
      rw [haddEq]
    have hucong : ∀ u : String, userIdOf { (ensure_user t r.username none).2 with
          annots := ((ensure_user t r.username none).2).annots ++
            [⟨((ensure_user t r.username none).2).nextAnnotId, image_id, tg.id,
              (ensure_user t r.username none).1, now, false⟩],
          nextAnnotId := ((ensure_user t r.username none).2).nextAnnotId + 1 } u =
        userIdOf (ensure_user t r.username none).2 u := by
      intro u
      exact userIdOf_congr _ _ u rfl
    have htcong : ∀ n c : String, tagIdOf { (ensure_user t r.username none).2 with
          annots := ((ensure_user t r.username none).2).annots ++
            [⟨((ensure_user t r.username none).2).nextAnnotId, image_id, tg.id,
              (ensure_user t r.username none).1, now, false⟩],
          nextAnnotId := ((ensure_user t r.username none).2).nextAnnotId + 1 } n c =
        tagIdOf (ensure_user t r.username none).2 n c := by
      intro n c
      exact tagIdOf_congr _ _ n c rfl
    rw [hstep]
    -- Step 7: recurse
    have hshape : done ++ r :: rest = (done ++ [r]) ++ rest := by simp
    have hlen2 : done.length + (r :: rest).length = (done ++ [r]).length + rest.length := by
      simp only [List.length_append, List.length_cons, List.length_nil]
      omega
    rw [hshape, hlen2]
    apply ih (done ++ [r])
    · rw [List.append_assoc]
      simpa using hkeys
    · rw [List.append_assoc]
      simpa using husers
    · intro d hd
      simp only [ht1tags]
      apply htags
      rw [List.append_assoc] at hd
      simpa using hd
    · exact hUinv1
    · rw [ht1eq]
      exact hTinv
    · intro d hd
      rcases List.mem_append.mp hd with hd | hd
      · exact hdoneU1 d hd
      · simp only [List.mem_singleton] at hd
        subst hd
        exact hrfound
    · exact ⟨du0 ++ du1, by rw [ht1users, hdu0, List.append_assoc]⟩
    · rw [ht1tags]
      exact htags0
    · rw [ht1eq]
      exact him
    · rw [ht1eq]
      exact hvo
    · rw [ht1eq]
      exact hat
    · rw [ht1eq]
      exact hni
    · rw [ht1eq]
      exact hnv
    · rw [ht1eq]
      exact hna
    · rw [ht1eq]
      exact hnt
    · -- the new dk
      refine ⟨dk ++ [⟨((ensure_user t r.username none).2).nextAnnotId, image_id, tg.id,
        (ensure_user t r.username none).1, now, false⟩], ?_, ?_, ?_, ?_⟩
      · simp only [ht1annots, hann, List.append_assoc]
      · simp [hdklen]
      · intro row hrow
        rcases List.mem_append.mp hrow with hrow | hrow
        · obtain ⟨h1, h2, d, hd, h3, h4⟩ := hdkrow row hrow
          refine ⟨h1, h2, d, List.mem_append_left _ hd, ?_, ?_⟩
          · rw [htcong d.tag d.category, tagIdOf_congr _ _ _ _ ht1tags]
            exact h3
          · rw [hucong d.username, hstabdone d hd]
            exact h4
        · simp only [List.mem_singleton] at hrow
          subst hrow
          refine ⟨rfl, rfl, r, List.mem_append_right _ (List.mem_singleton_self r), ?_, ?_⟩
          · simp only
            rw [htcong r.tag r.category, tagIdOf_congr _ _ _ _ ht1tags, htgid]
          · simp only
            rw [hucong r.username, huid]
      · intro d hd
        rcases List.mem_append.mp hd with hd | hd
        · obtain ⟨row, hrow, h3, h4⟩ := hdkconv d hd
          refine ⟨row, List.mem_append_left _ hrow, ?_, ?_⟩
          · rw [htcong d.tag d.category, tagIdOf_congr _ _ _ _ ht1tags]
            exact h3
          · rw [hucong d.username, hstabdone d hd]
            exact h4
        · simp only [List.mem_singleton] at hd
          subst hd
          refine ⟨⟨((ensure_user t d.username none).2).nextAnnotId, image_id, tg.id,
            (ensure_user t d.username none).1, now, false⟩,
            List.mem_append_right _ (by simp), ?_, ?_⟩
          · simp only
            rw [htcong d.tag d.category, tagIdOf_congr _ _ _ _ ht1tags, htgid]
          · simp only
            rw [hucong d.username, huid]

/-- The quality replay of `import_archive` on a fresh image: with distinct
authors and valid labels, every record appends exactly one vote row for the
image (the `INSERT OR REPLACE` deletes nothing) and the replay never aborts. -/
theorem importQuals_spec (image_id : Nat) (now : Int) (t0 : State)
    (hfresh0 : ∀ v ∈ t0.votes, v.image_id ≠ image_id) :
    ∀ (recs done : List QualRec) (t : State),
    (((done ++ recs).map (fun q => q.username)).Nodup) →
    (∀ q ∈ done ++ recs, validLabel q.label = true) →
    UsersInv t →
    (∀ d ∈ done, (t.users.find? (fun x => x.username == d.username)).isSome = true) →
    (∃ du, t.users = t0.users ++ du) →
    t.tags = t0.tags → t.images = t0.images → t.annots = t0.annots → t.atts = t0.atts →
    t.nextImageId = t0.nextImageId → t.nextAnnotId = t0.nextAnnotId →
    t.nextAttId = t0.nextAttId → t.nextTagId = t0.nextTagId →
    (∃ dv, t.votes = t0.votes ++ dv ∧ (∀ v ∈ dv, v.image_id = image_id) ∧
      dv.map (fun v => v.user_id) = done.map (fun d => userIdOf t d.username)) →
    ∃ t', importQuals t image_id recs now = .ok t' ∧
      t'.tags = t0.tags ∧ t'.images = t0.images ∧ t'.annots = t0.annots ∧ t'.atts = t0.atts ∧
      t'.nextImageId = t0.nextImageId ∧ t'.nextAnnotId = t0.nextAnnotId ∧
      t'.nextAttId = t0.nextAttId ∧ t'.nextTagId = t0.nextTagId ∧
      (∃ du, t'.users = t0.users ++ du) ∧ UsersInv t' ∧
      (∀ d ∈ done ++ recs,
        (t'.users.find? (fun x => x.username == d.username)).isSome = true) ∧
      (∃ dv, t'.votes = t0.votes ++ dv ∧ (∀ v ∈ dv, v.image_id = image_id) ∧
        dv.map (fun v => v.user_id) =
          (done ++ recs).map (fun d => userIdOf t' d.username)) := by
  intro recs
  induction recs with
  | nil =>
    intro done t husers hlab hUinv hdoneU hdu htags him hann hat hni hna hnat hnt hdv
    refine ⟨t, rfl, htags, him, hann, hat, hni, hna, hnat, hnt, hdu, hUinv, ?_, ?_⟩
    · simpa using hdoneU
    · obtain ⟨dv, h1, h2, h3⟩ := hdv
      exact ⟨dv, h1, h2, by simpa using h3⟩
  | cons q rest ih =>
    intro done t husers hlab hUinv hdoneU hdu htags him hann hat hni hna hnat hnt hdv
    obtain ⟨dv, hvotes, himg, hmap⟩ := hdv
    obtain ⟨du0, hdu0⟩ := hdu
    obtain ⟨du1, ht1eq, hdu1x⟩ := ensure_user_fields t q.username none
    have hUinv1 : UsersInv (ensure_user t q.username none).2 :=
      ensure_user_inv t q.username none hUinv
    have hq1 : userIdOf (ensure_user t q.username none).2 q.username =
        (ensure_user t q.username none).1 := userIdOf_of_ensure t q.username none
    have ht1votes : ((ensure_user t q.username none).2).votes = t.votes := by
      rw [ht1eq]
    have ht1users : ((ensure_user t q.username none).2).users = t.users ++ du1 := by
      rw [ht1eq]
    have hqfound1 : (((ensure_user t q.username none).2).users.find?
        (fun x => x.username == q.username)).isSome = true := by
      obtain ⟨us, hus, _, _⟩ := ensure_user_resolves t q.username none
      rw [hus]
      rfl
    have hstabdone : ∀ d ∈ done, userIdOf (ensure_user t q.username none).2 d.username =
        userIdOf t d.username := by
      intro d hd
      exact userIdOf_stable t _ d.username du1 ht1users (hdoneU d hd)
    have hdoneU1 : ∀ d ∈ done, (((ensure_user t q.username none).2).users.find?
        (fun x => x.username == d.username)).isSome = true := by
      intro d hd
      rw [ht1users]
      exact find?_isSome_append _ _ _ (hdoneU d hd)
    -- the REPLACE deletes nothing
    have hfiltid : ((ensure_user t q.username none).2).votes.filter (fun v =>
        !(v.image_id == image_id && v.user_id == (ensure_user t q.username none).1)) =
        ((ensure_user t q.username none).2).votes := by
      rw [List.filter_eq_self]
      intro v hv
      rw [ht1votes, hvotes] at hv
      rcases List.mem_append.mp hv with hv | hv
      · have hne := hfresh0 v hv
        simp [hne]
      · have hvm : v.user_id ∈ dv.map (fun v => v.user_id) := List.mem_map_of_mem _ hv
        rw [hmap] at hvm
        obtain ⟨d, hd, heq⟩ := List.mem_map.mp hvm
        have hname : d.username ≠ q.username := by
          intro hc
          have hnd := husers
          rw [List.map_append] at hnd
          have hdisj := (List.nodup_append.mp hnd).2.2
          exact hdisj (List.mem_map_of_mem _ hd)
            (by simp only [List.map_cons, List.mem_cons]
                exact Or.inl hc)
        have hne : v.user_id ≠ (ensure_user t q.username none).1 := by
          intro hcontra
          apply userIdOf_inj (ensure_user t q.username none).2 hUinv1
            d.username q.username (hdoneU1 d hd) hqfound1 hname
          rw [hstabdone d hd, heq, hcontra, hq1]
        simp [hne]
    -- the upsert equation
    have hq2 : upsert_quality (ensure_user t q.username none).2 image_id
        (ensure_user t q.username none).1 q.label q.score (some q.created_at) now =
        .ok { (ensure_user t q.username none).2 with
          votes := ((ensure_user t q.username none).2).votes ++
            [⟨((ensure_user t q.username none).2).nextVoteId, image_id,
              (ensure_user t q.username none).1, q.label, q.score,
              (some q.created_at).getD now⟩],
          nextVoteId := ((ensure_user t q.username none).2).nextVoteId + 1 } := by
      have := upsert_quality_ok (ensure_user t q.username none).2 image_id
        (ensure_user t q.username none).1 q.label q.score (some q.created_at) now
        (hlab q (by simp))
      rw [hfiltid] at this
      exact this
    have hstep : importQuals t image_id (q :: rest) now =
        importQuals ({ (ensure_user t q.username none).2 with
          votes := ((ensure_user t q.username none).2).votes ++
            [⟨((ensure_user t q.username none).2).nextVoteId, image_id,
              (ensure_user t q.username none).1, q.label, q.score,
              (some q.created_at).getD now⟩],
          nextVoteId := ((ensure_user t q.username none).2).nextVoteId + 1 })
          image_id rest now := by
      simp only [importQuals]
      rw [hq2]
    have hu2cong : ∀ u : String, userIdOf { (ensure_user t q.username none).2 with
          votes := ((ensure_user t q.username none).2).votes ++
            [⟨((ensure_user t q.username none).2).nextVoteId, image_id,
              (ensure_user t q.username none).1, q.label, q.score,
              (some q.created_at).getD now⟩],
          nextVoteId := ((ensure_user t q.username none).2).nextVoteId + 1 } u =
        userIdOf (ensure_user t q.username none).2 u := by
      intro u
      exact userIdOf_congr _ _ u rfl
    rw [hstep]
    have hshape : done ++ q :: rest = (done ++ [q]) ++ rest := by simp
    rw [hshape]
    apply ih (done ++ [q])
    · rw [List.append_assoc]
      simpa using husers
    · intro d hd
      apply hlab
      rw [List.append_assoc] at hd
      simpa using hd
    · exact hUinv1
    · intro d hd
      rcases List.mem_append.mp hd with hd | hd
      · exact hdoneU1 d hd
      · simp only [List.mem_singleton] at hd
        subst hd
        exact hqfound1
    · exact ⟨du0 ++ du1, by rw [ht1users, hdu0, List.append_assoc]⟩
    · rw [ht1eq]
      exact htags
    · rw [ht1eq]
      exact him
    · rw [ht1eq]
      exact hann
    · rw [ht1eq]
      exact hat
    · rw [ht1eq]
      exact hni
    · rw [ht1eq]
      exact hna
    · rw [ht1eq]
      exact hnat
    · rw [ht1eq]
      exact hnt
    · refine ⟨dv ++ [⟨((ensure_user t q.username none).2).nextVoteId, image_id,
        (ensure_user t q.username none).1, q.label, q.score,
        (some q.created_at).getD now⟩], ?_, ?_, ?_⟩
      · simp only [ht1votes, hvotes, List.append_assoc]
      · intro v hv
        rcases List.mem_append.mp hv with hv | hv
        · exact himg v hv
        · simp only [List.mem_singleton] at hv
          subst hv
          rfl
      · rw [List.map_append, List.map_append, hmap]
        have h1 : done.map (fun d => userIdOf { (ensure_user t q.username none).2 with
              votes := ((ensure_user t q.username none).2).votes ++
                [⟨((ensure_user t q.username none).2).nextVoteId, image_id,
                  (ensure_user t q.username none).1, q.label, q.score,
                  (some q.created_at).getD now⟩],
              nextVoteId := ((ensure_user t q.username none).2).nextVoteId + 1 }
              d.username) =
            done.map (fun d => userIdOf t d.username) := by
          apply List.map_congr_left
          intro d hd
          rw [hu2cong d.username, hstabdone d hd]
        rw [h1]
        simp only [List.map_cons, List.map_nil]
        rw [hu2cong q.username, hq1]

theorem find?_isSome_of_mem (p : α → Bool) (l : List α) (x : α) (hx : x ∈ l)
    (hp : p x = true) : (l.find? p).isSome = true := by
  induction l with
  | nil => cases hx
  | cons y ys ih =>
    by_cases h : p y
    · simp [List.find?_cons, h]
    · rcases List.mem_cons.mp hx with hx | hx
      · subst hx
        exact absurd hp (by simpa using h)
      · simpa [List.find?_cons, h] using ih hx

theorem userIdOf_eq_of_find? (t : State) (u : String) (us : UserRow)
    (h : t.users.find? (fun x => x.username == u) = some us) :
    userIdOf t u = us.id := by
  unfold userIdOf
  rw [h]
  rfl

theorem filter_length_split (p : α → Bool) (l : List α) :
    (l.filter p).length + (l.filter (fun a => !p a)).length = l.length := by
  induction l with
  | nil => rfl
  | cons x xs ih =>
    by_cases h : p x
    · simp only [List.filter_cons, h, if_true, Bool.not_true, Bool.false_eq_true, if_false,
        List.length_cons]
      omega
    · simp only [List.filter_cons, h, Bool.false_eq_true, if_false, Bool.not_false, if_true,
        List.length_cons]
      omega

theorem filter_pair_of_img (dv : List VoteRow) (img uid : Nat)
    (hall : ∀ v ∈ dv, v.image_id = img) :
    dv.filter (fun v => v.image_id == img && v.user_id == uid) =
      dv.filter (fun v => v.user_id == uid) := by
  apply List.filter_congr
  intro v hv
  simp [hall v hv]

theorem filter_user_length_count (dv : List VoteRow) (uid : Nat) :
    (dv.filter (fun v => v.user_id == uid)).length =
      (dv.map (fun v => v.user_id)).count uid := by
  induction dv with
  | nil => rfl
  | cons v vs ih =>
    by_cases h : v.user_id = uid
    · simp [List.filter_cons, List.count_cons, h, ih]
    · simp [List.filter_cons, List.count_cons, h, ih]

/-- One image record of `import_archive` replayed into a store that does not
know the digest: the image row is created, every attachment, annotation and
vote of the record is inserted exactly once, and the record is fully present
afterwards. -/
theorem importImage_spec (ar : Archive) (im : ImgRec) (now : Int) (s : State)
    (hshaF : s.images.find? (fun r => r.sha256 == im.sha256) = none)
    (hmem : ar.imgMembers.contains (im.sha256 ++ safe_ext im.rel_path) = true)
    (hattF : ∀ a ∈ im.attRecs, s.atts.find? (fun x => x.sha256 == a.sha256) = none)
    (hattN : (im.attRecs.map (fun a => a.sha256)).Nodup)
    (hattM : ∀ a ∈ im.attRecs, (a.sha256 ++ a.ext) ∈ ar.attMembers)
    (hannK : ((im.annRecs.map (fun r => (r.tag, r.category, r.username))).Nodup))
    (hann4 : (((im.annRecs.map (fun r => r.username)).dedup).length ≤ 4))
    (hannT : ∀ r ∈ im.annRecs,
      (s.tags.find? (fun x => x.name == r.tag && x.category == r.category)).isSome = true)
    (hqN : ((im.qualRecs.map (fun q => q.username)).Nodup))
    (hqL : ∀ q ∈ im.qualRecs, validLabel q.label = true)
    (hUinv : UsersInv s) (hTinv : TagsInv s)
    (hannFresh : ∀ a ∈ s.annots, a.image_id < s.nextImageId)
    (hvFresh : ∀ v ∈ s.votes, v.image_id < s.nextImageId) :
    ∃ T, importImage s ar im now = .ok T ∧
      T.images = s.images ++ [⟨s.nextImageId,
        "imported/" ++ im.sha256 ++ safe_ext im.rel_path, im.sha256, im.created_at⟩] ∧
      T.nextImageId = s.nextImageId + 1 ∧
      T.tags = s.tags ∧ T.nextTagId = s.nextTagId ∧
      (∃ du, T.users = s.users ++ du) ∧ UsersInv T ∧ TagsInv T ∧
      (∃ da, T.atts = s.atts ++ da ∧
        da.map (fun a => a.sha256) = im.attRecs.map (fun a => a.sha256) ∧
        ∀ a ∈ da, a.image_id = s.nextImageId) ∧
      (∃ dk, T.annots = s.annots ++ dk ∧ dk.length = im.annRecs.length ∧
        ∀ row ∈ dk, row.image_id = s.nextImageId ∧ row.is_deleted = false) ∧
      (∃ dv, T.votes = s.votes ++ dv ∧ dv.length = im.qualRecs.length ∧
        ∀ v ∈ dv, v.image_id = s.nextImageId) ∧
      ImPresent T im := by
  obtain ⟨da, hB, hdasha, hdaimg⟩ := importAtts_spec ar s.nextImageId im.attRecs
    { s with
      images := s.images ++ [⟨s.nextImageId,
        "imported/" ++ im.sha256 ++ safe_ext im.rel_path, im.sha256, im.created_at⟩],
      nextImageId := s.nextImageId + 1 }
    hattF hattN hattM
  obtain ⟨C, hCrun, hCtags, hCim, hCvo, hCat, hCni, hCnv, hCna, hCnt, hCdu, hCU, hCT,
      hCfind, hCdk⟩ :=
    importAnns_spec s.nextImageId now
      { { s with
          images := s.images ++ [(⟨s.nextImageId,
            "imported/" ++ im.sha256 ++ safe_ext im.rel_path, im.sha256,
            im.created_at⟩ : ImageRow)],
          nextImageId := s.nextImageId + 1 } with
        atts := ({ s with
          images := s.images ++ [(⟨s.nextImageId,
            "imported/" ++ im.sha256 ++ safe_ext im.rel_path, im.sha256,
            im.created_at⟩ : ImageRow)],
          nextImageId := s.nextImageId + 1 } : State).atts ++ da,
        nextAttId := ({ s with
          images := s.images ++ [(⟨s.nextImageId,
            "imported/" ++ im.sha256 ++ safe_ext im.rel_path, im.sha256,
            im.created_at⟩ : ImageRow)],
          nextImageId := s.nextImageId + 1 } : State).nextAttId + da.length }
      (by
        intro a ha
        have := hannFresh a ha
        omega)
      im.annRecs []
      { { s with
          images := s.images ++ [(⟨s.nextImageId,
            "imported/" ++ im.sha256 ++ safe_ext im.rel_path, im.sha256,
            im.created_at⟩ : ImageRow)],
          nextImageId := s.nextImageId + 1 } with
        atts := ({ s with
          images := s.images ++ [(⟨s.nextImageId,
            "imported/" ++ im.sha256 ++ safe_ext im.rel_path, im.sha256,
            im.created_at⟩ : ImageRow)],
          nextImageId := s.nextImageId + 1 } : State).atts ++ da,
        nextAttId := ({ s with
          images := s.images ++ [(⟨s.nextImageId,
            "imported/" ++ im.sha256 ++ safe_ext im.rel_path, im.sha256,
            im.created_at⟩ : ImageRow)],
          nextImageId := s.nextImageId + 1 } : State).nextAttId + da.length }
      (by simpa using hannK)
      (by simpa using hann4)
      (by
        intro r hr
        simp only [List.nil_append] at hr
        exact hannT r hr)
      hUinv hTinv
      (by simp)
      ⟨[], by simp⟩
      rfl rfl rfl rfl rfl rfl rfl rfl
      ⟨[], by simp, rfl, by simp, by simp⟩
  obtain ⟨T, hTrun, hTtags, hTim, hTann, hTat, hTni, hTna2, hTnat, hTnt, hTdu, hTU,
      hTfind, hTdv⟩ :=
    importQuals_spec s.nextImageId now C
      (by
        intro v hv
        rw [hCvo] at hv
        have := hvFresh v hv
        omega)
      im.qualRecs [] C
      (by simpa using hqN)
      (by
        intro q hq
        simp only [List.nil_append] at hq
        exact hqL q hq)
      hCU
      (by simp)
      ⟨[], by simp⟩
      rfl rfl rfl rfl rfl rfl rfl rfl
      ⟨[], by simp, by simp, by simp⟩
  obtain ⟨dk, hk1, hk2, hk3, hk4⟩ := hCdk
  obtain ⟨dv, hv1, hv2, hv3⟩ := hTdv
  obtain ⟨du2, hdu2⟩ := hTdu
  obtain ⟨du1, hdu1⟩ := hCdu
  have hCtags2 : C.tags = s.tags := hCtags
  have hTtags2 : T.tags = s.tags := by rw [hTtags, hCtags]
  have hTim2 : T.images = s.images ++ [⟨s.nextImageId,
      "imported/" ++ im.sha256 ++ safe_ext im.rel_path, im.sha256, im.created_at⟩] := by
    rw [hTim, hCim]
  have hTni2 : T.nextImageId = s.nextImageId + 1 := by rw [hTni, hCni]
  have hTat2 : T.atts = s.atts ++ da := by rw [hTat, hCat]
  have hTann2 : T.annots = s.annots ++ dk := by rw [hTann, hk1]
  have hTvo2 : T.votes = s.votes ++ dv := by rw [hv1, hCvo]
  have hrun : importImage s ar im now = .ok T := by
    unfold importImage
    rw [hshaF]
    dsimp only
    rw [if_pos hmem]
    have hA : upsert_image s ("imported/" ++ im.sha256 ++ safe_ext im.rel_path)
        im.sha256 im.created_at = (s.nextImageId,
        { s with
          images := s.images ++ [⟨s.nextImageId,
            "imported/" ++ im.sha256 ++ safe_ext im.rel_path, im.sha256, im.created_at⟩],
          nextImageId := s.nextImageId + 1 }) := by
      unfold upsert_image
      rw [hshaF]
    rw [hA]
    dsimp only
    rw [hB, hCrun]
    dsimp only
    exact hTrun
  refine ⟨T, hrun, hTim2, hTni2, hTtags2, by rw [hTnt, hCnt], ?_, hTU, ?_, ?_, ?_, ?_, ?_⟩
  · refine ⟨du1 ++ du2, ?_⟩
    rw [hdu2, hdu1, List.append_assoc]
  · obtain ⟨a, b, c⟩ := hCT
    refine ⟨?_, ?_, ?_⟩
    · rw [hTtags]
      exact a
    · rw [hTtags]
      exact b
    · intro x hx
      rw [hTtags] at hx
      rw [hTnt]
      exact c x hx
  · exact ⟨da, hTat2, hdasha, hdaimg⟩
  · refine ⟨dk, hTann2, by simpa using hk2, ?_⟩
    intro row hrow
    exact ⟨(hk3 row hrow).1, (hk3 row hrow).2.1⟩
  · refine ⟨dv, hTvo2, ?_, hv2⟩
    have := congrArg List.length hv3
    simpa using this
  · -- the record is fully present
    refine ⟨⟨s.nextImageId, "imported/" ++ im.sha256 ++ safe_ext im.rel_path,
      im.sha256, im.created_at⟩, ?_, ?_, ?_, ?_, ?_⟩
    · rw [hTim2, List.find?_append, hshaF]
      simp [List.find?_cons]
    · intro at_ hat
      have hsh : at_.sha256 ∈ da.map (fun a => a.sha256) := by
        rw [hdasha]
        exact List.mem_map_of_mem _ hat
      obtain ⟨b, hb, hbe⟩ := List.mem_map.mp hsh
      rw [hTat2]
      apply find?_isSome_of_mem _ _ b (List.mem_append_right _ hb)
      simp [hbe]
    · intro rc hrc
      obtain ⟨tg, htg⟩ := Option.isSome_iff_exists.mp (hannT rc hrc)
      refine ⟨tg, ?_, ?_⟩
      · rw [hTtags2]
        exact htg
      · have hfC : (C.users.find? (fun x => x.username == rc.username)).isSome = true :=
          hCfind rc (by simpa using hrc)
        obtain ⟨us, hus⟩ := Option.isSome_iff_exists.mp hfC
        refine ⟨us, ?_, ?_⟩
        · rw [hdu2]
          exact find?_append_some _ _ _ _ hus
        · obtain ⟨row, hrow, hrtag, hruser⟩ := hk4 rc (by simpa using hrc)
          refine ⟨row, ?_, (hk3 row hrow).1, ?_, ?_, (hk3 row hrow).2.1⟩
          · rw [hTann2]
            exact List.mem_append_right _ hrow
          · rw [hrtag, tagIdOf_congr _ _ _ _ hCtags2,
              tagIdOf_of_found s rc.tag rc.category tg htg]
          · rw [hruser, userIdOf_eq_of_find? C rc.username us hus]
    · intro row hrow himgid
      rw [hTann2] at hrow
      rcases List.mem_append.mp hrow with h | h
      · have h1 := hannFresh row h
        have h2 : row.image_id = s.nextImageId := himgid
        omega
      · exact (hk3 row h).2.1
    · intro q hq
      refine ⟨hqL q hq, ?_⟩
      have hfT : (T.users.find? (fun x => x.username == q.username)).isSome = true :=
        hTfind q (by simpa using hq)
      obtain ⟨us2, hus2⟩ := Option.isSome_iff_exists.mp hfT
      refine ⟨us2, hus2, ?_⟩
      have hsnil : s.votes.filter (fun v =>
          v.image_id == s.nextImageId && v.user_id == us2.id) = [] := by
        rw [List.filter_eq_nil_iff]
        intro v hv
        have := hvFresh v hv
        have hne : v.image_id ≠ s.nextImageId := by omega
        simp [hne]
      have hcnt : (dv.filter (fun v => v.user_id == us2.id)).length = 1 := by
        rw [filter_user_length_count, hv3]
        simp only [List.nil_append]
        have hmm : im.qualRecs.map (fun d => userIdOf T d.username) =
            (im.qualRecs.map (fun q => q.username)).map (fun u => userIdOf T u) := by
          rw [List.map_map]
          exact List.map_congr_left (fun a ha => rfl)
        rw [hmm, (userIdOf_eq_of_find? T q.username us2 hus2).symm]
        apply List.count_eq_one_of_mem
        · apply List.Nodup.map_on _ hqN
          intro x hx y hy hxy
          by_contra hne
          have hfx : (T.users.find? (fun z => z.username == x)).isSome = true := by
            obtain ⟨qx, hqx, hqxe⟩ := List.mem_map.mp hx
            rw [← hqxe]
            exact hTfind qx (by simpa using hqx)
          have hfy : (T.users.find? (fun z => z.username == y)).isSome = true := by
            obtain ⟨qy, hqy, hqye⟩ := List.mem_map.mp hy
            rw [← hqye]
            exact hTfind qy (by simpa using hqy)
          exact userIdOf_inj T hTU x y hfx hfy hne hxy
        · exact List.mem_map_of_mem _ (List.mem_map_of_mem _ hq)
      unfold pairVotes
      rw [hTvo2, List.filter_append]
      have hpair : dv.filter (fun v =>
          v.image_id == s.nextImageId && v.user_id == us2.id) =
          dv.filter (fun v => v.user_id == us2.id) :=
        filter_pair_of_img dv s.nextImageId us2.id hv2
      rw [hsnil, List.nil_append, hpair, hcnt]

/-- Full presence of an image record survives any later first-import work:
appended users/images/attachments, unchanged tags, and new annotation and
vote rows that all belong to images with larger ids. -/
theorem ImPresent_mono (T T' : State) (im : ImgRec)
    (hP : ImPresent T im)
    (hbound : ∀ i ∈ T.images, i.id < T.nextImageId)
    (hu : ∃ du, T'.users = T.users ++ du)
    (ht : T'.tags = T.tags)
    (hi : ∃ di, T'.images = T.images ++ di)
    (ha : ∃ dc, T'.atts = T.atts ++ dc)
    (hk : ∃ dk, T'.annots = T.annots ++ dk ∧ ∀ row ∈ dk, T.nextImageId ≤ row.image_id)
    (hv : ∃ dv, T'.votes = T.votes ++ dv ∧ ∀ v ∈ dv, T.nextImageId ≤ v.image_id) :
    ImPresent T' im := by
  obtain ⟨r, hr, hatts, hanns, hact, hquals⟩ := hP
  obtain ⟨du, hdu⟩ := hu
  obtain ⟨di, hdi⟩ := hi
  obtain ⟨dc, hdc⟩ := ha
  obtain ⟨dk, hdk, hdkim⟩ := hk
  obtain ⟨dv, hdv, hdvim⟩ := hv
  have hrid : r.id < T.nextImageId := hbound r (List.mem_of_find?_eq_some hr)
  refine ⟨r, ?_, ?_, ?_, ?_, ?_⟩
  · rw [hdi]
    exact find?_append_some _ _ _ _ hr
  · intro a hA
    rw [hdc]
    exact find?_isSome_append _ _ _ (hatts a hA)
  · intro rc hrc
    obtain ⟨tg, htg, us, hus, row, hrowmem, h1, h2, h3, h4⟩ := hanns rc hrc
    exact ⟨tg, by rw [ht]; exact htg, us,
      by rw [hdu]; exact find?_append_some _ _ _ _ hus,
      row, by rw [hdk]; exact List.mem_append_left _ hrowmem, h1, h2, h3, h4⟩
  · intro row hrow himg
    rw [hdk] at hrow
    rcases List.mem_append.mp hrow with h | h
    · exact hact row h himg
    · have h1 := hdkim row h
      rw [himg] at h1
      omega
  · intro q hq
    obtain ⟨hl, us, hus, hpair⟩ := hquals q hq
    refine ⟨hl, us, by rw [hdu]; exact find?_append_some _ _ _ _ hus, ?_⟩
    unfold pairVotes at hpair ⊢
    rw [hdv, List.filter_append]
    have hnil : dv.filter (fun v => v.image_id == r.id && v.user_id == us.id) = [] := by
      rw [List.filter_eq_nil_iff]
      intro v hv
      have h1 := hdvim v hv
      have hne : v.image_id ≠ r.id := by omega
      simp [hne]
    rw [hnil, List.append_nil]
    exact hpair

/-- The image-record loop of `import_archive` replayed over fresh digests:
every record is imported in full and remains fully present at the end. -/
theorem importImgRecs_spec (ar : Archive) (now : Int) :
    ∀ (recs : List ImgRec) (s : State),
    ((recs.map (fun im => im.sha256)).Nodup) →
    (∀ im ∈ recs, s.images.find? (fun r => r.sha256 == im.sha256) = none) →
    (∀ im ∈ recs, ar.imgMembers.contains (im.sha256 ++ safe_ext im.rel_path) = true) →
    (∀ im ∈ recs, ∀ a ∈ im.attRecs,
      s.atts.find? (fun x => x.sha256 == a.sha256) = none) →
    (((recs.map (fun im => im.attRecs.map (fun a => a.sha256))).flatten).Nodup) →
    (∀ im ∈ recs, ∀ a ∈ im.attRecs, (a.sha256 ++ a.ext) ∈ ar.attMembers) →
    (∀ im ∈ recs, ((im.annRecs.map (fun r => (r.tag, r.category, r.username))).Nodup)) →
    (∀ im ∈ recs, (((im.annRecs.map (fun r => r.username)).dedup).length ≤ 4)) →
    (∀ im ∈ recs, ∀ r ∈ im.annRecs,
      (s.tags.find? (fun x => x.name == r.tag && x.category == r.category)).isSome = true) →
    (∀ im ∈ recs, ((im.qualRecs.map (fun q => q.username)).Nodup)) →
    (∀ im ∈ recs, ∀ q ∈ im.qualRecs, validLabel q.label = true) →
    UsersInv s → TagsInv s →
    (∀ a ∈ s.annots, a.image_id < s.nextImageId) →
    (∀ v ∈ s.votes, v.image_id < s.nextImageId) →
    (∀ i ∈ s.images, i.id < s.nextImageId) →
    ((s.images.map (fun i => i.id)).Nodup) →
    ∃ T, importImgRecs s ar recs now = .ok T ∧
      (∃ di, T.images = s.images ++ di ∧ di.length = recs.length) ∧
      T.tags = s.tags ∧ T.nextTagId = s.nextTagId ∧
      (∃ du, T.users = s.users ++ du) ∧ UsersInv T ∧ TagsInv T ∧
      (∃ dk, T.annots = s.annots ++ dk ∧
        dk.length = (recs.map (fun im => im.annRecs.length)).sum ∧
        (∀ row ∈ dk, row.is_deleted = false ∧ s.nextImageId ≤ row.image_id)) ∧
      (∃ dv, T.votes = s.votes ++ dv ∧
        dv.length = (recs.map (fun im => im.qualRecs.length)).sum ∧
        (∀ v ∈ dv, s.nextImageId ≤ v.image_id)) ∧
      (∃ dc, T.atts = s.atts ++ dc ∧
        dc.length = (recs.map (fun im => im.attRecs.length)).sum) ∧
      s.nextImageId ≤ T.nextImageId ∧
      (∀ i ∈ T.images, i.id < T.nextImageId) ∧
      ((T.images.map (fun i => i.id)).Nodup) ∧
      (∀ im ∈ recs, ImPresent T im) := by
  intro recs
  induction recs with
  | nil =>
    intro s _ _ _ _ _ _ _ _ _ _ _ hU hT _ _ hib hidN
    refine ⟨s, rfl, ⟨[], by simp⟩, rfl, rfl, ⟨[], by simp⟩, hU, hT,
      ⟨[], by simp⟩, ⟨[], by simp⟩, ⟨[], by simp⟩, le_refl _, hib, hidN, by simp⟩
  | cons im rest ih =>
    intro s hshaN hshaF hmemb hattF hflat hattM hannK hann4 hannT hqN hqL hU hT hkf hvf hib hidN0
    have hflat2 := hflat
    rw [List.map_cons, List.flatten_cons] at hflat2
    obtain ⟨hnd1, hnd2, hdisj⟩ := List.nodup_append.mp hflat2
    obtain ⟨T1, hrun1, him1, hni1, htags1, hnt1, ⟨du1, hdu1⟩, hU1, hT1,
        ⟨da1, hat1, hdasha1, hdaimg1⟩, ⟨dk1, hann1, hklen1, hkrow1⟩,
        ⟨dv1, hvo1, hvlen1, hvim1⟩, hpres1⟩ :=
      importImage_spec ar im now s
        (hshaF im (List.mem_cons_self _ _))
        (hmemb im (List.mem_cons_self _ _))
        (hattF im (List.mem_cons_self _ _))
        hnd1
        (hattM im (List.mem_cons_self _ _))
        (hannK im (List.mem_cons_self _ _))
        (hann4 im (List.mem_cons_self _ _))
        (hannT im (List.mem_cons_self _ _))
        (hqN im (List.mem_cons_self _ _))
        (hqL im (List.mem_cons_self _ _))
        hU hT hkf hvf
    have hshaN2 := hshaN
    rw [List.map_cons, List.nodup_cons] at hshaN2
    obtain ⟨hshh, hshr⟩ := hshaN2
    have hib1 : ∀ i ∈ T1.images, i.id < T1.nextImageId := by
      intro i hi
      rw [him1] at hi
      rw [hni1]
      rcases List.mem_append.mp hi with h | h
      · have := hib i h
        omega
      · simp only [List.mem_singleton] at h
        subst h
        simp only
        omega
    have hkf1 : ∀ a ∈ T1.annots, a.image_id < T1.nextImageId := by
      intro a ha
      rw [hann1] at ha
      rw [hni1]
      rcases List.mem_append.mp ha with h | h
      · have := hkf a h
        omega
      · have := (hkrow1 a h).1
        omega
    have hvf1 : ∀ v ∈ T1.votes, v.image_id < T1.nextImageId := by
      intro v hv
      rw [hvo1] at hv
      rw [hni1]
      rcases List.mem_append.mp hv with h | h
      · have := hvf v h
        omega
      · have := hvim1 v h
        omega
    have hidN1 : (T1.images.map (fun i => i.id)).Nodup := by
      rw [him1, List.map_append, List.nodup_append]
      refine ⟨hidN0, by simp, ?_⟩
      intro x hx hx2
      simp only [List.map_cons, List.map_nil, List.mem_singleton] at hx2
      obtain ⟨r0, hr0, hr0e⟩ := List.mem_map.mp hx
      have := hib r0 hr0
      omega
    obtain ⟨T, hrun, ⟨di, hdi, hdilen⟩, htags, hnt, ⟨du, hdu⟩, hUT, hTT,
        ⟨dk, hdk, hdklen, hdkrow⟩, ⟨dv, hdv, hdvlen, hdvim⟩,
        ⟨dc, hdc, hdclen⟩, hnile, hibT, hidNT, hpres⟩ :=
      ih T1
        hshr
        (by
          intro im2 him2
          rw [him1, List.find?_append, hshaF im2 (List.mem_cons_of_mem _ him2)]
          simp only [Option.none_or]
          rw [List.find?_eq_none]
          intro x hx
          simp only [List.mem_singleton] at hx
          subst hx
          simp only [beq_iff_eq]
          intro heq
          have heq2 : im.sha256 = im2.sha256 := heq
          apply hshh
          rw [heq2]
          exact List.mem_map_of_mem _ him2)
        (fun im2 him2 => hmemb im2 (List.mem_cons_of_mem _ him2))
        (by
          intro im2 him2 a2 ha2
          rw [hat1, List.find?_append, hattF im2 (List.mem_cons_of_mem _ him2) a2 ha2]
          simp only [Option.none_or]
          rw [List.find?_eq_none]
          intro x hx
          have hxsha : x.sha256 ∈ im.attRecs.map (fun a => a.sha256) := by
            rw [← hdasha1]
            exact List.mem_map_of_mem _ hx
          simp only [beq_iff_eq]
          intro heq
          apply hdisj hxsha
          rw [heq]
          exact List.mem_flatten.mpr ⟨im2.attRecs.map (fun a => a.sha256),
            List.mem_map_of_mem _ him2, List.mem_map_of_mem _ ha2⟩)
        hnd2
        (fun im2 him2 => hattM im2 (List.mem_cons_of_mem _ him2))
        (fun im2 him2 => hannK im2 (List.mem_cons_of_mem _ him2))
        (fun im2 him2 => hann4 im2 (List.mem_cons_of_mem _ him2))
        (by
          intro im2 him2 r hr
          rw [htags1]
          exact hannT im2 (List.mem_cons_of_mem _ him2) r hr)
        (fun im2 him2 => hqN im2 (List.mem_cons_of_mem _ him2))
        (fun im2 him2 => hqL im2 (List.mem_cons_of_mem _ him2))
        hU1 hT1 hkf1 hvf1 hib1 hidN1
    refine ⟨T, ?_, ⟨[⟨s.nextImageId, "imported/" ++ im.sha256 ++ safe_ext im.rel_path,
        im.sha256, im.created_at⟩] ++ di, ?_, ?_⟩, ?_, ?_, ?_, hUT, hTT, ?_, ?_, ?_, ?_,
        hibT, hidNT, ?_⟩
    · simp only [importImgRecs]
      rw [hrun1]
      exact hrun
    · rw [hdi, him1, List.append_assoc]
    · simp only [List.length_append, List.length_cons, List.length_nil, hdilen]
      omega
    · rw [htags, htags1]
    · rw [hnt, hnt1]
    · exact ⟨du1 ++ du, by rw [hdu, hdu1, List.append_assoc]⟩
    · refine ⟨dk1 ++ dk, by rw [hdk, hann1, List.append_assoc], ?_, ?_⟩
      · simp only [List.length_append, hklen1, hdklen, List.map_cons, List.sum_cons]
      · intro row hrow
        rcases List.mem_append.mp hrow with h | h
        · refine ⟨(hkrow1 row h).2, ?_⟩
          have := (hkrow1 row h).1
          omega
        · refine ⟨(hdkrow row h).1, ?_⟩
          have h1 := (hdkrow row h).2
          rw [hni1] at h1
          omega
    · refine ⟨dv1 ++ dv, by rw [hdv, hvo1, List.append_assoc], ?_, ?_⟩
      · simp only [List.length_append, hvlen1, hdvlen, List.map_cons, List.sum_cons]
      · intro v hv
        rcases List.mem_append.mp hv with h | h
        · have := hvim1 v h
          omega
        · have h1 := hdvim v h
          rw [hni1] at h1
          omega
    · refine ⟨da1 ++ dc, by rw [hdc, hat1, List.append_assoc], ?_⟩
      have hlen1 : da1.length = im.attRecs.length := by
        have := congrArg List.length hdasha1
        simpa using this
      simp only [List.length_append, hlen1, hdclen, List.map_cons, List.sum_cons]
    · rw [hni1] at hnile
      omega
    · intro im2 him2
      rcases List.mem_cons.mp him2 with h | h
      · subst h
        exact ImPresent_mono T1 T im2 hpres1 hib1 ⟨du, hdu⟩ htags ⟨di, hdi⟩ ⟨dc, hdc⟩
          ⟨dk, hdk, fun row h => (hdkrow row h).2⟩ ⟨dv, hdv, hdvim⟩
      · exact hpres im2 h

/-- Replaying attachments whose digests are all present changes nothing. -/
theorem importAtts_noop (ar : Archive) (image_id : Nat) (recs : List AttRec) (t : State)
    (h : ∀ a ∈ recs, (t.atts.find? (fun x => x.sha256 == a.sha256)).isSome = true) :
    importAtts t image_id ar recs = t := by
  induction recs with
  | nil => rfl
  | cons a rest ih =>
    have h1 := h a (List.mem_cons_self _ _)
    unfold importAtts
    rw [List.foldl_cons]
    simp only [h1, if_true]
    exact ih (fun b hb => h b (List.mem_cons_of_mem _ hb))

/-- `add_tag_for_user` on an existing active row returns the store unchanged
(the shared no-op branch). -/
theorem add_tag_active_noop (t : State) (image_id : Nat) (n c : String) (uid : Nat)
    (now : Int) (tg : TagRow)
    (htg : t.tags.find? (fun x => x.name == n && x.category == c) = some tg)
    (a : AnnotRow)
    (ha : t.annots.find? (fun b => b.image_id == image_id && b.tag_id == tg.id &&
      b.user_id == uid) = some a)
    (hact : a.is_deleted = false) :
    add_tag_for_user t image_id n uid c now = .ok t := by
  unfold add_tag_for_user
  rw [upsert_tag_noop t n c none tg htg]
  dsimp only
  rw [ha]
  dsimp only
  simp [hact]

/-- Replaying annotations that all exist as active rows changes nothing. -/
theorem importAnns_noop (image_id : Nat) (now : Int) (t : State)
    (hall : ∀ row ∈ t.annots, row.image_id = image_id → row.is_deleted = false) :
    ∀ recs : List AnnRec,
    (∀ rc ∈ recs,
      ∃ tg, t.tags.find? (fun x =>
        x.name == rc.tag && x.category == rc.category) = some tg ∧
      ∃ us, t.users.find? (fun x => x.username == rc.username) = some us ∧
      ∃ row ∈ t.annots, row.image_id = image_id ∧ row.tag_id = tg.id ∧
        row.user_id = us.id) →
    importAnns t image_id recs now = .ok t := by
  intro recs
  induction recs with
  | nil =>
    intro _
    rfl
  | cons r rest ih =>
    intro h
    obtain ⟨tg, htg, us, hus, row, hrowm, h1, h2, h3⟩ := h r (List.mem_cons_self _ _)
    have heu : ensure_user t r.username none = (us.id, t) :=
      ensure_user_noop t r.username none us hus
    have hsome : (t.annots.find? (fun b => b.image_id == image_id &&
        b.tag_id == tg.id && b.user_id == us.id)).isSome = true := by
      apply find?_isSome_of_mem _ _ row hrowm
      simp [h1, h2, h3]
    obtain ⟨a, hA⟩ := Option.isSome_iff_exists.mp hsome
    have haprop := List.find?_some hA
    have hamem := List.mem_of_find?_eq_some hA
    have haimg : a.image_id = image_id := by
      simp only [Bool.and_eq_true, beq_iff_eq] at haprop
      exact haprop.1.1
    have hact : a.is_deleted = false := hall a hamem haimg
    have hadd := add_tag_active_noop t image_id r.tag r.category us.id now tg htg a hA hact
    simp only [importAnns]
    rw [heu]
    dsimp only
    rw [hadd]
    exact ih (fun rc hrc => h rc (List.mem_cons_of_mem _ hrc))

/-- Replaying quality votes whose pairs each hold exactly one row: every
record replaces that row in place, so the votes table keeps its length and
all other images keep their exact vote rows. -/
theorem importQuals_replace (image_id : Nat) (now : Int) :
    ∀ (recs : List QualRec) (t : State),
    ((recs.map (fun q => q.username)).Nodup) →
    UsersInv t →
    (∀ q ∈ recs, validLabel q.label = true ∧
      ∃ us, t.users.find? (fun x => x.username == q.username) = some us ∧
      (pairVotes t image_id us.id).length = 1) →
    ∃ t', importQuals t image_id recs now = .ok t' ∧
      t'.users = t.users ∧ t'.tags = t.tags ∧ t'.images = t.images ∧
      t'.annots = t.annots ∧ t'.atts = t.atts ∧
      t'.nextUserId = t.nextUserId ∧ t'.nextImageId = t.nextImageId ∧
      t'.nextTagId = t.nextTagId ∧ t'.nextAnnotId = t.nextAnnotId ∧
      t'.nextAttId = t.nextAttId ∧
      t'.votes.length = t.votes.length ∧
      (∀ i u, i ≠ image_id → pairVotes t' i u = pairVotes t i u) := by
  intro recs
  induction recs with
  | nil =>
    intro t _ _ _
    exact ⟨t, rfl, rfl, rfl, rfl, rfl, rfl, rfl, rfl, rfl, rfl, rfl, rfl,
      fun i u _ => rfl⟩
  | cons q rest ih =>
    intro t hnd hU h
    obtain ⟨hv, us, hus, hpair⟩ := h q (List.mem_cons_self _ _)
    have heu : ensure_user t q.username none = (us.id, t) :=
      ensure_user_noop t q.username none us hus
    have hq2 := upsert_quality_ok t image_id us.id q.label q.score
      (some q.created_at) now hv
    have hpv := upsert_quality_pairVotes t image_id us.id q.label q.score
      (some q.created_at) now _ hq2
    have hnd2 := hnd
    rw [List.map_cons, List.nodup_cons] at hnd2
    obtain ⟨hndh, hndt⟩ := hnd2
    obtain ⟨t', hrun, hu', ht', hi', hk', ha', hnu', hni', hnt', hna', hnat', hlen',
        hpres'⟩ :=
      ih { t with
          votes := t.votes.filter (fun v =>
            !(v.image_id == image_id && v.user_id == us.id)) ++
            [⟨t.nextVoteId, image_id, us.id, q.label, q.score,
              (some q.created_at).getD now⟩],
          nextVoteId := t.nextVoteId + 1 }
        hndt
        hU
        (by
          intro q2 hq2m
          obtain ⟨hv2, us2, hus2, hpair2⟩ := h q2 (List.mem_cons_of_mem _ hq2m)
          refine ⟨hv2, us2, hus2, ?_⟩
          have hneq : ¬(image_id = image_id ∧ us2.id = us.id) := by
            intro ⟨_, hc⟩
            apply hndh
            have hne2 : q2.username = q.username := by
              by_contra hneu
              exact userIdOf_inj t hU q2.username q.username
                (by rw [hus2]; rfl) (by rw [hus]; rfl) hneu
                (by rw [userIdOf_eq_of_find? t q2.username us2 hus2,
                  userIdOf_eq_of_find? t q.username us hus, hc])
            rw [← hne2]
            exact List.mem_map_of_mem _ hq2m
          rw [hpv.2 image_id us2.id hneq]
          exact hpair2)
    refine ⟨t', ?_, ?_, ?_, ?_, ?_, ?_, ?_, ?_, ?_, ?_, ?_, ?_, ?_⟩
    · simp only [importQuals]
      rw [heu]
      dsimp only
      rw [hq2]
      dsimp only
      exact hrun
    · rw [hu']
    · rw [ht']
    · rw [hi']
    · rw [hk']
    · rw [ha']
    · rw [hnu']
    · rw [hni']
    · rw [hnt']
    · rw [hna']
    · rw [hnat']
    · rw [hlen']
      have hsplit := filter_length_split (fun v =>
        v.image_id == image_id && v.user_id == us.id) t.votes
      have hp1 : (t.votes.filter (fun v =>
          v.image_id == image_id && v.user_id == us.id)).length = 1 := hpair
      simp only [List.length_append, List.length_cons, List.length_nil]
      omega
    · intro i u hi2
      rw [hpres' i u hi2]
      have hneq : ¬(i = image_id ∧ u = us.id) := fun hc => hi2 hc.1
      exact hpv.2 i u hneq

/-- Replaying one fully-present image record: the digest is found, the
attachment and annotation replays are no-ops, and the quality replay only
replaces this image's vote rows in place. -/
theorem importImage_replay (ar : Archive) (im : ImgRec) (now : Int) (T : State)
    (hP : ImPresent T im) (hU : UsersInv T)
    (hqN : (im.qualRecs.map (fun q => q.username)).Nodup) :
    ∃ r T', T.images.find? (fun x => x.sha256 == im.sha256) = some r ∧
      importImage T ar im now = .ok T' ∧
      T'.users = T.users ∧ T'.tags = T.tags ∧ T'.images = T.images ∧
      T'.annots = T.annots ∧ T'.atts = T.atts ∧
      T'.nextUserId = T.nextUserId ∧
      T'.votes.length = T.votes.length ∧
      (∀ i u, i ≠ r.id → pairVotes T' i u = pairVotes T i u) := by
  obtain ⟨r, hr, hatts, hanns, hact, hquals⟩ := hP
  have hattnoop : importAtts T r.id ar im.attRecs = T :=
    importAtts_noop ar r.id im.attRecs T hatts
  have hannnoop : importAnns T r.id im.annRecs now = .ok T := by
    apply importAnns_noop r.id now T hact
    intro rc hrc
    obtain ⟨tg, htg, us, hus, row, hrowm, h1, h2, h3, _⟩ := hanns rc hrc
    exact ⟨tg, htg, us, hus, row, hrowm, h1, h2, h3⟩
  obtain ⟨T', hrun, hu', ht', hi', hk', ha', hnu', _, _, _, _, hlen', hpres'⟩ :=
    importQuals_replace r.id now im.qualRecs T hqN hU
      (fun q hq => hquals q hq)
  refine ⟨r, T', hr, ?_, hu', ht', hi', hk', ha', hnu', hlen', hpres'⟩
  unfold importImage
  rw [hr]
  dsimp only
  rw [hattnoop, hannnoop]
  dsimp only
  exact hrun

/-- Replaying a list of fully-present image records with distinct digests:
the users, tags, images, annotations and attachments tables are unchanged
and the votes table keeps its length. -/
theorem importImgRecs_replay (ar : Archive) (now : Int) :
    ∀ (recs : List ImgRec) (T : State),
    ((recs.map (fun im => im.sha256)).Nodup) →
    UsersInv T →
    ((T.images.map (fun i => i.id)).Nodup) →
    (∀ im ∈ recs, (im.qualRecs.map (fun q => q.username)).Nodup) →
    (∀ im ∈ recs, ImPresent T im) →
    ∃ T', importImgRecs T ar recs now = .ok T' ∧
      T'.users = T.users ∧ T'.tags = T.tags ∧ T'.images = T.images ∧
      T'.annots = T.annots ∧ T'.atts = T.atts ∧
      T'.votes.length = T.votes.length := by
  intro recs
  induction recs with
  | nil =>
    intro T _ _ _ _ _
    exact ⟨T, rfl, rfl, rfl, rfl, rfl, rfl, rfl⟩
  | cons im rest ih =>
    intro T hshaN hU hidN hqN hP
    obtain ⟨r, T1, hr, hrun1, hu1, ht1, hi1, hk1, ha1, hnu1, hlen1, hpres1⟩ :=
      importImage_replay ar im now T (hP im (List.mem_cons_self _ _)) hU
        (hqN im (List.mem_cons_self _ _))
    have hshaN2 := hshaN
    rw [List.map_cons, List.nodup_cons] at hshaN2
    obtain ⟨hshh, hshr⟩ := hshaN2
    have hrsha : r.sha256 = im.sha256 := by
      have := List.find?_some hr
      simpa using this
    have hrmem : r ∈ T.images := List.mem_of_find?_eq_some hr
    have hU1 : UsersInv T1 := by
      obtain ⟨a, b, c⟩ := hU
      refine ⟨by rw [hu1]; exact a, by rw [hu1]; exact b, ?_⟩
      intro u hu
      rw [hu1] at hu
      rw [hnu1]
      exact c u hu
    have hP1 : ∀ im2 ∈ rest, ImPresent T1 im2 := by
      intro im2 him2
      obtain ⟨r2, hr2, hatts2, hanns2, hact2, hquals2⟩ := hP im2 (List.mem_cons_of_mem _ him2)
      have hr2sha : r2.sha256 = im2.sha256 := by
        have := List.find?_some hr2
        simpa using this
      have hr2mem : r2 ∈ T.images := List.mem_of_find?_eq_some hr2
      have hidne : r2.id ≠ r.id := by
        intro hceq
        have hinj := List.inj_on_of_nodup_map hidN hr2mem hrmem hceq
        apply hshh
        rw [← hrsha, ← hinj, hr2sha]
        exact List.mem_map_of_mem _ him2
      refine ⟨r2, by rw [hi1]; exact hr2, ?_, ?_, ?_, ?_⟩
      · intro a hA
        rw [ha1]
        exact hatts2 a hA
      · intro rc hrc
        obtain ⟨tg, htg, us, hus, row, hrowm, h1, h2, h3, h4⟩ := hanns2 rc hrc
        exact ⟨tg, by rw [ht1]; exact htg, us, by rw [hu1]; exact hus,
          row, by rw [hk1]; exact hrowm, h1, h2, h3, h4⟩
      · intro row hrow himg
        rw [hk1] at hrow
        exact hact2 row hrow himg
      · intro q hq
        obtain ⟨hl, us, hus, hpair⟩ := hquals2 q hq
        refine ⟨hl, us, by rw [hu1]; exact hus, ?_⟩
        rw [hpres1 r2.id us.id hidne]
        exact hpair
    obtain ⟨T', hrun, hu', ht', hi', hk', ha', hlen'⟩ :=
      ih T1 hshr hU1 (by rw [hi1]; exact hidN)
        (fun im2 him2 => hqN im2 (List.mem_cons_of_mem _ him2)) hP1
    refine ⟨T', ?_, ?_, ?_, ?_, ?_, ?_, ?_⟩
    · simp only [importImgRecs]
      rw [hrun1]
      exact hrun
    · rw [hu', hu1]
    · rw [ht', ht1]
    · rw [hi', hi1]
    · rw [hk', hk1]
    · rw [ha', ha1]
    · rw [hlen', hlen1]

/-- Ensuring users that all exist changes nothing. -/
theorem usersFold_noop (recs : List (String × Option String)) (t : State)
    (h : ∀ p ∈ recs, (t.users.find? (fun x => x.username == p.1)).isSome = true) :
    recs.foldl (fun st u => (ensure_user st u.1 u.2).2) t = t := by
  induction recs with
  | nil => rfl
  | cons p ps ih =>
    rw [List.foldl_cons]
    obtain ⟨u, hu⟩ := Option.isSome_iff_exists.mp (h p (List.mem_cons_self _ _))
    rw [ensure_user_noop t p.1 p.2 u hu]
    exact ih (fun q hq => h q (List.mem_cons_of_mem _ hq))

/-- Upserting tag keys that all exist changes nothing. -/
theorem tagsFold_noop (recs : List (String × String × Option String)) (t : State)
    (h : ∀ tr ∈ recs,
      (t.tags.find? (fun x => x.name == tr.1 && x.category == tr.2.1)).isSome = true) :
    recs.foldl (fun st tr => (upsert_tag st tr.1 tr.2.1 tr.2.2).2) t = t := by
  induction recs with
  | nil => rfl
  | cons p ps ih =>
    rw [List.foldl_cons]
    obtain ⟨tg, htg⟩ := Option.isSome_iff_exists.mp (h p (List.mem_cons_self _ _))
    rw [upsert_tag_noop t p.1 p.2.1 p.2.2 tg htg]
    exact ih (fun q hq => h q (List.mem_cons_of_mem _ hq))

/-- On a list with unique keys, searching a member by its own key finds it. -/
theorem find?_key_self {α β : Type} [BEq β] [LawfulBEq β] (l : List α) (f : α → β)
    (hnd : (l.map f).Nodup) (x : α) (hx : x ∈ l) :
    l.find? (fun y => f y == f x) = some x := by
  induction l with
  | nil => cases hx
  | cons y ys ih =>
    rw [List.map_cons, List.nodup_cons] at hnd
    rw [List.find?_cons]
    by_cases h : (f y == f x) = true
    · simp only [h, cond_true]
      rcases List.mem_cons.mp hx with hx | hx
      · rw [hx]
      · exact absurd (by rw [eq_of_beq h]; exact List.mem_map_of_mem _ hx) hnd.1
    · rw [Bool.not_eq_true] at h
      simp only [h, cond_false]
      rcases List.mem_cons.mp hx with hx | hx
      · subst hx
        simp at h
      · exact ih hnd.2 hx

/-- A `filterMap` whose function always succeeds keeps the length. -/
theorem filterMap_length_all_some {α β : Type} (l : List α) (g : α → Option β)
    (h : ∀ a ∈ l, (g a).isSome = true) : (l.filterMap g).length = l.length := by
  induction l with
  | nil => rfl
  | cons a rest ih =>
    obtain ⟨b, hb⟩ := Option.isSome_iff_exists.mp (h a (List.mem_cons_self _ _))
    rw [List.filterMap_cons, hb, List.length_cons, ih (fun x hx =>
      h x (List.mem_cons_of_mem _ hx))]
    rfl

/-- The rows selected by `export_selection`: one existing image row per
selected id, in order. -/
theorem sel_rows_spec (s : State) (sel : List Nat)
    (h : ∀ i ∈ sel, (s.images.find? (fun r => r.id == i)).isSome = true) :
    (sel.filterMap (fun i => s.images.find? (fun r => r.id == i))).length = sel.length ∧
    (∀ r ∈ sel.filterMap (fun i => s.images.find? (fun r => r.id == i)), r ∈ s.images) ∧
    (sel.filterMap (fun i => s.images.find? (fun r => r.id == i))).map (fun r => r.id)
      = sel := by
  refine ⟨filterMap_length_all_some sel _ h, ?_, ?_⟩
  · intro r hr
    obtain ⟨i, hi, hfind⟩ := List.mem_filterMap.mp hr
    exact List.mem_of_find?_eq_some hfind
  · induction sel with
    | nil => rfl
    | cons i rest ih =>
      obtain ⟨r, hr⟩ := Option.isSome_iff_exists.mp (h i (List.mem_cons_self _ _))
      rw [List.filterMap_cons, hr, List.map_cons]
      have hid : r.id = i := by
        have := List.find?_some hr
        simpa using this
      rw [hid, ih (fun j hj => h j (List.mem_cons_of_mem _ hj))]

/-- Attachment blocks of distinct images have pairwise distinct digests when
the attachments table has unique digests. -/
theorem att_blocks_nodup (s : State) (ids : List Nat) (hids : ids.Nodup)
    (hsha : (s.atts.map (fun a => a.sha256)).Nodup) :
    ((ids.map (fun i => (s.atts.filter (fun a => a.image_id == i)).map
      (fun a => a.sha256))).flatten).Nodup := by
  induction ids with
  | nil => exact List.nodup_nil
  | cons i rest ih =>
    rw [List.map_cons, List.flatten_cons]
    rw [List.nodup_cons] at hids
    rw [List.nodup_append]
    refine ⟨?_, ih hids.2, ?_⟩
    · exact List.Sublist.nodup (List.Sublist.map _ (List.filter_sublist _)) hsha
    · intro x hx hx2
      obtain ⟨a, ha, hae⟩ := List.mem_map.mp hx
      obtain ⟨blk, hblk, hxblk⟩ := List.mem_flatten.mp hx2
      obtain ⟨j, hj, hje⟩ := List.mem_map.mp hblk
      rw [← hje] at hxblk
      obtain ⟨b, hb, hbe⟩ := List.mem_map.mp hxblk
      have hamem : a ∈ s.atts := List.mem_of_mem_filter ha
      have hbmem : b ∈ s.atts := List.mem_of_mem_filter hb
      have hab : a = b := by
        apply List.inj_on_of_nodup_map hsha hamem hbmem
        rw [hae, hbe]
      have hai : a.image_id = i := by
        have := List.of_mem_filter ha
        simpa using this
      have hbj : b.image_id = j := by
        have := List.of_mem_filter hb
        simpa using this
      apply hids.1
      have : i = j := by rw [← hai, hab, hbj]
      rw [this]
      exact hj

/-- Mapping can only merge values: the image of a list has at most as many
distinct elements. -/
theorem dedup_map_length_le {α β : Type} [DecidableEq α] [DecidableEq β]
    (l : List α) (f : α → β) :
    ((l.map f).dedup).length ≤ l.dedup.length := by
  rw [← List.card_toFinset, ← List.card_toFinset]
  have h1 : (l.map f).toFinset = l.toFinset.image f := by
    ext x
    simp
  rw [h1]
  exact Finset.card_image_le

/-- Permutations have the same number of distinct elements. -/
theorem dedup_length_perm {α : Type} [DecidableEq α] (l l' : List α)
    (h : l.Perm l') : l.dedup.length = l'.dedup.length := by
  rw [← List.card_toFinset, ← List.card_toFinset, List.toFinset_eq_of_perm l l' h]

/-- A member of a list is contained in it (`List.contains`). -/
theorem contains_of_mem {α : Type} [BEq α] [LawfulBEq α] (l : List α) (x : α)
    (h : x ∈ l) : l.contains x = true :=
  List.elem_eq_true_of_mem h

/-- With total foreign keys the tag/user join drops nothing: the first
components of the join are exactly the joined rows. -/
theorem join_fst_spec (s : State) :
    ∀ l : List AnnotRow,
    (∀ a ∈ l, (s.tags.find? (fun t => t.id == a.tag_id)).isSome = true ∧
      (s.users.find? (fun u => u.id == a.user_id)).isSome = true) →
    (l.filterMap (fun a =>
      match s.tags.find? (fun t => t.id == a.tag_id),
            s.users.find? (fun u => u.id == a.user_id) with
      | some t, some u => some (a, t, u)
      | _, _ => none)).map (fun x => x.1) = l := by
  intro l
  induction l with
  | nil =>
    intro _
    rfl
  | cons a rest ih =>
    intro h
    obtain ⟨ht0, hu0⟩ := h a (List.mem_cons_self _ _)
    obtain ⟨t, ht⟩ := Option.isSome_iff_exists.mp ht0
    obtain ⟨u, hu⟩ := Option.isSome_iff_exists.mp hu0
    have hg : (match s.tags.find? (fun t => t.id == a.tag_id),
          s.users.find? (fun u => u.id == a.user_id) with
        | some t, some u => some (a, t, u)
        | _, _ => none) = some (a, t, u) := by
      rw [ht, hu]
    rw [List.filterMap_cons, hg, List.map_cons]
    rw [ih (fun b hb => h b (List.mem_cons_of_mem _ hb))]

/-- Every join element is a joined row with its found tag and user rows. -/
theorem join_mem_spec (s : State) (l : List AnnotRow) (x : AnnotRow × TagRow × UserRow)
    (hx : x ∈ l.filterMap (fun a =>
      match s.tags.find? (fun t => t.id == a.tag_id),
            s.users.find? (fun u => u.id == a.user_id) with
      | some t, some u => some (a, t, u)
      | _, _ => none)) :
    x.1 ∈ l ∧ s.tags.find? (fun t => t.id == x.1.tag_id) = some x.2.1 ∧
      s.users.find? (fun u => u.id == x.1.user_id) = some x.2.2 := by
  obtain ⟨a, ha, heq⟩ := List.mem_filterMap.mp hx
  cases ht : s.tags.find? (fun t => t.id == a.tag_id) with
  | none =>
    rw [ht] at heq
    cases heq
  | some t =>
    cases hu : s.users.find? (fun u => u.id == a.user_id) with
    | none =>
      rw [ht, hu] at heq
      cases heq
    | some u =>
      rw [ht, hu] at heq
      cases heq
      exact ⟨ha, ht, hu⟩

/-- The exported annotation records of an image under the schema constraints:
one record per active row, distinct `(tag, category, username)` keys, every
tag drawn from the vocabulary, and no more distinct authors than distinct
active annotators. -/
theorem exportAnnRecs_spec (s : State) (i : Nat)
    (hFK : ∀ a ∈ activeAnnots s i,
      (s.tags.find? (fun t => t.id == a.tag_id)).isSome = true ∧
      (s.users.find? (fun u => u.id == a.user_id)).isSome = true)
    (htagkeyN : (s.tags.map (fun t => (t.name, t.category))).Nodup)
    (husernameN : (s.users.map (fun u => u.username)).Nodup)
    (hannkeyN : (s.annots.map annKey).Nodup) :
    (exportAnnRecs s i).length = activeAnnotCount s i ∧
    (((exportAnnRecs s i).map (fun r => (r.tag, r.category, r.username))).Nodup) ∧
    (∀ rc ∈ exportAnnRecs s i,
      ∃ tg ∈ s.tags, tg.name = rc.tag ∧ tg.category = rc.category) ∧
    ((exportAnnRecs s i).map (fun r => r.username)).dedup.length ≤
      distinctActiveUsers s i := by
  have hperm : (get_tags_for_image s i).Perm
      ((activeAnnots s i).filterMap (fun a =>
        match s.tags.find? (fun t => t.id == a.tag_id),
              s.users.find? (fun u => u.id == a.user_id) with
        | some t, some u => some (a, t, u)
        | _, _ => none)) := sortByLe_perm _ _
  have hfst := join_fst_spec s (activeAnnots s i) hFK
  have hactN : (activeAnnots s i).Nodup := by
    unfold activeAnnots
    exact List.Nodup.filter _ (List.Nodup.of_map _ hannkeyN)
  have hJUN : ((activeAnnots s i).filterMap (fun a =>
      match s.tags.find? (fun t => t.id == a.tag_id),
            s.users.find? (fun u => u.id == a.user_id) with
      | some t, some u => some (a, t, u)
      | _, _ => none)).Nodup := by
    apply List.Nodup.of_map (fun x => x.1)
    rw [hfst]
    exact hactN
  have hmemJ := fun x hx => join_mem_spec s (activeAnnots s i) x hx
  have hinj : ∀ x ∈ (activeAnnots s i).filterMap (fun a =>
      match s.tags.find? (fun t => t.id == a.tag_id),
            s.users.find? (fun u => u.id == a.user_id) with
      | some t, some u => some (a, t, u)
      | _, _ => none),
      ∀ y ∈ (activeAnnots s i).filterMap (fun a =>
      match s.tags.find? (fun t => t.id == a.tag_id),
            s.users.find? (fun u => u.id == a.user_id) with
      | some t, some u => some (a, t, u)
      | _, _ => none),
      (fun x => (x.2.1.name, x.2.1.category, x.2.2.username)) x =
        (fun x => (x.2.1.name, x.2.1.category, x.2.2.username)) y → x = y := by
    intro x hx y hy hK
    obtain ⟨hx1, hxt, hxu⟩ := hmemJ x hx
    obtain ⟨hy1, hyt, hyu⟩ := hmemJ y hy
    simp only [Prod.mk.injEq] at hK
    obtain ⟨hn, hc, hu2⟩ := hK
    have htageq : x.2.1 = y.2.1 :=
      List.inj_on_of_nodup_map htagkeyN (List.mem_of_find?_eq_some hxt)
        (List.mem_of_find?_eq_some hyt) (by rw [hn, hc])
    have husr : x.2.2 = y.2.2 :=
      List.inj_on_of_nodup_map husernameN (List.mem_of_find?_eq_some hxu)
        (List.mem_of_find?_eq_some hyu) hu2
    have hxtid : x.2.1.id = x.1.tag_id := by
      have := List.find?_some hxt
      simpa using this
    have hytid : y.2.1.id = y.1.tag_id := by
      have := List.find?_some hyt
      simpa using this
    have hxuid : x.2.2.id = x.1.user_id := by
      have := List.find?_some hxu
      simpa using this
    have hyuid : y.2.2.id = y.1.user_id := by
      have := List.find?_some hyu
      simpa using this
    have hxim : x.1.image_id = i ∧ x.1.is_deleted = false := by
      have hx1f := hx1
      unfold activeAnnots at hx1f
      have := List.of_mem_filter hx1f
      simpa using this
    have hyim : y.1.image_id = i ∧ y.1.is_deleted = false := by
      have hy1f := hy1
      unfold activeAnnots at hy1f
      have := List.of_mem_filter hy1f
      simpa using this
    have hx1mem : x.1 ∈ s.annots := by
      have hx1f := hx1
      unfold activeAnnots at hx1f
      exact List.mem_of_mem_filter hx1f
    have hy1mem : y.1 ∈ s.annots := by
      have hy1f := hy1
      unfold activeAnnots at hy1f
      exact List.mem_of_mem_filter hy1f
    have hann : x.1 = y.1 := by
      apply List.inj_on_of_nodup_map hannkeyN hx1mem hy1mem
      unfold annKey
      rw [hxim.1, hyim.1, ← hxtid, ← hytid, htageq, ← hxuid, ← hyuid, husr]
    exact Prod.ext hann (Prod.ext htageq husr)
  have hkeysU : (((activeAnnots s i).filterMap (fun a =>
      match s.tags.find? (fun t => t.id == a.tag_id),
            s.users.find? (fun u => u.id == a.user_id) with
      | some t, some u => some (a, t, u)
      | _, _ => none)).map
      (fun x => (x.2.1.name, x.2.1.category, x.2.2.username))).Nodup :=
    List.Nodup.map_on hinj hJUN
  refine ⟨?_, ?_, ?_, ?_⟩
  · unfold exportAnnRecs activeAnnotCount
    rw [List.length_map, hperm.length_eq]
    have hlen := congrArg List.length hfst
    rw [List.length_map] at hlen
    exact hlen
  · have heq : (exportAnnRecs s i).map (fun r => (r.tag, r.category, r.username)) =
        (get_tags_for_image s i).map
          (fun x => (x.2.1.name, x.2.1.category, x.2.2.username)) := by
      unfold exportAnnRecs
      rw [List.map_map]
      exact List.map_congr_left (fun a ha => rfl)
    rw [heq]
    exact (hperm.map _).symm.nodup hkeysU
  · intro rc hrc
    unfold exportAnnRecs at hrc
    obtain ⟨x, hxmem, hxe⟩ := List.mem_map.mp hrc
    have hxJ : x ∈ (activeAnnots s i).filterMap (fun a =>
        match s.tags.find? (fun t => t.id == a.tag_id),
              s.users.find? (fun u => u.id == a.user_id) with
        | some t, some u => some (a, t, u)
        | _, _ => none) := hperm.mem_iff.mp hxmem
    obtain ⟨_, hxt, _⟩ := hmemJ x hxJ
    refine ⟨x.2.1, List.mem_of_find?_eq_some hxt, ?_, ?_⟩
    · rw [← hxe]
    · rw [← hxe]
  · have husr_eq : (exportAnnRecs s i).map (fun r => r.username) =
        (get_tags_for_image s i).map (fun x => x.2.2.username) := by
      unfold exportAnnRecs
      rw [List.map_map]
      exact List.map_congr_left (fun a ha => rfl)
    rw [husr_eq]
    rw [dedup_length_perm _ _ (hperm.map (fun x => x.2.2.username))]
    have hstep1 : ((activeAnnots s i).filterMap (fun a =>
        match s.tags.find? (fun t => t.id == a.tag_id),
              s.users.find? (fun u => u.id == a.user_id) with
        | some t, some u => some (a, t, u)
        | _, _ => none)).map (fun x => x.2.2.username) =
        ((activeAnnots s i).map (fun a => a.user_id)).map (fun uid =>
          ((s.users.find? (fun u => u.id == uid)).map (fun u => u.username)).getD "") := by
      have h_a : ((activeAnnots s i).filterMap (fun a =>
          match s.tags.find? (fun t => t.id == a.tag_id),
                s.users.find? (fun u => u.id == a.user_id) with
          | some t, some u => some (a, t, u)
          | _, _ => none)).map (fun x => x.1.user_id) =
          (activeAnnots s i).map (fun a => a.user_id) := by
        have hcomp := congrArg (List.map (fun a => a.user_id)) hfst
        rw [List.map_map] at hcomp
        rw [← hcomp]
        exact List.map_congr_left (fun x hx => rfl)
      have h_b : ((activeAnnots s i).filterMap (fun a =>
          match s.tags.find? (fun t => t.id == a.tag_id),
                s.users.find? (fun u => u.id == a.user_id) with
          | some t, some u => some (a, t, u)
          | _, _ => none)).map (fun x => x.2.2.username) =
          (((activeAnnots s i).filterMap (fun a =>
          match s.tags.find? (fun t => t.id == a.tag_id),
                s.users.find? (fun u => u.id == a.user_id) with
          | some t, some u => some (a, t, u)
          | _, _ => none)).map (fun x => x.1.user_id)).map (fun uid =>
            ((s.users.find? (fun u => u.id == uid)).map
              (fun u => u.username)).getD "") := by
        rw [List.map_map]
        apply List.map_congr_left
        intro x hx
        obtain ⟨_, _, hxu⟩ := hmemJ x hx
        simp only [Function.comp]
        rw [hxu]
        rfl
      rw [h_b, h_a]
    rw [hstep1]
    have hle := dedup_map_length_le ((activeAnnots s i).map (fun a => a.user_id))
      (fun uid => ((s.users.find? (fun u => u.id == uid)).map
        (fun u => u.username)).getD "")
    apply le_trans hle
    unfold distinctActiveUsers
    rw [List.card_toFinset]

/-- The author names of exported vote records, computed through the user
join. -/
theorem qual_usernames_map (s : State) :
    ∀ l : List VoteRow,
    (∀ v ∈ l, (s.users.find? (fun u => u.id == v.user_id)).isSome = true) →
    ((l.filterMap (fun v => match s.users.find? (fun u => u.id == v.user_id) with
      | some u => some (⟨u.username, v.label, v.score, v.created_at⟩ : QualRec)
      | none => none)).map (fun q => q.username)) =
    (l.map (fun v => v.user_id)).map (fun uid =>
      ((s.users.find? (fun u => u.id == uid)).map (fun u => u.username)).getD "") := by
  intro l
  induction l with
  | nil =>
    intro _
    rfl
  | cons v rest ih =>
    intro h
    obtain ⟨u, hu⟩ := Option.isSome_iff_exists.mp (h v (List.mem_cons_self _ _))
    have hg : (match s.users.find? (fun u => u.id == v.user_id) with
        | some u => some (⟨u.username, v.label, v.score, v.created_at⟩ : QualRec)
        | none => none) = some ⟨u.username, v.label, v.score, v.created_at⟩ := by
      rw [hu]
    rw [List.filterMap_cons, hg, List.map_cons, List.map_cons, List.map_cons]
    rw [ih (fun w hw => h w (List.mem_cons_of_mem _ hw))]
    have hhead : ((s.users.find? (fun x => x.id == v.user_id)).map
        (fun x => x.username)).getD "" = u.username := by
      rw [hu]
      rfl
    rw [hhead]

/-- Every exported vote record takes its label from a vote row. -/
theorem qual_mem_label (s : State) (l : List VoteRow) (q : QualRec)
    (hq : q ∈ l.filterMap (fun v =>
      match s.users.find? (fun u => u.id == v.user_id) with
      | some u => some (⟨u.username, v.label, v.score, v.created_at⟩ : QualRec)
      | none => none)) :
    ∃ v ∈ l, q.label = v.label := by
  obtain ⟨v, hv, heq⟩ := List.mem_filterMap.mp hq
  cases hu : s.users.find? (fun u => u.id == v.user_id) with
  | none =>
    rw [hu] at heq
    cases heq
  | some u =>
    rw [hu] at heq
    cases heq
    exact ⟨v, hv, rfl⟩

/-- The vote authors of one image are pairwise distinct user ids
(`UNIQUE(image_id, user_id)`). -/
theorem filtered_uids_nodup (s : State) (i : Nat)
    (hpairN : (s.votes.map (fun v => (v.image_id, v.user_id))).Nodup) :
    ((s.votes.filter (fun v => v.image_id == i)).map (fun v => v.user_id)).Nodup := by
  apply List.Nodup.map_on
  · intro x hx y hy hxy
    apply List.inj_on_of_nodup_map hpairN (List.mem_of_mem_filter hx)
      (List.mem_of_mem_filter hy)
    have hxi : x.image_id = i := by
      have := List.of_mem_filter hx
      simpa using this
    have hyi : y.image_id = i := by
      have := List.of_mem_filter hy
      simpa using this
    rw [hxi, hyi, hxy]
  · exact List.Nodup.filter _ (List.Nodup.of_map _ hpairN)

/-- The exported vote records of an image under the schema constraints:
one record per vote row, distinct author names, valid labels. -/
theorem exportQualRecs_spec (s : State) (i : Nat)
    (hFKv : ∀ v ∈ s.votes, (s.users.find? (fun u => u.id == v.user_id)).isSome = true)
    (hpairN : (s.votes.map (fun v => (v.image_id, v.user_id))).Nodup)
    (husernameN : (s.users.map (fun u => u.username)).Nodup)
    (hlabels : ∀ v ∈ s.votes, validLabel v.label = true) :
    (exportQualRecs s i).length = voteCount s i ∧
    ((exportQualRecs s i).map (fun q => q.username)).Nodup ∧
    (∀ q ∈ exportQualRecs s i, validLabel q.label = true) := by
  have hsub : ∀ v ∈ s.votes.filter (fun v => v.image_id == i), v ∈ s.votes :=
    fun v hv => List.mem_of_mem_filter hv
  refine ⟨?_, ?_, ?_⟩
  · unfold exportQualRecs voteCount
    apply filterMap_length_all_some
    intro v hv
    obtain ⟨u, hu⟩ := Option.isSome_iff_exists.mp (hFKv v (hsub v hv))
    rw [hu]
    rfl
  · unfold exportQualRecs
    rw [qual_usernames_map s _ (fun v hv => hFKv v (hsub v hv))]
    apply List.Nodup.map_on
    · intro uid1 h1 uid2 h2 heq
      obtain ⟨v1, hv1, hv1e⟩ := List.mem_map.mp h1
      obtain ⟨v2, hv2, hv2e⟩ := List.mem_map.mp h2
      have hsome1 : (s.users.find? (fun u => u.id == uid1)).isSome = true := by
        rw [← hv1e]
        exact hFKv v1 (hsub v1 hv1)
      have hsome2 : (s.users.find? (fun u => u.id == uid2)).isSome = true := by
        rw [← hv2e]
        exact hFKv v2 (hsub v2 hv2)
      obtain ⟨u1, hu1⟩ := Option.isSome_iff_exists.mp hsome1
      obtain ⟨u2, hu2⟩ := Option.isSome_iff_exists.mp hsome2
      rw [hu1, hu2] at heq
      simp only [Option.map_some', Option.getD_some] at heq
      have hueq : u1 = u2 :=
        List.inj_on_of_nodup_map husernameN (List.mem_of_find?_eq_some hu1)
          (List.mem_of_find?_eq_some hu2) heq
      have hid1 : u1.id = uid1 := by
        have := List.find?_some hu1
        simpa using this
      have hid2 : u2.id = uid2 := by
        have := List.find?_some hu2
        simpa using this
      rw [← hid1, ← hid2, hueq]
    · exact filtered_uids_nodup s i hpairN
  · intro q hq
    unfold exportQualRecs at hq
    obtain ⟨v, hv, hlab⟩ := qual_mem_label s _ q hq
    rw [hlab]
    exact hlabels v (hsub v hv)

/-- The exported attachment records of an image: one per attachment row,
digests and extensions drawn from the rows. -/
theorem exportAttRecs_spec (s : State) (i : Nat) :
    (exportAttRecs s i).length = attCount s i ∧
    (exportAttRecs s i).map (fun a => a.sha256) =
      (s.atts.filter (fun a => a.image_id == i)).map (fun a => a.sha256) ∧
    ∀ rc ∈ exportAttRecs s i, ∃ arow ∈ s.atts, arow.image_id = i ∧
      rc.sha256 = arow.sha256 ∧ rc.ext = safe_ext arow.rel_path := by
  refine ⟨?_, ?_, ?_⟩
  · unfold exportAttRecs attCount
    rw [List.length_map]
  · unfold exportAttRecs
    rw [List.map_map]
    exact List.map_congr_left (fun a ha => rfl)
  · intro rc hrc
    unfold exportAttRecs at hrc
    obtain ⟨a, ha, hae⟩ := List.mem_map.mp hrc
    have hmem := List.mem_of_mem_filter ha
    have himg : a.image_id = i := by
      have := List.of_mem_filter ha
      simpa using this
    exact ⟨a, hmem, himg, by rw [← hae], by rw [← hae]⟩

/-- Every selected image's bytes and every referenced attachment's bytes are
bundled in the archive. -/
theorem export_members_spec (s : State) (sel : List Nat) (uname : String)
    (hshaN : (s.images.map (fun r => r.sha256)).Nodup)
    (hattshaN : (s.atts.map (fun a => a.sha256)).Nodup) :
    (∀ row ∈ sel.filterMap (fun i => s.images.find? (fun r => r.id == i)),
      (export_selection s sel uname).imgMembers.contains
        (row.sha256 ++ safe_ext row.rel_path) = true) ∧
    (∀ row ∈ sel.filterMap (fun i => s.images.find? (fun r => r.id == i)),
      ∀ a ∈ s.atts.filter (fun a => a.image_id == row.id),
        (a.sha256 ++ safe_ext a.rel_path) ∈ (export_selection s sel uname).attMembers) := by
  constructor
  · intro row hrow
    obtain ⟨j, hj, hjf⟩ := List.mem_filterMap.mp hrow
    have hrmem : row ∈ s.images := List.mem_of_find?_eq_some hjf
    have hfind : s.images.find? (fun y => y.sha256 == row.sha256) = some row :=
      find?_key_self s.images (fun r => r.sha256) hshaN row hrmem
    apply contains_of_mem
    unfold export_selection
    apply List.mem_filterMap.mpr
    refine ⟨row.sha256, ?_, ?_⟩
    · apply List.mem_dedup.mpr
      exact List.mem_map_of_mem _ hrow
    · rw [hfind]
      rfl
  · intro row hrow a ha
    have hamem : a ∈ s.atts := List.mem_of_mem_filter ha
    have hfind : s.atts.find? (fun y => y.sha256 == a.sha256) = some a :=
      find?_key_self s.atts (fun x => x.sha256) hattshaN a hamem
    unfold export_selection
    apply List.mem_filterMap.mpr
    refine ⟨a.sha256, ?_, ?_⟩
    · apply List.mem_dedup.mpr
      apply List.mem_flatten.mpr
      refine ⟨(s.atts.filter (fun x => x.image_id == row.id)).map (fun x => x.sha256),
        ?_, List.mem_map_of_mem _ ha⟩
      exact List.mem_map_of_mem _ hrow
    · rw [hfind]
      rfl

/-- C4 (amended): the full export/import round trip for selections whose
images each have at most 4 distinct active annotators. -/
theorem c4_roundtrip_main (s : State) (sel : List Nat) (uname : String)
    (now now2 : Int) (hWf : Wf s) (hselN : sel.Nodup)
    (hfound : ∀ i ∈ sel, (s.images.find? (fun r => r.id == i)).isSome = true)
    (hcap : ∀ i ∈ sel, distinctActiveUsers s i ≤ 4) :
    ∃ T, import_archive emptyState (export_selection s sel uname) now = .ok T ∧
      T.images.length = sel.length ∧
      totalActiveAnnots T = (sel.map (fun i => activeAnnotCount s i)).sum ∧
      T.votes.length = (sel.map (fun i => voteCount s i)).sum ∧
      T.atts.length = (sel.map (fun i => attCount s i)).sum ∧
      ∃ T2, import_archive T (export_selection s sel uname) now2 = .ok T2 ∧
        T2.users = T.users ∧ T2.tags = T.tags ∧ T2.images = T.images ∧
        T2.annots = T.annots ∧ T2.atts = T.atts ∧
        T2.votes.length = T.votes.length := by
  obtain ⟨huidN, hunameN, himidN, himshaN, htidN, htkeyN, hakN, haFK, hvpN, hvFK,
      hashaN⟩ := hWf
  obtain ⟨hrowslen, hrowsmem, hrowsid⟩ := sel_rows_spec s sel hfound
  have hrowsN : (sel.filterMap (fun i => s.images.find? (fun r => r.id == i))).Nodup := by
    apply List.Nodup.of_map (fun r => r.id)
    rw [hrowsid]
    exact hselN
  have hrowsShaN : ((sel.filterMap (fun i =>
      s.images.find? (fun r => r.id == i))).map (fun r => r.sha256)).Nodup := by
    apply List.Nodup.map_on
    · intro x hx y hy hxy
      exact List.inj_on_of_nodup_map himshaN (hrowsmem x hx) (hrowsmem y hy) hxy
    · exact hrowsN
  have hFKt : ∀ i0 : Nat, ∀ a ∈ activeAnnots s i0,
      (s.tags.find? (fun t => t.id == a.tag_id)).isSome = true ∧
      (s.users.find? (fun u => u.id == a.user_id)).isSome = true := by
    intro i0 a ha
    have hmem : a ∈ s.annots := by
      unfold activeAnnots at ha
      exact List.mem_of_mem_filter ha
    obtain ⟨⟨t, ht, htid⟩, u, hu, huid⟩ := haFK a hmem
    constructor
    · exact find?_isSome_of_mem _ _ t ht (by simp [htid])
    · exact find?_isSome_of_mem _ _ u hu (by simp [huid])
  have hFKv2 : ∀ v ∈ s.votes,
      (s.users.find? (fun u => u.id == v.user_id)).isSome = true := by
    intro v hv
    obtain ⟨⟨u, hu, huid⟩, _⟩ := hvFK v hv
    exact find?_isSome_of_mem _ _ u hu (by simp [huid])
  have hlabels : ∀ v ∈ s.votes, validLabel v.label = true := fun v hv => (hvFK v hv).2
  obtain ⟨hmemImg, hmemAtt⟩ := export_members_spec s sel uname himshaN hashaN
  have himgRecs : (export_selection s sel uname).imgRecs =
      (sel.filterMap (fun i => s.images.find? (fun r => r.id == i))).map
        (exportImgRec s) := rfl
  have htagRecsAr : (export_selection s sel uname).tagRecs =
      s.tags.map (fun t => (t.name, t.category, t.description)) := rfl
  have hArShaN : ((export_selection s sel uname).imgRecs.map
      (fun im => im.sha256)).Nodup := by
    have hshaAr : ((export_selection s sel uname).imgRecs.map (fun im => im.sha256)) =
        (sel.filterMap (fun i => s.images.find? (fun r => r.id == i))).map
          (fun r => r.sha256) := by
      rw [himgRecs, List.map_map]
      exact List.map_congr_left (fun r hr => rfl)
    rw [hshaAr]
    exact hrowsShaN
  have hqNrecs : ∀ im ∈ (export_selection s sel uname).imgRecs,
      (im.qualRecs.map (fun q => q.username)).Nodup := by
    intro im him
    rw [himgRecs] at him
    obtain ⟨row, hrowm, hime⟩ := List.mem_map.mp him
    subst hime
    exact (exportQualRecs_spec s row.id hFKv2 hvpN hunameN hlabels).2.1
  have hUempty : UsersInv emptyState :=
    ⟨List.nodup_nil, List.nodup_nil, fun u hu => absurd hu (List.not_mem_nil u)⟩
  have hTempty : TagsInv emptyState :=
    ⟨List.nodup_nil, List.nodup_nil, fun u hu => absurd hu (List.not_mem_nil u)⟩
  obtain ⟨du0, hS1eq, hS1inv, hS1find⟩ :=
    usersFold_spec (export_selection s sel uname).users emptyState hUempty
  have hTinvS1 : TagsInv ((export_selection s sel uname).users.foldl
      (fun st u => (ensure_user st u.1 u.2).2) emptyState) := by
    rw [hS1eq]
    exact hTempty
  obtain ⟨dt0, hS2eq, hS2inv, hS2find⟩ :=
    tagsFold_spec (export_selection s sel uname).tagRecs
      ((export_selection s sel uname).users.foldl
        (fun st u => (ensure_user st u.1 u.2).2) emptyState) hTinvS1
  have hS2images : ((export_selection s sel uname).tagRecs.foldl
      (fun st tr => (upsert_tag st tr.1 tr.2.1 tr.2.2).2)
      ((export_selection s sel uname).users.foldl
        (fun st u => (ensure_user st u.1 u.2).2) emptyState)).images = [] := by
    rw [hS2eq, hS1eq]
    rfl
  have hS2annots : ((export_selection s sel uname).tagRecs.foldl
      (fun st tr => (upsert_tag st tr.1 tr.2.1 tr.2.2).2)
      ((export_selection s sel uname).users.foldl
        (fun st u => (ensure_user st u.1 u.2).2) emptyState)).annots = [] := by
    rw [hS2eq, hS1eq]
    rfl
  have hS2votes : ((export_selection s sel uname).tagRecs.foldl
      (fun st tr => (upsert_tag st tr.1 tr.2.1 tr.2.2).2)
      ((export_selection s sel uname).users.foldl
        (fun st u => (ensure_user st u.1 u.2).2) emptyState)).votes = [] := by
    rw [hS2eq, hS1eq]
    rfl
  have hS2atts : ((export_selection s sel uname).tagRecs.foldl
      (fun st tr => (upsert_tag st tr.1 tr.2.1 tr.2.2).2)
      ((export_selection s sel uname).users.foldl
        (fun st u => (ensure_user st u.1 u.2).2) emptyState)).atts = [] := by
    rw [hS2eq, hS1eq]
    rfl
  have hUinvS2 : UsersInv ((export_selection s sel uname).tagRecs.foldl
      (fun st tr => (upsert_tag st tr.1 tr.2.1 tr.2.2).2)
      ((export_selection s sel uname).users.foldl
        (fun st u => (ensure_user st u.1 u.2).2) emptyState)) := by
    rw [hS2eq]
    exact hS1inv
  have hS2userfind : ∀ p ∈ (export_selection s sel uname).users,
      (((export_selection s sel uname).tagRecs.foldl
        (fun st tr => (upsert_tag st tr.1 tr.2.1 tr.2.2).2)
        ((export_selection s sel uname).users.foldl
          (fun st u => (ensure_user st u.1 u.2).2) emptyState)).users.find?
        (fun x => x.username == p.1)).isSome = true := by
    intro p hp
    rw [hS2eq]
    exact hS1find p hp
  obtain ⟨T, hTrun, ⟨di, hdi, hdilen⟩, hTtags, hTnt, ⟨duT, hduT⟩, hUT, hTT,
      ⟨dk, hdk, hdklen, hdkrow⟩, ⟨dv, hdv, hdvlen, hdvim⟩, ⟨dc, hdc, hdclen⟩,
      hnile, hibT, hidNT, hPT⟩ :=
    importImgRecs_spec (export_selection s sel uname) now
      (export_selection s sel uname).imgRecs
      ((export_selection s sel uname).tagRecs.foldl
        (fun st tr => (upsert_tag st tr.1 tr.2.1 tr.2.2).2)
        ((export_selection s sel uname).users.foldl
          (fun st u => (ensure_user st u.1 u.2).2) emptyState))
      hArShaN
      (by
        intro im him
        rw [hS2images]
        rfl)
      (by
        intro im him
        rw [himgRecs] at him
        obtain ⟨row, hrowm, hime⟩ := List.mem_map.mp him
        subst hime
        exact hmemImg row hrowm)
      (by
        intro im him a2 ha2
        rw [hS2atts]
        rfl)
      (by
        have hblocks : (export_selection s sel uname).imgRecs.map
            (fun im => im.attRecs.map (fun a => a.sha256)) =
            ((sel.filterMap (fun i => s.images.find? (fun r => r.id == i))).map
              (fun r => r.id)).map (fun i =>
                (s.atts.filter (fun a => a.image_id == i)).map
                  (fun a => a.sha256)) := by
          rw [himgRecs, List.map_map, List.map_map]
          apply List.map_congr_left
          intro r hr
          simp only [Function.comp]
          exact (exportAttRecs_spec s r.id).2.1
        rw [hblocks]
        exact att_blocks_nodup s _ (by rw [hrowsid]; exact hselN) hashaN)
      (by
        intro im him a2 ha2
        rw [himgRecs] at him
        obtain ⟨row, hrowm, hime⟩ := List.mem_map.mp him
        subst hime
        obtain ⟨arow, harowmem, harowimg, hsha, hext⟩ :=
          (exportAttRecs_spec s row.id).2.2 a2 ha2
        rw [hsha, hext]
        apply hmemAtt row hrowm
        exact List.mem_filter.mpr ⟨harowmem, by simp [harowimg]⟩)
      (by
        intro im him
        rw [himgRecs] at him
        obtain ⟨row, hrowm, hime⟩ := List.mem_map.mp him
        subst hime
        exact (exportAnnRecs_spec s row.id (hFKt row.id) htkeyN hunameN hakN).2.1)
      (by
        intro im him
        rw [himgRecs] at him
        obtain ⟨row, hrowm, hime⟩ := List.mem_map.mp him
        subst hime
        have hrowsel : row.id ∈ sel := by
          rw [← hrowsid]
          exact List.mem_map_of_mem _ hrowm
        exact le_trans
          (exportAnnRecs_spec s row.id (hFKt row.id) htkeyN hunameN hakN).2.2.2
          (hcap row.id hrowsel))
      (by
        intro im him r2 hr2
        rw [himgRecs] at him
        obtain ⟨row, hrowm, hime⟩ := List.mem_map.mp him
        subst hime
        obtain ⟨tg, htgmem, htgname, htgcat⟩ :=
          (exportAnnRecs_spec s row.id (hFKt row.id) htkeyN hunameN hakN).2.2.1 r2 hr2
        have htr : (tg.name, tg.category, tg.description) ∈
            (export_selection s sel uname).tagRecs := by
          rw [htagRecsAr]
          exact List.mem_map_of_mem _ htgmem
        have hfind := hS2find _ htr
        rw [← htgname, ← htgcat]
        exact hfind)
      hqNrecs
      (by
        intro im him q hq
        rw [himgRecs] at him
        obtain ⟨row, hrowm, hime⟩ := List.mem_map.mp him
        subst hime
        exact (exportQualRecs_spec s row.id hFKv2 hvpN hunameN hlabels).2.2 q hq)
      hUinvS2
      hS2inv
      (by
        intro a ha
        rw [hS2annots] at ha
        cases ha)
      (by
        intro v hv
        rw [hS2votes] at hv
        cases hv)
      (by
        intro i0 hi0
        rw [hS2images] at hi0
        cases hi0)
      (by
        rw [hS2images]
        exact List.nodup_nil)
  have hrun1 : import_archive emptyState (export_selection s sel uname) now = .ok T := by
    unfold import_archive
    exact hTrun
  have hTimagesEq : T.images = di := by
    rw [hdi, hS2images]
    rfl
  have hTannotsEq : T.annots = dk := by
    rw [hdk, hS2annots]
    rfl
  have hTvotesEq : T.votes = dv := by
    rw [hdv, hS2votes]
    rfl
  have hTattsEq : T.atts = dc := by
    rw [hdc, hS2atts]
    rfl
  have hannsum : (export_selection s sel uname).imgRecs.map
      (fun im => im.annRecs.length) = sel.map (fun i => activeAnnotCount s i) := by
    rw [himgRecs, List.map_map]
    have h1 : (sel.filterMap (fun i => s.images.find? (fun r => r.id == i))).map
        ((fun im => im.annRecs.length) ∘ exportImgRec s) =
        (sel.filterMap (fun i => s.images.find? (fun r => r.id == i))).map
          (fun r => activeAnnotCount s r.id) :=
      List.map_congr_left (fun r hr => by
        simp only [Function.comp]
        exact (exportAnnRecs_spec s r.id (hFKt r.id) htkeyN hunameN hakN).1)
    rw [h1]
    have h2 : (sel.filterMap (fun i => s.images.find? (fun r => r.id == i))).map
        (fun r => activeAnnotCount s r.id) =
        ((sel.filterMap (fun i => s.images.find? (fun r => r.id == i))).map
          (fun r => r.id)).map (fun i => activeAnnotCount s i) := by
      rw [List.map_map]
      exact List.map_congr_left (fun r hr => rfl)
    rw [h2, hrowsid]
  have hqualsum : (export_selection s sel uname).imgRecs.map
      (fun im => im.qualRecs.length) = sel.map (fun i => voteCount s i) := by
    rw [himgRecs, List.map_map]
    have h1 : (sel.filterMap (fun i => s.images.find? (fun r => r.id == i))).map
        ((fun im => im.qualRecs.length) ∘ exportImgRec s) =
        (sel.filterMap (fun i => s.images.find? (fun r => r.id == i))).map
          (fun r => voteCount s r.id) :=
      List.map_congr_left (fun r hr => by
        simp only [Function.comp]
        exact (exportQualRecs_spec s r.id hFKv2 hvpN hunameN hlabels).1)
    rw [h1]
    have h2 : (sel.filterMap (fun i => s.images.find? (fun r => r.id == i))).map
        (fun r => voteCount s r.id) =
        ((sel.filterMap (fun i => s.images.find? (fun r => r.id == i))).map
          (fun r => r.id)).map (fun i => voteCount s i) := by
      rw [List.map_map]
      exact List.map_congr_left (fun r hr => rfl)
    rw [h2, hrowsid]
  have hattsum : (export_selection s sel uname).imgRecs.map
      (fun im => im.attRecs.length) = sel.map (fun i => attCount s i) := by
    rw [himgRecs, List.map_map]
    have h1 : (sel.filterMap (fun i => s.images.find? (fun r => r.id == i))).map
        ((fun im => im.attRecs.length) ∘ exportImgRec s) =
        (sel.filterMap (fun i => s.images.find? (fun r => r.id == i))).map
          (fun r => attCount s r.id) :=
      List.map_congr_left (fun r hr => by
        simp only [Function.comp]
        exact (exportAttRecs_spec s r.id).1)
    rw [h1]
    have h2 : (sel.filterMap (fun i => s.images.find? (fun r => r.id == i))).map
        (fun r => attCount s r.id) =
        ((sel.filterMap (fun i => s.images.find? (fun r => r.id == i))).map
          (fun r => r.id)).map (fun i => attCount s i) := by
      rw [List.map_map]
      exact List.map_congr_left (fun r hr => rfl)
    rw [h2, hrowsid]
  -- the second import
  have hufindT : ∀ p ∈ (export_selection s sel uname).users,
      (T.users.find? (fun x => x.username == p.1)).isSome = true := by
    intro p hp
    rw [hduT]
    exact find?_isSome_append _ _ _ (hS2userfind p hp)
  have hU1noop : (export_selection s sel uname).users.foldl
      (fun st u => (ensure_user st u.1 u.2).2) T = T :=
    usersFold_noop _ T hufindT
  have htfindT : ∀ tr ∈ (export_selection s sel uname).tagRecs,
      (T.tags.find? (fun x => x.name == tr.1 && x.category == tr.2.1)).isSome = true := by
    intro tr htr
    rw [hTtags]
    exact hS2find tr htr
  have hT2noop : (export_selection s sel uname).tagRecs.foldl
      (fun st tr => (upsert_tag st tr.1 tr.2.1 tr.2.2).2) T = T :=
    tagsFold_noop _ T htfindT
  obtain ⟨T2, hT2run, h2u, h2t, h2i, h2k, h2a, h2len⟩ :=
    importImgRecs_replay (export_selection s sel uname) now2
      (export_selection s sel uname).imgRecs T hArShaN hUT hidNT hqNrecs hPT
  refine ⟨T, hrun1, ?_, ?_, ?_, ?_, T2, ?_, h2u, h2t, h2i, h2k, h2a, h2len⟩
  · rw [hTimagesEq, hdilen, himgRecs, List.length_map, hrowslen]
  · unfold totalActiveAnnots
    rw [hTannotsEq]
    rw [List.filter_eq_self.mpr (by
      intro row hrow
      have := (hdkrow row hrow).1
      simp [this])]
    rw [hdklen, hannsum]
  · rw [hTvotesEq, hdvlen, hqualsum]
  · rw [hTattsEq, hdclen, hattsum]
  · unfold import_archive
    dsimp only
    rw [hU1noop, hT2noop]
    exact hT2run

/-- Witness for the C4 theorem: the two-annotator round-trip source store
satisfies every hypothesis at selection `[1]`. -/
theorem c4_roundtrip_main_witness :
    Wf roundTripSrc ∧ ([1] : List Nat).Nodup ∧
    (∀ i ∈ [1], (roundTripSrc.images.find? (fun r => r.id == i)).isSome = true) ∧
    (∀ i ∈ [1], distinctActiveUsers roundTripSrc i ≤ 4) ∧
    (∃ T, import_archive emptyState
        (export_selection roundTripSrc [1] "alice") 100 = .ok T ∧
      T.images.length = ([1] : List Nat).length ∧
      totalActiveAnnots T = ([1].map (fun i => activeAnnotCount roundTripSrc i)).sum ∧
      T.votes.length = ([1].map (fun i => voteCount roundTripSrc i)).sum ∧
      T.atts.length = ([1].map (fun i => attCount roundTripSrc i)).sum ∧
      ∃ T2, import_archive T (export_selection roundTripSrc [1] "alice") 200 = .ok T2 ∧
        T2.users = T.users ∧ T2.tags = T.tags ∧ T2.images = T.images ∧
        T2.annots = T.annots ∧ T2.atts = T.atts ∧
        T2.votes.length = T.votes.length) :=
  ⟨by unfold Wf; decide, by decide, by decide, by decide,
    c4_roundtrip_main roundTripSrc [1] "alice" 100 200 (by unfold Wf; decide)
      (by decide) (by decide) (by decide)⟩
